import Mathlib

/-! dwgrep: the DWARF traversal operators

A shallow embedding of the operators and predicates of `src/builtin-dw.cc`, of
`pred_builtin::maybe_invert` and the dictionary of builtins of `src/builtin.cc`, and of
the sequences of `src/value-seq.cc`.

* An operator (`op` in the source) is a state record together with a `next`
  function.  `next` is a `while` loop in the source; here every loop is run
  with a fuel argument, and the theorems state that enough fuel gives the
  result.
* A stack frame (`valfile`) is a list of values, top of stack first.
* The DWARF image read through libdw is a forest of DIEs in first-child /
  next-sibling form (`die_chain`); a `Dwarf_Die` handle is one node of it
  together with what can be reached from it, exactly what libdw can read
  through the handle.
* In the dictionary and the sequences, an assertion that fails, like a call that
  does not return, is the result `none`.
-/

namespace dwgrep

/-! ## DWARF image (the libdw side) -/

abbrev Dwarf_Off := Nat

/-- An attribute of a DIE: its name code, its form code and its raw datum. -/
structure Dwarf_Attribute where
  code : Nat
  form : Nat
  data : Int
  deriving DecidableEq, Repr

/-- One opcode of a location expression. -/
structure Dwarf_Op where
  atom : Nat
  number : Nat
  number2 : Nat
  offset : Nat
  deriving DecidableEq, Repr

/-- A chain of sibling DIEs as it lies in `.debug_info`: each entry is followed
by the chain of its children and then by its next siblings. -/
inductive die_chain where
  | nil : die_chain
  | cons (offset : Dwarf_Off) (tag : Nat) (attrs : List Dwarf_Attribute)
      (children : die_chain) (siblings : die_chain) : die_chain
  deriving DecidableEq, Repr

/-- A DIE handle: the entry it points at, with the chains reachable from it. -/
structure Dwarf_Die where
  offset : Dwarf_Off
  tag : Nat
  attrs : List Dwarf_Attribute
  children : die_chain
  siblings : die_chain
  deriving DecidableEq, Repr

/-- The handle of the first entry of a chain, if the chain is not empty. -/
def die_chain.first : die_chain → Option Dwarf_Die
  | .nil => none
  | .cons o t a c s => some ⟨o, t, a, c, s⟩

/-- The entries of a chain itself (not their descendants), in sibling order. -/
def die_chain.entries : die_chain → List Dwarf_Die
  | .nil => []
  | .cons o t a c s => ⟨o, t, a, c, s⟩ :: s.entries

/-- All DIEs of a chain in file order: an entry, its descendants, then its siblings. -/
def die_chain.dies : die_chain → List Dwarf_Die
  | .nil => []
  | .cons o t a c s => ⟨o, t, a, c, s⟩ :: (c.dies ++ s.dies)

def dwarf_dieoffset (die : Dwarf_Die) : Dwarf_Off := die.offset

def dwarf_tag (die : Dwarf_Die) : Nat := die.tag

/-- libdw `dwarf_haschildren`: modelled as "the chain of children is not empty". -/
def dwarf_haschildren (die : Dwarf_Die) : Bool :=
  match die.children with
  | .nil => false
  | .cons _ _ _ _ _ => true

/-- libdw `dwarf_child`: the first child (`none` stands for a non-zero return). -/
def dwarf_child (die : Dwarf_Die) : Option Dwarf_Die := die.children.first

/-- libdw `dwarf_siblingof`: the next sibling (`none` stands for return value 1).
The operators call it on children only, never on a CU DIE, whose `siblings` stand
for the units after it. -/
def dwarf_siblingof (die : Dwarf_Die) : Option Dwarf_Die := die.siblings.first

/-- libdw `dwarf_attr`: the attribute of the DIE with the given name code. -/
def dwarf_attr (die : Dwarf_Die) (name : Nat) : Option Dwarf_Attribute :=
  die.attrs.find? (fun a => a.code == name)

def dwarf_hasattr (die : Dwarf_Die) (name : Nat) : Bool :=
  (dwarf_attr die name).isSome

def dwarf_whatattr (attr : Dwarf_Attribute) : Nat := attr.code

def dwarf_whatform (attr : Dwarf_Attribute) : Nat := attr.form

/-- The children of a DIE in sibling order: what `dwarf_child` followed by
repeated `dwarf_siblingof` visits. -/
def Dwarf_Die.child_list (die : Dwarf_Die) : List Dwarf_Die := die.children.entries

/-- The graph handle shared by all operators (`dwgrep_graph::sptr`); `dwarf` is
the chain of compilation-unit DIEs, each followed by the units after it. -/
structure dwgrep_graph where
  dwarf : die_chain
  deriving DecidableEq, Repr

/-- All DIEs of the image in file order, across all compilation units. -/
def dwgrep_graph.all_dies (gr : dwgrep_graph) : List Dwarf_Die := gr.dwarf.dies

/-- libdw `dwarf_offdie`: the DIE at a given offset. -/
def dwarf_offdie (gr : dwgrep_graph) (off : Dwarf_Off) : Option Dwarf_Die :=
  gr.all_dies.find? (fun d => d.offset == off)

/-! ## Values and stack frames -/

inductive constant_dom where
  | hex_constant_dom
  | dec_constant_dom
  | dw_tag_dom
  | dw_attr_dom
  | dw_attr_short_dom
  | dw_form_dom
  | dw_locexpr_opcode_dom
  | dw_locexpr_opcode_short_dom
  | dw_lang_dom
  | dw_address_class_dom
  deriving DecidableEq, Repr

structure constant where
  value : Int
  dom : constant_dom
  deriving DecidableEq, Repr

/-- Values that travel on the stack.  Every value carries its position index
`pos`.  The graph pointer that `value_die`, `value_attr` and `value_loclist_op`
hold in the source is the one shared graph and is not repeated here. -/
inductive value where
  | value_cst (cst : constant) (pos : Nat)
  | value_str (str : String) (pos : Nat)
  | value_seq (seq : List value) (pos : Nat)
  | value_die (die : Dwarf_Die) (pos : Nat)
  | value_attr (attr : Dwarf_Attribute) (die : Dwarf_Die) (pos : Nat)
  | value_loclist_op (dwop : Dwarf_Op) (attr : Dwarf_Attribute) (pos : Nat)

open value constant_dom

inductive value_type where
  | T_CONST
  | T_STR
  | T_SEQ
  | T_DIE
  | T_AT
  | T_LOCLIST_OP
  deriving DecidableEq, Repr

def value.get_type : value → value_type
  | value_cst _ _ => .T_CONST
  | value_str _ _ => .T_STR
  | value_seq _ _ => .T_SEQ
  | value_die _ _ => .T_DIE
  | value_attr _ _ _ => .T_AT
  | value_loclist_op _ _ _ => .T_LOCLIST_OP

/-- A stack frame; the head of the list is the top of the stack. -/
abbrev valfile := List value

def valfile.push (vf : valfile) (v : value) : valfile := v :: vf

/-- Pop the top value; `none` on an empty stack (an assertion failure in the source). -/
def valfile.pop : valfile → Option (value × valfile)
  | [] => none
  | v :: vf => some (v, vf)

/-- One line written by `show_expects`: the operator name and the accepted types. -/
structure diagnostic where
  who : String
  expected : List value_type
  deriving DecidableEq, Repr

def show_expects (name : String) (vtypes : List value_type) : diagnostic := ⟨name, vtypes⟩

/-! ## The operator protocol -/

/-- What one call of `next` amounts to. -/
inductive result (σ : Type) where
  | yield (vf : valfile) (s : σ)
  | done (s : σ)
  | raise
  | out_of_fuel

/-- An operator: `next` (run with fuel) and `reset`. -/
class op (σ : Type) where
  next : Nat → σ → result σ
  reset : σ → σ

/-- Outcome of one turn of a `while (true)` loop inside `next`. -/
inductive loop_step (σ : Type) where
  | ret (r : result σ)
  | again (s : σ)

/-- Run a loop body until it returns, at most `fuel` turns. -/
def loop {σ : Type} (body : Nat → σ → loop_step σ) : Nat → σ → result σ
  | 0, _ => .out_of_fuel
  | n + 1, s =>
    match body n s with
    | .ret r => r
    | .again s1 => loop body n s1

/-- With enough fuel, `next` on `s` gives `r`. -/
def eventually {σ : Type} [op σ] (s : σ) (r : result σ) : Prop :=
  ∃ N, ∀ n, N ≤ n → op.next n s = r

/-- Successive calls of `next` from `s` give the frames `fs`, in this order,
and the call after them returns nullptr, leaving the operator in state `t`. -/
def emits {σ : Type} [op σ] : σ → List valfile → σ → Prop
  | s, [], t => eventually s (.done t)
  | s, f :: fs, t => ∃ s1, eventually s (.yield f s1) ∧ emits s1 fs t

/-- A finite upstream: hands out the frames of a list one by one. -/
structure finite_upstream where
  pending : List valfile
  initial : List valfile

def finite_upstream.of (fs : List valfile) : finite_upstream := ⟨fs, fs⟩

def finite_upstream.next (_ : Nat) (s : finite_upstream) : result finite_upstream :=
  match s.pending with
  | [] => .done s
  | f :: fs => .yield f { s with pending := fs }

instance : op finite_upstream where
  next := finite_upstream.next
  reset s := { s with pending := s.initial }

/-! ## winfo -/

/-- Modelled from the spec: `all_dies_iterator` of `dwit.hh`, which is not among
the sources.  It walks all DIEs in file order across all CUs; the iterator is
the list of DIEs still to visit, and `all_dies_iterator::end ()` is the empty list. -/
abbrev all_dies_iterator := List Dwarf_Die

def all_dies_iterator.end_ : all_dies_iterator := []

/-- Modelled from the spec: the constructor `all_dies_iterator (Dwarf *)`. -/
def all_dies_iterator.of_dwarf (dw : die_chain) : all_dies_iterator := dw.dies

namespace builtin_winfo

structure winfo (σ : Type) where
  m_upstream : σ
  m_gr : dwgrep_graph
  m_it : all_dies_iterator
  m_vf : Option valfile
  m_pos : Nat

/-- The constructor `winfo (upstream, gr)`. -/
def winfo.mk_op {σ : Type} (upstream : σ) (gr : dwgrep_graph) : winfo σ :=
  { m_upstream := upstream, m_gr := gr, m_it := all_dies_iterator.end_, m_vf := none, m_pos := 0 }

def winfo.reset_me {σ : Type} (s : winfo σ) : winfo σ :=
  { s with m_vf := none, m_pos := 0 }

/-- The part of the loop body after the `if (m_vf == nullptr)` block. -/
def winfo.emit {σ : Type} (s : winfo σ) : loop_step (winfo σ) :=
  match s.m_it, s.m_vf with
  | d :: it, some vf =>
    .ret (.yield (vf.push (value_die d s.m_pos)) { s with m_it := it, m_pos := s.m_pos + 1 })
  | _ :: _, none => .ret .raise
  | [], _ => .again s.reset_me

/-- One turn of the `while (true)` loop of `winfo::next`. -/
def winfo.body {σ : Type} [op σ] (n : Nat) (s : winfo σ) : loop_step (winfo σ) :=
  match s.m_vf with
  | none =>
    match op.next n s.m_upstream with
    | .yield vf u =>
      winfo.emit { s with m_upstream := u, m_vf := some vf,
                          m_it := all_dies_iterator.of_dwarf s.m_gr.dwarf }
    | .done u => .ret (.done { s with m_upstream := u })
    | .raise => .ret .raise
    | .out_of_fuel => .ret .out_of_fuel
  | some _ => winfo.emit s

def winfo.next {σ : Type} [op σ] : Nat → winfo σ → result (winfo σ) := loop winfo.body

def winfo.reset {σ : Type} [op σ] (s : winfo σ) : winfo σ :=
  { s.reset_me with m_upstream := op.reset s.m_upstream }

instance {σ : Type} [op σ] : op (winfo σ) where
  next := winfo.next
  reset := winfo.reset

end builtin_winfo

/-! ## child -/

namespace builtin_child

structure child (σ : Type) where
  m_upstream : σ
  m_gr : dwgrep_graph
  m_vf : Option valfile
  m_child : Dwarf_Die
  m_pos : Nat
  diag : List diagnostic

/-- The constructor `child (upstream, gr)`; `m_child {}` is the zeroed handle. -/
def child.mk_op {σ : Type} (upstream : σ) (gr : dwgrep_graph) : child σ :=
  { m_upstream := upstream, m_gr := gr, m_vf := none, m_child := ⟨0, 0, [], .nil, .nil⟩,
    m_pos := 0, diag := [] }

def child.reset_me {σ : Type} (s : child σ) : child σ :=
  { s with m_vf := none, m_pos := 0 }

/-- The part of the loop body after the inner `while (m_vf == nullptr)` loop. -/
def child.emit {σ : Type} (s : child σ) : loop_step (child σ) :=
  match s.m_vf with
  | none => .ret .raise
  | some vf =>
    let ret := vf.push (value_die s.m_child s.m_pos)
    let s1 : child σ := { s with m_pos := s.m_pos + 1 }
    match dwarf_siblingof s1.m_child with
    | none => .ret (.yield ret s1.reset_me)
    | some sib => .ret (.yield ret { s1 with m_child := sib })

/-- One turn of the loops of `child::next`. -/
def child.body {σ : Type} [op σ] (n : Nat) (s : child σ) : loop_step (child σ) :=
  match s.m_vf with
  | none =>
    match op.next n s.m_upstream with
    | .yield vf u =>
      match vf.pop with
      | none => .ret .raise
      | some (value_die die _, vf1) =>
        if dwarf_haschildren die then
          match dwarf_child die with
          | none => .ret .raise
          | some c => child.emit { s with m_upstream := u, m_child := c, m_vf := some vf1 }
        else .again { s with m_upstream := u }
      | some (_, _) =>
        .again { s with m_upstream := u, diag := s.diag ++ [show_expects "child" [.T_DIE]] }
    | .done u => .ret (.done { s with m_upstream := u })
    | .raise => .ret .raise
    | .out_of_fuel => .ret .out_of_fuel
  | some _ => child.emit s

def child.next {σ : Type} [op σ] : Nat → child σ → result (child σ) := loop child.body

def child.reset {σ : Type} [op σ] (s : child σ) : child σ :=
  { s.reset_me with m_upstream := op.reset s.m_upstream }

instance {σ : Type} [op σ] : op (child σ) where
  next := child.next
  reset := child.reset

end builtin_child

/-! ## unit -/

/-- The chain that starts at the entry a handle points at. -/
def Dwarf_Die.chain (die : Dwarf_Die) : die_chain :=
  .cons die.offset die.tag die.attrs die.children die.siblings

/-- The DIEs of a compilation unit in file order: the CU DIE and its descendants. -/
def Dwarf_Die.unit_dies (cudie : Dwarf_Die) : List Dwarf_Die := cudie :: cudie.children.dies

/-- The CU DIE of the first unit of a chain of units that holds a DIE at offset `off`. -/
def die_chain.find_cu : die_chain → Dwarf_Off → Option Dwarf_Die
  | .nil, _ => none
  | .cons o t a c s, off =>
    if (Dwarf_Die.unit_dies ⟨o, t, a, c, s⟩).any (fun d => d.offset == off) then
      some ⟨o, t, a, c, s⟩
    else s.find_cu off

/-- libdw `dwarf_diecu`: the CU DIE of the unit a DIE lies in (`none` stands for a
null return). -/
def dwarf_diecu (gr : dwgrep_graph) (die : Dwarf_Die) : Option Dwarf_Die :=
  gr.dwarf.find_cu die.offset

/-- Modelled from the spec: `cu_iterator` of `dwit.hh`, which is not among the
sources.  It walks the compilation units in file order; the iterator is the chain of
units still to visit. -/
abbrev cu_iterator := die_chain

/-- Modelled from the spec: the constructor `cu_iterator (Dwarf *, Dwarf_Die cudie)`. -/
def cu_iterator.at_cu (cudie : Dwarf_Die) : cu_iterator := cudie.chain

/-- Modelled from the spec: `++cuit`. -/
def cu_iterator.incr : cu_iterator → cu_iterator
  | .nil => .nil
  | .cons _ _ _ _ s => s

/-- Modelled from the spec: the constructor `all_dies_iterator (cu_iterator)`, which
starts at the CU DIE of the unit the `cu_iterator` points at. -/
def all_dies_iterator.of_cu (cuit : cu_iterator) : all_dies_iterator := cuit.dies

namespace builtin_unit

structure unit (σ : Type) where
  m_upstream : σ
  m_gr : dwgrep_graph
  m_vf : Option valfile
  m_it : all_dies_iterator
  m_end : all_dies_iterator
  m_pos : Nat
  diag : List diagnostic

/-- The constructor `unit (upstream, gr)`. -/
def unit.mk_op {σ : Type} (upstream : σ) (gr : dwgrep_graph) : unit σ :=
  { m_upstream := upstream, m_gr := gr, m_vf := none, m_it := all_dies_iterator.end_,
    m_end := all_dies_iterator.end_, m_pos := 0, diag := [] }

/-- The member `init_from_die`: the new `m_it` and `m_end`, or `none` when `dwarf_diecu` fails
and `throw_libdw` is called. -/
def unit.init_from_die (gr : dwgrep_graph) (die : Dwarf_Die) :
    Option (all_dies_iterator × all_dies_iterator) :=
  match dwarf_diecu gr die with
  | none => none
  | some cudie =>
    let cuit := cu_iterator.at_cu cudie
    some (all_dies_iterator.of_cu cuit, all_dies_iterator.of_cu cuit.incr)

def unit.reset_me {σ : Type} (s : unit σ) : unit σ :=
  { s with m_vf := none, m_it := all_dies_iterator.end_, m_pos := 0 }

/-- The part of the loop body after the inner `while (m_vf == nullptr)` loop. -/
def unit.emit {σ : Type} (s : unit σ) : loop_step (unit σ) :=
  if s.m_it ≠ s.m_end then
    match s.m_it, s.m_vf with
    | d :: it, some vf =>
      .ret (.yield (vf.push (value_die d s.m_pos)) { s with m_it := it, m_pos := s.m_pos + 1 })
    | _, _ => .ret .raise
  else .again s.reset_me

/-- One turn of the loops of `unit::next`. -/
def unit.body {σ : Type} [op σ] (n : Nat) (s : unit σ) : loop_step (unit σ) :=
  match s.m_vf with
  | none =>
    match op.next n s.m_upstream with
    | .yield vf u =>
      match vf.pop with
      | none => .ret .raise
      | some (value_die die _, vf1) =>
        match unit.init_from_die s.m_gr die with
        | none => .ret .raise
        | some (it, e) =>
          unit.emit { s with m_upstream := u, m_it := it, m_end := e, m_vf := some vf1 }
      | some (value_attr _ die _, vf1) =>
        match unit.init_from_die s.m_gr die with
        | none => .ret .raise
        | some (it, e) =>
          unit.emit { s with m_upstream := u, m_it := it, m_end := e, m_vf := some vf1 }
      | some (_, _) =>
        .again { s with m_upstream := u,
                        diag := s.diag ++ [show_expects "unit" [.T_DIE, .T_AT]] }
    | .done u => .ret (.done { s with m_upstream := u })
    | .raise => .ret .raise
    | .out_of_fuel => .ret .out_of_fuel
  | some _ => unit.emit s

def unit.next {σ : Type} [op σ] : Nat → unit σ → result (unit σ) := loop unit.body

def unit.reset {σ : Type} [op σ] (s : unit σ) : unit σ :=
  { s.reset_me with m_upstream := op.reset s.m_upstream }

instance {σ : Type} [op σ] : op (unit σ) where
  next := unit.next
  reset := unit.reset

end builtin_unit

/-! ## attribute -/

/-- Modelled from the spec: `attr_iterator` of `dwit.hh`, which is not among the
sources.  It walks the attributes of a DIE in their stored order; the iterator is
the list of attributes still to visit, `attr_iterator::end ()` the empty list. -/
abbrev attr_iterator := List Dwarf_Attribute

def attr_iterator.end_ : attr_iterator := []

/-- Modelled from the spec: the constructor `attr_iterator (Dwarf_Die *)`. -/
def attr_iterator.of_die (die : Dwarf_Die) : attr_iterator := die.attrs

namespace builtin_attribute

structure attribute_op (σ : Type) where
  m_upstream : σ
  m_gr : dwgrep_graph
  m_die : Dwarf_Die
  m_vf : Option valfile
  m_it : attr_iterator
  m_pos : Nat
  diag : List diagnostic

/-- The constructor `attribute (upstream, gr)`; `m_die {}` is the zeroed handle.
(`attribute` is a keyword of Lean, hence the name `attribute_op`.) -/
def attribute_op.mk_op {σ : Type} (upstream : σ) (gr : dwgrep_graph) : attribute_op σ :=
  { m_upstream := upstream, m_gr := gr, m_die := ⟨0, 0, [], .nil, .nil⟩, m_vf := none,
    m_it := attr_iterator.end_, m_pos := 0, diag := [] }

def attribute_op.reset_me {σ : Type} (s : attribute_op σ) : attribute_op σ :=
  { s with m_vf := none, m_pos := 0 }

/-- The part of the loop body after the inner `while (m_vf == nullptr)` loop. -/
def attribute_op.emit {σ : Type} (s : attribute_op σ) : loop_step (attribute_op σ) :=
  match s.m_it, s.m_vf with
  | a :: it, some vf =>
    .ret (.yield (vf.push (value_attr a s.m_die s.m_pos))
      { s with m_it := it, m_pos := s.m_pos + 1 })
  | _ :: _, none => .ret .raise
  | [], _ => .again s.reset_me

/-- One turn of the loops of `attribute::next`. -/
def attribute_op.body {σ : Type} [op σ] (n : Nat) (s : attribute_op σ) :
    loop_step (attribute_op σ) :=
  match s.m_vf with
  | none =>
    match op.next n s.m_upstream with
    | .yield vf u =>
      match vf.pop with
      | none => .ret .raise
      | some (value_die die _, vf1) =>
        attribute_op.emit { s with m_upstream := u, m_die := die,
                                   m_it := attr_iterator.of_die die, m_vf := some vf1 }
      | some (_, _) =>
        .again { s with m_upstream := u,
                        diag := s.diag ++ [show_expects "attribute" [.T_DIE]] }
    | .done u => .ret (.done { s with m_upstream := u })
    | .raise => .ret .raise
    | .out_of_fuel => .ret .out_of_fuel
  | some _ => attribute_op.emit s

def attribute_op.next {σ : Type} [op σ] : Nat → attribute_op σ → result (attribute_op σ) :=
  loop attribute_op.body

def attribute_op.reset {σ : Type} [op σ] (s : attribute_op σ) : attribute_op σ :=
  { s.reset_me with m_upstream := op.reset s.m_upstream }

instance {σ : Type} [op σ] : op (attribute_op σ) where
  next := attribute_op.next
  reset := attribute_op.reset

end builtin_attribute

/-! ## dwop_f and the operators built on it -/

/-- What a call of a virtual `operate` amounts to: it returns a flag, having
possibly pushed on the frame, or it throws. -/
inductive operated where
  | returned (flag : Bool) (vf : valfile)
  | thrown

/-- The virtual members of `dwop_f`: `name` and the three overloads of `operate`. -/
structure dwop_f_vtable where
  name : String
  operate_die : dwgrep_graph → valfile → Dwarf_Die → operated
  operate_attr : dwgrep_graph → valfile → Dwarf_Attribute → Dwarf_Die → operated
  operate_dwop : dwgrep_graph → valfile → Dwarf_Op → Dwarf_Attribute → operated

/-- The bodies `operate` has in `dwop_f` itself: `return false`. -/
def dwop_f.operate_die (_ : dwgrep_graph) (vf : valfile) (_ : Dwarf_Die) : operated :=
  .returned false vf

def dwop_f.operate_attr (_ : dwgrep_graph) (vf : valfile) (_ : Dwarf_Attribute)
    (_ : Dwarf_Die) : operated :=
  .returned false vf

def dwop_f.operate_dwop (_ : dwgrep_graph) (vf : valfile) (_ : Dwarf_Op)
    (_ : Dwarf_Attribute) : operated :=
  .returned false vf

structure dwop_f (vt : dwop_f_vtable) (σ : Type) where
  m_upstream : σ
  m_g : dwgrep_graph
  diag : List diagnostic

/-- The constructor `dwop_f (upstream, gr)`. -/
def dwop_f.mk_op (vt : dwop_f_vtable) {σ : Type} (upstream : σ) (gr : dwgrep_graph) :
    dwop_f vt σ :=
  { m_upstream := upstream, m_g := gr, diag := [] }

/-- What `next` does with the flag `operate` returned. -/
def dwop_f.after {vt : dwop_f_vtable} {σ : Type} (s : dwop_f vt σ) (u : σ) :
    operated → loop_step (dwop_f vt σ)
  | .returned true vf => .ret (.yield vf { s with m_upstream := u })
  | .returned false _ => .again { s with m_upstream := u }
  | .thrown => .ret .raise

/-- One turn of the `while` loop of `dwop_f::next`. -/
def dwop_f.body {vt : dwop_f_vtable} {σ : Type} [op σ] (n : Nat) (s : dwop_f vt σ) :
    loop_step (dwop_f vt σ) :=
  match op.next n s.m_upstream with
  | .yield vf u =>
    match vf.pop with
    | none => .ret .raise
    | some (value_die die _, vf1) => dwop_f.after s u (vt.operate_die s.m_g vf1 die)
    | some (value_attr attr die _, vf1) =>
      dwop_f.after s u (vt.operate_attr s.m_g vf1 attr die)
    | some (value_loclist_op dwop attr _, vf1) =>
      dwop_f.after s u (vt.operate_dwop s.m_g vf1 dwop attr)
    | some (_, _) =>
      .again { s with m_upstream := u,
                      diag := s.diag ++ [show_expects vt.name [.T_DIE, .T_AT, .T_LOCLIST_OP]] }
  | .done u => .ret (.done { s with m_upstream := u })
  | .raise => .ret .raise
  | .out_of_fuel => .ret .out_of_fuel

def dwop_f.next {vt : dwop_f_vtable} {σ : Type} [op σ] :
    Nat → dwop_f vt σ → result (dwop_f vt σ) := loop dwop_f.body

def dwop_f.reset {vt : dwop_f_vtable} {σ : Type} [op σ] (s : dwop_f vt σ) : dwop_f vt σ :=
  { s with m_upstream := op.reset s.m_upstream }

instance {vt : dwop_f_vtable} {σ : Type} [op σ] : op (dwop_f vt σ) where
  next := dwop_f.next
  reset := dwop_f.reset

namespace builtin_offset

/-- The member `offset::operate (valfile &, Dwarf_Die &)`. -/
def offset.operate_die (_ : dwgrep_graph) (vf : valfile) (die : Dwarf_Die) : operated :=
  let off := dwarf_dieoffset die
  let cst : constant := ⟨off, hex_constant_dom⟩
  .returned true (vf.push (value_cst cst 0))

/-- The member `offset::operate (valfile &, value_loclist_op &)`, with the opcode and the
attribute of the `value_loclist_op` as arguments.  Its parameter list differs from
that of `dwop_f::operate (valfile &, Dwarf_Op *, Dwarf_Attribute &)`, so it does not
override it, and `dwop_f::next` never calls it. -/
def offset.operate_loclist_op (vf : valfile) (dwop : Dwarf_Op) (_ : Dwarf_Attribute) :
    operated :=
  let c : constant := ⟨dwop.offset, hex_constant_dom⟩
  .returned true (vf.push (value_cst c 0))

/-- The virtual members of `offset`: only the overload for DIEs is overridden. -/
def offset : dwop_f_vtable :=
  { name := "offset"
    operate_die := offset.operate_die
    operate_attr := dwop_f.operate_attr
    operate_dwop := dwop_f.operate_dwop }

def build_exec {σ : Type} (upstream : σ) (q : dwgrep_graph) : dwop_f offset σ :=
  dwop_f.mk_op offset upstream q

end builtin_offset

namespace builtin_label

def op.operate_die (_ : dwgrep_graph) (vf : valfile) (die : Dwarf_Die) : operated :=
  let tag := dwarf_tag die
  let cst : constant := ⟨tag, dw_tag_dom⟩
  .returned true (vf.push (value_cst cst 0))

def op.operate_attr (_ : dwgrep_graph) (vf : valfile) (attr : Dwarf_Attribute)
    (_ : Dwarf_Die) : operated :=
  let name := dwarf_whatattr attr
  let cst : constant := ⟨name, dw_attr_dom⟩
  .returned true (vf.push (value_cst cst 0))

def op.operate_dwop (_ : dwgrep_graph) (vf : valfile) (dwop : Dwarf_Op)
    (_ : Dwarf_Attribute) : operated :=
  let cst : constant := ⟨dwop.atom, dw_locexpr_opcode_short_dom⟩
  .returned true (vf.push (value_cst cst 0))

/-- The virtual members of `builtin_label::op`: all three overloads are overridden
(the third has the parameter list of the base member, so it overrides it without
the `override` keyword). -/
def op : dwop_f_vtable :=
  { name := "label"
    operate_die := op.operate_die
    operate_attr := op.operate_attr
    operate_dwop := op.operate_dwop }

def build_exec {σ : Type} (upstream : σ) (q : dwgrep_graph) : dwop_f op σ :=
  dwop_f.mk_op op upstream q

end builtin_label

namespace builtin_form

def form.operate_attr (_ : dwgrep_graph) (vf : valfile) (attr : Dwarf_Attribute)
    (_ : Dwarf_Die) : operated :=
  let name := dwarf_whatform attr
  let cst : constant := ⟨name, dw_form_dom⟩
  .returned true (vf.push (value_cst cst 0))

def form : dwop_f_vtable :=
  { name := "form"
    operate_die := dwop_f.operate_die
    operate_attr := form.operate_attr
    operate_dwop := dwop_f.operate_dwop }

def build_exec {σ : Type} (upstream : σ) (q : dwgrep_graph) : dwop_f form σ :=
  dwop_f.mk_op form upstream q

end builtin_form

/-! ## The parent index -/

/-- Modelled from the spec: the parent index of `dwgrep_graph`, whose source is not
among the sources (§4.4: "a single pass that walks all DIEs and, for each DIE with
children, records each child's parent offset").  Each pair is (offset of the child,
offset of its parent). -/
def dwgrep_graph.parent_map (gr : dwgrep_graph) : List (Dwarf_Off × Dwarf_Off) :=
  gr.all_dies.flatMap fun d => d.child_list.map fun c => (c.offset, d.offset)

/-- Modelled from the spec: `dwgrep_graph::find_parent`, a lookup in the parent index;
`none` stands for `dwgrep_graph::none_off`. -/
def dwgrep_graph.find_parent (gr : dwgrep_graph) (die : Dwarf_Die) : Option Dwarf_Off :=
  gr.parent_map.lookup die.offset

/-- Modelled from the spec: `dwgrep_graph::is_root` (§4.4: "a DIE is a root iff its
offset is absent from the parent map after it has been built"). -/
def dwgrep_graph.is_root (gr : dwgrep_graph) (die : Dwarf_Die) : Bool :=
  !(gr.parent_map.any fun kv => kv.1 == die.offset)

namespace builtin_parent

def parent.operate_die (m_g : dwgrep_graph) (vf : valfile) (die : Dwarf_Die) : operated :=
  match m_g.find_parent die with
  | none => .returned false vf
  | some par_off =>
    match dwarf_offdie m_g par_off with
    | none => .thrown
    | some par_die => .returned true (vf.push (value_die par_die 0))

def parent.operate_attr (_ : dwgrep_graph) (vf : valfile) (_ : Dwarf_Attribute)
    (die : Dwarf_Die) : operated :=
  .returned true (vf.push (value_die die 0))

def parent : dwop_f_vtable :=
  { name := "parent"
    operate_die := parent.operate_die
    operate_attr := parent.operate_attr
    operate_dwop := dwop_f.operate_dwop }

def build_exec {σ : Type} (upstream : σ) (q : dwgrep_graph) : dwop_f parent σ :=
  dwop_f.mk_op parent upstream q

end builtin_parent

/-! ## Predicates -/

inductive pred_result where
  | no
  | yes
  | fail
  deriving DecidableEq, Repr

/-- The constructor `pred_result (bool)`. -/
def pred_result.of_bool (b : Bool) : pred_result := if b then .yes else .no

/-- What a call of `pred::result (valfile &)` amounts to: the answer, the frame as
the call leaves it, and what was written by `show_expects`. -/
structure pred_outcome where
  res : pred_result
  vf : valfile
  diag : List diagnostic

namespace builtin_rootp

/-- The member `builtin_rootp::p::result`; `none` on an empty frame, where `top` fails. -/
def p.result (m_g : dwgrep_graph) : valfile → Option pred_outcome
  | [] => none
  | value_die die pos :: vf =>
    some ⟨pred_result.of_bool (m_g.is_root die), value_die die pos :: vf, []⟩
  | value_attr attr die pos :: vf => some ⟨.no, value_attr attr die pos :: vf, []⟩
  | v :: vf => some ⟨.fail, v :: vf, [show_expects "?root" [.T_DIE, .T_AT]]⟩

end builtin_rootp

/-! ## value and @AT_X -/

/-- Modelled from the spec: a `value_producer`, whose declaration is not among the
sources: the values it has yet to produce; `next` takes the first. -/
abbrev value_producer := List value

/-- The type of `at_value` (`atval.hh`, not among the sources): the producer of the
values of an attribute of a DIE. -/
abbrev at_value_t := Dwarf_Attribute → Dwarf_Die → dwgrep_graph → value_producer

namespace builtin_value_attr

structure o (at_value : at_value_t) (σ : Type) where
  m_upstream : σ
  m_gr : dwgrep_graph
  m_vpr : Option value_producer
  m_vf : Option valfile

/-- The constructor `o (upstream, gr)`. -/
def o.mk_op (at_value : at_value_t) {σ : Type} (upstream : σ) (gr : dwgrep_graph) :
    o at_value σ :=
  { m_upstream := upstream, m_gr := gr, m_vpr := none, m_vf := none }

def o.reset_me {at_value : at_value_t} {σ : Type} (s : o at_value σ) : o at_value σ :=
  { s with m_vf := none, m_vpr := none }

/-- The part of the loop body after the inner `while (m_vpr == nullptr)` loop. -/
def o.emit {at_value : at_value_t} {σ : Type} (s : o at_value σ) :
    loop_step (o at_value σ) :=
  match s.m_vpr, s.m_vf with
  | some (v :: vs), some vf => .ret (.yield (vf.push v) { s with m_vpr := some vs })
  | some (_ :: _), none => .ret .raise
  | some [], _ => .again s.reset_me
  | none, _ => .ret .raise

/-- One turn of the loops of `builtin_value_attr::o::next`.  `pop_as <value_attr>`
gives a null pointer when the top is not an attribute, and the call through it
that follows is a fault. -/
def o.body {at_value : at_value_t} {σ : Type} [op σ] (n : Nat) (s : o at_value σ) :
    loop_step (o at_value σ) :=
  match s.m_vpr with
  | none =>
    match op.next n s.m_upstream with
    | .yield vf u =>
      match vf.pop with
      | some (value_attr attr die _, vf1) =>
        o.emit { s with m_upstream := u, m_vf := some vf1,
                        m_vpr := some (at_value attr die s.m_gr) }
      | _ => .ret .raise
    | .done u => .ret (.done { s with m_upstream := u, m_vf := none })
    | .raise => .ret .raise
    | .out_of_fuel => .ret .out_of_fuel
  | some _ => o.emit s

def o.next {at_value : at_value_t} {σ : Type} [op σ] :
    Nat → o at_value σ → result (o at_value σ) := loop o.body

def o.reset {at_value : at_value_t} {σ : Type} [op σ] (s : o at_value σ) : o at_value σ :=
  { s.reset_me with m_upstream := op.reset s.m_upstream }

instance {at_value : at_value_t} {σ : Type} [op σ] : op (o at_value σ) where
  next := o.next
  reset := o.reset

end builtin_value_attr

namespace builtin_attr_named

def o.operate_die (m_atname : Nat) (_ : dwgrep_graph) (vf : valfile) (die : Dwarf_Die) :
    operated :=
  match dwarf_attr die m_atname with
  | none => .returned false vf
  | some attr => .returned true (vf.push (value_attr attr die 0))

/-- The operator `o` of `builtin_attr_named`.  Its `name` is `@` followed by the
constant `{m_atname, &dw_attr_dom}`; the text that `dw_attr_dom` gives for the constant
is not among the sources, the code stands for it. -/
def o (m_atname : Nat) : dwop_f_vtable :=
  { name := "@" ++ toString m_atname
    operate_die := o.operate_die m_atname
    operate_attr := dwop_f.operate_attr
    operate_dwop := dwop_f.operate_dwop }

/-- The member `builtin_attr_named::build_exec`: the operator `o` for the attribute, with a
`builtin_value_attr::o` on top of it. -/
def build_exec (at_value : at_value_t) (m_atname : Nat) {σ : Type} (upstream : σ)
    (q : dwgrep_graph) : builtin_value_attr.o at_value (dwop_f (o m_atname) σ) :=
  let t := dwop_f.mk_op (o m_atname) upstream q
  builtin_value_attr.o.mk_op at_value t q

end builtin_attr_named

/-! ## integrate -/

def DW_AT_abstract_origin : Nat := 0x31

def DW_AT_specification : Nat := 0x47

/-- The forms of class reference, for which libdw resolves the datum to a DIE. -/
def is_reference_form (form : Nat) : Bool :=
  form == 0x10 || form == 0x11 || form == 0x12 || form == 0x13 || form == 0x14
    || form == 0x15 || form == 0x20

/-- libdw `dwarf_formref_die`: the DIE that an attribute of a reference form refers
to, its datum being the offset of that DIE (`none` stands for a null return). -/
def dwarf_formref_die (gr : dwgrep_graph) (attr : Dwarf_Attribute) : Option Dwarf_Die :=
  if is_reference_form attr.form && decide (0 ≤ attr.data) then
    dwarf_offdie gr attr.data.toNat
  else none

namespace builtin_integrate

def integrate.operate_die (m_g : dwgrep_graph) (vf : valfile) (die : Dwarf_Die) : operated :=
  let attr :=
    match dwarf_attr die DW_AT_abstract_origin with
    | some a => some a
    | none => dwarf_attr die DW_AT_specification
  match attr with
  | none => .returned false vf
  | some a =>
    match dwarf_formref_die m_g a with
    | none => .thrown
    | some die2 => .returned true (vf.push (value_die die2 0))

def integrate : dwop_f_vtable :=
  { name := "integrate"
    operate_die := integrate.operate_die
    operate_attr := dwop_f.operate_attr
    operate_dwop := dwop_f.operate_dwop }

def build_exec {σ : Type} (upstream : σ) (q : dwgrep_graph) : dwop_f integrate σ :=
  dwop_f.mk_op integrate upstream q

end builtin_integrate

/-! ## @number and @number2 -/

/-- The type of the callback of `op_loclist_op`: the producer of values for an opcode
and the attribute it was decoded from.  `dwop_number` and `dwop_number2`, which the
two builtins pass, are not among the sources. -/
abbrev cb_t := Dwarf_Op → Dwarf_Attribute → dwgrep_graph → value_producer

structure op_loclist_op (m_cb : cb_t) (σ : Type) where
  m_upstream : σ
  m_gr : dwgrep_graph
  m_name : String
  m_vp : Option value_producer
  m_vf : Option valfile
  diag : List diagnostic

/-- The constructor `op_loclist_op (upstream, gr, cb, name)`. -/
def op_loclist_op.mk_op (m_cb : cb_t) {σ : Type} (upstream : σ) (gr : dwgrep_graph)
    (name : String) : op_loclist_op m_cb σ :=
  { m_upstream := upstream, m_gr := gr, m_name := name, m_vp := none, m_vf := none, diag := [] }

def op_loclist_op.reset_me {m_cb : cb_t} {σ : Type} (s : op_loclist_op m_cb σ) :
    op_loclist_op m_cb σ :=
  { s with m_vp := none, m_vf := none }

/-- The part of the loop body after the inner `while (m_vp == nullptr)` loop. -/
def op_loclist_op.emit {m_cb : cb_t} {σ : Type} (s : op_loclist_op m_cb σ) :
    loop_step (op_loclist_op m_cb σ) :=
  match s.m_vp, s.m_vf with
  | some (v :: vs), some vf => .ret (.yield (vf.push v) { s with m_vp := some vs })
  | some (_ :: _), none => .ret .raise
  | some [], _ => .again s.reset_me
  | none, _ => .ret .raise

/-- One turn of the loops of `op_loclist_op::next`.  A frame whose top is not a
`value_loclist_op` is let go of without a call of `show_expects`: the `if` that
tests the type has no `else`. -/
def op_loclist_op.body {m_cb : cb_t} {σ : Type} [op σ] (n : Nat) (s : op_loclist_op m_cb σ) :
    loop_step (op_loclist_op m_cb σ) :=
  match s.m_vp with
  | none =>
    match op.next n s.m_upstream with
    | .yield vf u =>
      match vf.pop with
      | none => .ret .raise
      | some (value_loclist_op dwop attr _, vf1) =>
        op_loclist_op.emit { s with m_upstream := u, m_vp := some (m_cb dwop attr s.m_gr),
                                    m_vf := some vf1 }
      | some (_, _) => .again { s with m_upstream := u }
    | .done u => .ret (.done { s with m_upstream := u })
    | .raise => .ret .raise
    | .out_of_fuel => .ret .out_of_fuel
  | some _ => op_loclist_op.emit s

def op_loclist_op.next {m_cb : cb_t} {σ : Type} [op σ] :
    Nat → op_loclist_op m_cb σ → result (op_loclist_op m_cb σ) := loop op_loclist_op.body

def op_loclist_op.reset {m_cb : cb_t} {σ : Type} [op σ] (s : op_loclist_op m_cb σ) :
    op_loclist_op m_cb σ :=
  { s.reset_me with m_upstream := op.reset s.m_upstream }

instance {m_cb : cb_t} {σ : Type} [op σ] : op (op_loclist_op m_cb σ) where
  next := op_loclist_op.next
  reset := op_loclist_op.reset

def at_number_name : String := "@number"

def at_number2_name : String := "@number2"

/-- The template `loclist_op_builtin <F, Name>::build_exec`; `builtin_at_number` is it
with `dwop_number` and "@number", `builtin_at_number2` with `dwop_number2` and "@number2". -/
def loclist_op_builtin.build_exec (F : cb_t) (Name : String) {σ : Type} (upstream : σ)
    (q : dwgrep_graph) : op_loclist_op F σ :=
  op_loclist_op.mk_op F upstream q Name

/-! ## The predicates on attributes, tags and forms -/

/-- What `constant.hh`, which is not among the sources, declares on constants and
that the predicates use: whether two domains are declared comparable, and
`operator==`. -/
structure constant_ops where
  comparable : constant_dom → constant_dom → Bool
  eq : constant → constant → Bool

/-- How a call of `pred::result` can end without an answer. -/
inductive pred_fault where
  | empty_frame
  | incomparable (cst1 cst2 : constant)
  deriving DecidableEq, Repr

/-- What a call of `pred::result (valfile &)` amounts to: it returns, or it throws. -/
inductive pred_eval where
  | returned (o : pred_outcome)
  | thrown (e : pred_fault)

/-- The answer, if the call returned. -/
def pred_eval.res : pred_eval → Option pred_result
  | .returned o => some o.res
  | .thrown _ => none

/-- A predicate, as far as `result` goes (`reset` does nothing in the predicates here). -/
abbrev pred := valfile → pred_eval

/-- Modelled from the spec: `check_constants_comparable`, which is not among the
sources (§7: "comparing constants whose domains are not declared compatible yields
a fatal error").  `none` stands for a return, `some` for the exception. -/
def check_constants_comparable (ops : constant_ops) (cst1 cst2 : constant) : Option pred_fault :=
  if ops.comparable cst1.dom cst2.dom then none else some (.incomparable cst1 cst2)

/-- The tail shared by the three predicates on a constant top: the check, then `==`. -/
def pred_on_constant (ops : constant_ops) (m_const cst : constant) (vf : valfile) : pred_eval :=
  match check_constants_comparable ops m_const cst with
  | some e => .thrown e
  | none => .returned ⟨pred_result.of_bool (ops.eq m_const cst), vf, []⟩

namespace builtin_rootp

/-- The predicate `builtin_rootp::p`: its `result`, with the failure of `top` on an
empty frame as a fault. -/
def p.pred (m_g : dwgrep_graph) : pred := fun vf =>
  match p.result m_g vf with
  | some o => .returned o
  | none => .thrown .empty_frame

end builtin_rootp

namespace builtin_pred_attr

/-- The member `p::name`; the text that `dw_attr_short_dom` gives for the code is
not among the sources, the code stands for it. -/
def p.name (m_atname : Nat) : String := "?AT_" ++ toString m_atname

/-- The member `builtin_pred_attr::p::result`, with `m_const {atname, &dw_attr_dom}`. -/
def p.result (ops : constant_ops) (m_atname : Nat) : pred
  | [] => .thrown .empty_frame
  | value_die die pos :: vf =>
    .returned ⟨pred_result.of_bool (dwarf_hasattr die m_atname), value_die die pos :: vf, []⟩
  | value_cst cst pos :: vf =>
    pred_on_constant ops ⟨m_atname, dw_attr_dom⟩ cst (value_cst cst pos :: vf)
  | value_attr attr die pos :: vf =>
    .returned ⟨pred_result.of_bool (dwarf_whatattr attr == m_atname),
      value_attr attr die pos :: vf, []⟩
  | v :: vf =>
    .returned ⟨.fail, v :: vf, [show_expects (p.name m_atname) [.T_DIE, .T_AT, .T_CONST]]⟩

end builtin_pred_attr

namespace builtin_pred_tag

/-- The member `p::name`; the text that `dw_tag_dom` gives for the constant is not
among the sources, the code stands for it. -/
def p.name (m_tag : Nat) : String := "?" ++ toString m_tag

/-- The member `builtin_pred_tag::p::result`, with `m_const {(unsigned) tag, &dw_tag_dom}`. -/
def p.result (ops : constant_ops) (m_tag : Nat) : pred
  | [] => .thrown .empty_frame
  | value_die die pos :: vf =>
    .returned ⟨pred_result.of_bool (dwarf_tag die == m_tag), value_die die pos :: vf, []⟩
  | value_cst cst pos :: vf =>
    pred_on_constant ops ⟨m_tag, dw_tag_dom⟩ cst (value_cst cst pos :: vf)
  | v :: vf =>
    .returned ⟨.fail, v :: vf, [show_expects (p.name m_tag) [.T_DIE, .T_CONST]]⟩

end builtin_pred_tag

namespace builtin_pred_form

/-- The member `p::name`; the text that `dw_form_dom` gives for the constant is not
among the sources, the code stands for it. -/
def p.name (m_form : Nat) : String := "?" ++ toString m_form

/-- The member `builtin_pred_form::p::result`, with `m_const {m_form, &dw_form_dom}`. -/
def p.result (ops : constant_ops) (m_form : Nat) : pred
  | [] => .thrown .empty_frame
  | value_attr attr die pos :: vf =>
    .returned ⟨pred_result.of_bool (dwarf_whatform attr == m_form),
      value_attr attr die pos :: vf, []⟩
  | value_cst cst pos :: vf =>
    pred_on_constant ops ⟨m_form, dw_form_dom⟩ cst (value_cst cst pos :: vf)
  | v :: vf =>
    .returned ⟨.fail, v :: vf, [show_expects (p.name m_form) [.T_AT, .T_CONST]]⟩

end builtin_pred_form

/-! ## Polarity -/

/-- Modelled from the spec: `operator!` of `pred_result`, which is not among the
sources (§4.5: "flips yes/no while preserving fail"). -/
def pred_result.not : pred_result → pred_result
  | .yes => .no
  | .no => .yes
  | .fail => .fail

/-- Modelled from the spec: `pred_not`, which is not among the sources (§4.5:
"negative wraps positive"): the answer of the wrapped predicate, negated. -/
def pred_not (m_a : pred) : pred := fun vf =>
  match m_a vf with
  | .returned o => .returned { o with res := o.res.not }
  | .thrown e => .thrown e

/-- The member `pred_builtin::maybe_invert` of `src/builtin.cc`. -/
def pred_builtin.maybe_invert (m_positive : Bool) (pred : dwgrep.pred) : dwgrep.pred :=
  if m_positive then pred else pred_not pred

def builtin_rootp.build_pred (m_positive : Bool) (q : dwgrep_graph) : pred :=
  pred_builtin.maybe_invert m_positive (builtin_rootp.p.pred q)

def builtin_pred_attr.build_pred (ops : constant_ops) (m_atname : Nat) (m_positive : Bool) :
    pred :=
  pred_builtin.maybe_invert m_positive (builtin_pred_attr.p.result ops m_atname)

def builtin_pred_tag.build_pred (ops : constant_ops) (m_tag : Nat) (m_positive : Bool) : pred :=
  pred_builtin.maybe_invert m_positive (builtin_pred_tag.p.result ops m_tag)

def builtin_pred_form.build_pred (ops : constant_ops) (m_form : Nat) (m_positive : Bool) :
    pred :=
  pred_builtin.maybe_invert m_positive (builtin_pred_form.p.result ops m_form)

/-! ## The filter a predicate runs in -/

/-- Modelled from the spec: the operator that a predicate is run in (`op_assert` of
`op.hh`, not among the sources; §8: "`winfo ?root` gives one frame (A)", §7: a frame
on which the predicate fails is dropped): it passes on, unchanged, the upstream
frames on which the predicate answers yes. -/
structure op_assert (m_pred : pred) (σ : Type) where
  m_upstream : σ
  diag : List diagnostic

def op_assert.mk_op (m_pred : pred) {σ : Type} (upstream : σ) : op_assert m_pred σ :=
  { m_upstream := upstream, diag := [] }

def op_assert.body {m_pred : pred} {σ : Type} [op σ] (n : Nat) (s : op_assert m_pred σ) :
    loop_step (op_assert m_pred σ) :=
  match op.next n s.m_upstream with
  | .yield vf u =>
    match m_pred vf with
    | .thrown _ => .ret .raise
    | .returned o =>
      if o.res = .yes then .ret (.yield o.vf { m_upstream := u, diag := s.diag ++ o.diag })
      else .again { m_upstream := u, diag := s.diag ++ o.diag }
  | .done u => .ret (.done { s with m_upstream := u })
  | .raise => .ret .raise
  | .out_of_fuel => .ret .out_of_fuel

def op_assert.next {m_pred : pred} {σ : Type} [op σ] :
    Nat → op_assert m_pred σ → result (op_assert m_pred σ) := loop op_assert.body

instance {m_pred : pred} {σ : Type} [op σ] : op (op_assert m_pred σ) where
  next := op_assert.next
  reset s := { s with m_upstream := op.reset s.m_upstream }

/-! ## Sequences -/

/-- The answers of a three-way comparison; `fail` is the answer for values that
cannot be compared. -/
inductive cmp_result where
  | less
  | equal
  | greater
  | fail
  deriving DecidableEq, Repr

/-- Modelled from the spec: the three-way comparison `compare` that `value_seq::cmp`
applies to the two sizes (and, through the codes of the types, to two type tags). -/
def compare (a b : Nat) : cmp_result :=
  if a < b then .less else if b < a then .greater else .equal

/-- What the sources of the sequences take from elsewhere: the code that
`value_type::alloc` gave each type (type tags are ordered by it), and `cmp` and
`clone` of the value classes other than `value_seq`. -/
structure value_ops where
  code : value_type → Nat
  cmp : value → value → cmp_result
  clone : value → value

/-- The template `compare_sequences`.  The scan of `std::mismatch` calls `cmp` on the
pairs in order until one is not `equal`.  The result is `none` when an assertion
fails (`cmp` answered `fail`), when `cmp` itself did not return, and when the scan
would read past the end of `sb`. -/
def compare_sequences (cmp : value → value → Option cmp_result) :
    List value → List value → Option cmp_result
  | [], _ => some .equal
  | _ :: _, [] => none
  | a :: sa, b :: sb =>
    match cmp a b with
    | none => none
    | some .fail => none
    | some .equal => compare_sequences cmp sa sb
    | some ret => some ret

/-- The callable of the first scan in `value_seq::cmp`: the comparison of the types. -/
def value_ops.compare_types (E : value_ops) (a b : value) : Option cmp_result :=
  some (compare (E.code a.get_type) (E.code b.get_type))

mutual
/-- The virtual `value::cmp`; `value_seq::cmp` for a sequence, and what the other
classes do for the rest.  The result is `none` when an assertion of
`compare_sequences` fails. -/
def value.cmp (E : value_ops) : value → value → Option cmp_result
  | value_seq sa _, value_seq sb _ =>
    match compare sa.length sb.length with
    | .equal =>
      match compare_sequences E.compare_types sa sb with
      | some .equal => value.cmp_scan E sa sb
      | ret => ret
    | ret => some ret
  | value_seq _ _, _ => some .fail
  | a, b => some (E.cmp a b)
/-- The second scan of `value_seq::cmp`: `compare_sequences` with the callable
that returns `a->cmp (*b)`. -/
def value.cmp_scan (E : value_ops) : List value → List value → Option cmp_result
  | [], _ => some .equal
  | _ :: _, [] => none
  | a :: sa, b :: sb =>
    match value.cmp E a b with
    | none => none
    | some .fail => none
    | some .equal => value.cmp_scan E sa sb
    | some ret => some ret
end

mutual
/-- The virtual `value::clone`; for a sequence the copy constructor of `value_seq`,
which copies the base (the position) and clones the list. -/
def value.clone (E : value_ops) : value → value
  | value_seq seq pos => value_seq (clone_seq E seq) pos
  | v => E.clone v
/-- The function `clone_seq`. -/
def clone_seq (E : value_ops) : List value → List value
  | [] => []
  | v :: seq => value.clone E v :: clone_seq E seq
end

def value.set_pos : value → Nat → value
  | value_cst cst _, pos => value_cst cst pos
  | value_str str _, pos => value_str str pos
  | value_seq seq _, pos => value_seq seq pos
  | value_die die _, pos => value_die die pos
  | value_attr attr die _, pos => value_attr attr die pos
  | value_loclist_op dwop attr _, pos => value_loclist_op dwop attr pos

/-- How one try of `std::search` at a start position ends. -/
inductive search_try where
  | found
  | haystack_ended
  | mismatch
  deriving DecidableEq, Repr

/-- The inner loop of `std::search`: compare the needle with the haystack from its
start; `none` when the comparison did not return. -/
def search_at (p : value → value → Option Bool) : List value → List value → Option search_try
  | _, [] => some .found
  | [], _ :: _ => some .haystack_ended
  | h :: hs, x :: xs =>
    match p h x with
    | none => none
    | some true => search_at p hs xs
    | some false => some .mismatch

/-- The algorithm `std::search`: the index of the first start position from which the
whole needle matches, which is `0` at once for an empty needle, and the length of the
haystack (its end) when there is none. -/
def search (p : value → value → Option Bool) : List value → List value → Option Nat
  | [], needle =>
    match search_at p [] needle with
    | none => none
    | some _ => some 0
  | h :: hs, needle =>
    match search_at p (h :: hs) needle with
    | none => none
    | some .found => some 0
    | some .haystack_ended => some (hs.length + 1)
    | some .mismatch => (search p hs needle).map (· + 1)

namespace pred_find_seq

/-- The callable that `pred_find_seq::result` hands to `std::search`. -/
def equal_to (E : value_ops) (a b : value) : Option Bool :=
  (value.cmp E a b).map fun r => decide (r = .equal)

/-- The member `pred_find_seq::result`; `none` when a comparison did not return. -/
def result (E : value_ops) (haystack needle : List value) : Option pred_result :=
  (search (equal_to E) haystack needle).map fun i =>
    pred_result.of_bool (decide (i ≠ haystack.length))

end pred_find_seq

/-! ## The dictionary of builtins -/

/-- A builtin as the dictionary sees it.  The class `overloaded_builtin` and the overload
tables are not among the sources: the type `τ` of the tables is a parameter.  A builtin
is either of a class that derives from `overloaded_builtin` (`op` tells whether it is an
`overloaded_op_builtin`) or it is not, and then `impl` tells which builtin it is. -/
inductive builtin (τ : Type) where
  | simple (name : String) (impl : Nat)
  | overloaded (op : Bool) (name : String) (tab : τ)

/-- The member `builtin::name`. -/
def builtin.name {τ : Type} : builtin τ → String
  | .simple name _ => name
  | .overloaded _ name _ => name

/-- The cast `std::dynamic_pointer_cast <const overloaded_builtin>` followed by
`get_overload_tab`; `none` stands for the null pointer that the cast gives for a
builtin of another class. -/
def builtin.get_overload_tab {τ : Type} : builtin τ → Option τ
  | .simple _ _ => none
  | .overloaded _ _ tab => some tab

/-- The dictionary: the map `m_builtins` from names to builtins, as the list of its
entries; a name is looked up from the front. -/
structure builtin_dict (τ : Type) where
  m_builtins : List (String × builtin τ)

namespace builtin_dict

/-- The default constructor. -/
def empty {τ : Type} : builtin_dict τ := ⟨[]⟩

/-- The member `find`; `none` stands for `nullptr`. -/
def find {τ : Type} (d : builtin_dict τ) (name : String) : Option (builtin τ) :=
  d.m_builtins.lookup name

/-- The member `add (b, name)`; `none` when the assertion `find (name) == nullptr`
fails. -/
def add {τ : Type} (d : builtin_dict τ) (b : builtin τ) (name : String) :
    Option (builtin_dict τ) :=
  match d.find name with
  | none => some ⟨(name, b) :: d.m_builtins⟩
  | some _ => none

/-- The member `add (b)`. -/
def add_named {τ : Type} (d : builtin_dict τ) (b : builtin τ) : Option (builtin_dict τ) :=
  d.add b b.name

/-- The set `all_names` of the merging constructor: the names of `a` and of `b`, each
once.  The source walks the set in sorted order; every name is dealt with on its own, so
the order plays no part in what becomes of the dictionary. -/
def all_names {τ : Type} (a b : builtin_dict τ) : List String :=
  ((a.m_builtins.map Prod.fst) ++ (b.m_builtins.map Prod.fst)).dedup

/-- The body of the loop over `all_names` in the merging constructor.  The table of the
new builtin is made by the constructor `overload_tab (ta, tb)`, which is not among the
sources and is the parameter `overload_tab`; it gives `none` if it does not return.
The result is `none` when an assertion fails and when `overload_tab` gives `none`. -/
def merge_name {τ : Type} (overload_tab : τ → τ → Option τ) (a b : builtin_dict τ)
    (d : builtin_dict τ) (name : String) : Option (builtin_dict τ) :=
  match a.find name, b.find name with
  | none, none => none
  | some ba, none => d.add ba name
  | none, some bb => d.add bb name
  | some ba, some bb =>
    match ba.get_overload_tab with
    | none => none
    | some ta =>
      match bb.get_overload_tab with
      | none => none
      | some tb =>
        match overload_tab ta tb with
        | none => none
        | some tc => d.add_named (.overloaded true name tc)

/-- The constructor `builtin_dict (a, b)`; `none` when it does not return a
dictionary. -/
def merge {τ : Type} (overload_tab : τ → τ → Option τ) (a b : builtin_dict τ) :
    Option (builtin_dict τ) :=
  (all_names a b).foldlM (merge_name overload_tab a b) empty

end builtin_dict

/-! ## elem on sequences -/

namespace op_elem_seq

/-- The state `op_elem_seq::state`: the frame without the sequence, the list of the
sequence, and the index of the element to hand out next. -/
structure state where
  m_base : valfile
  m_seq : List value
  m_idx : Nat

/-- The member `state::next`: a copy of the base frame with a clone of the next element,
its position set to the index, pushed on it; `none` stands for `nullptr`. -/
def state.next (E : value_ops) (st : state) : Option (valfile × state) :=
  match st.m_seq[st.m_idx]? with
  | some e =>
    some (st.m_base.push ((e.clone E).set_pos st.m_idx), { st with m_idx := st.m_idx + 1 })
  | none => none

end op_elem_seq

structure op_elem_seq (E : value_ops) (σ : Type) where
  m_upstream : σ
  m_state : Option op_elem_seq.state

namespace op_elem_seq

/-- The constructor `op_elem_seq (upstream, gr, scope)`. -/
def mk_op (E : value_ops) {σ : Type} (upstream : σ) : op_elem_seq E σ :=
  { m_upstream := upstream, m_state := none }

/-- The part of the loop body after the `if (m_state == nullptr)` block, `st` being
what `m_state` points to. -/
def emit {E : value_ops} {σ : Type} (s : op_elem_seq E σ) (st : state) :
    loop_step (op_elem_seq E σ) :=
  match st.next E with
  | some (stk, st1) => .ret (.yield stk { s with m_state := some st1 })
  | none => .again { s with m_state := none }

/-- One turn of the `while (true)` loop of `op_elem_seq::next`.  `pop_as <value_seq>`
gives a null pointer when the top is not a sequence, and the call through it that
follows is a fault. -/
def body {E : value_ops} {σ : Type} [op σ] (n : Nat) (s : op_elem_seq E σ) :
    loop_step (op_elem_seq E σ) :=
  match s.m_state with
  | none =>
    match op.next n s.m_upstream with
    | .yield stk u =>
      match stk.pop with
      | some (value_seq seq _, base) => emit { s with m_upstream := u } ⟨base, seq, 0⟩
      | _ => .ret .raise
    | .done u => .ret (.done { s with m_upstream := u })
    | .raise => .ret .raise
    | .out_of_fuel => .ret .out_of_fuel
  | some st => emit s st

def next {E : value_ops} {σ : Type} [op σ] :
    Nat → op_elem_seq E σ → result (op_elem_seq E σ) := loop body

/-- The member `op_elem_seq::reset`; `inner_op::reset` resets the upstream. -/
def reset {E : value_ops} {σ : Type} [op σ] (s : op_elem_seq E σ) : op_elem_seq E σ :=
  { m_upstream := op.reset s.m_upstream, m_state := none }

end op_elem_seq

instance {E : value_ops} {σ : Type} [op σ] : op (op_elem_seq E σ) where
  next := op_elem_seq.next
  reset := op_elem_seq.reset

/-! ## Sequences in memory -/

/-- A value as an object in memory, for telling which lists are shared.  A `value_seq`
holds the shared pointer `m_seq` to its list: here the address of the list in the store.
A value of another class is held as it is.  `moved` is the null pointer that
`std::move` leaves behind in a list. -/
inductive object where
  | other (v : value)
  | seq (m_seq : Nat) (pos : Nat)
  | moved

/-- The store: the lists that the sequences point to; the address of a list is its
index. -/
abbrev store := List (List object)

/-- The function `clone_seq` in memory, `clone` being the virtual `value::clone`: the
elements are cloned in order. -/
def clone_seq_in (clone : store → object → Option (object × store)) :
    store → List object → Option (List object × store)
  | h, [] => some ([], h)
  | h, v :: es =>
    match clone h v with
    | none => none
    | some (v2, h1) =>
      match clone_seq_in clone h1 es with
      | none => none
      | some (es2, h2) => some (v2 :: es2, h2)

/-- The virtual `value::clone` in memory, with fuel for the nesting of the sequences.
For a sequence it is the copy constructor of `value_seq`: the list is cloned and
`std::make_shared` puts the new list at a new address.  The result is `none` when the
fuel runs out and when a null pointer is followed. -/
def object.clone (E : value_ops) : Nat → store → object → Option (object × store)
  | 0, _, _ => none
  | _ + 1, h, .other v => some (.other (v.clone E), h)
  | _ + 1, _, .moved => none
  | n + 1, h, .seq p pos =>
    match h[p]? with
    | none => none
    | some es =>
      match clone_seq_in (object.clone E n) h es with
      | none => none
      | some (es2, h1) => some (.seq h1.length pos, h1 ++ [es2])

namespace op_add_seq

end op_add_seq

/-! ## add, length and ?empty on sequences -/

namespace op_add_seq

/-- The member `op_add_seq::operate`, the sequences `a` and `b` given by their lists and
positions: the loop pushes the elements of `b`, one after the other, to the back of the
list of `a`, and `a` is returned. -/
def operate (a_seq : List value) (a_pos : Nat) (b_seq : List value) (_ : Nat) : value :=
  value_seq (b_seq.foldl (fun seq v => seq.concat v) a_seq) a_pos

end op_add_seq

namespace op_length_seq

/-- The member `op_length_seq::operate`: the size of the list as a constant of the
decimal domain, at position 0. -/
def operate (a_seq : List value) (_ : Nat) : value :=
  let t : constant := ⟨a_seq.length, dec_constant_dom⟩
  value_cst t 0

end op_length_seq

namespace pred_empty_seq

/-- The member `pred_empty_seq::result`. -/
def result (a_seq : List value) (_ : Nat) : pred_result :=
  pred_result.of_bool a_seq.isEmpty

end pred_empty_seq

/-! ## Specification-side helpers -/

/-- The frames a DIE producer derives from the frame `f`: `f` with DIE number `j` of the
list pushed at position `p + j`. -/
def push_dies (f : valfile) : Nat → List Dwarf_Die → List valfile
  | _, [] => []
  | p, d :: ds => f.push (value_die d p) :: push_dies f (p + 1) ds

/-- A small image: one CU `A` with child `B`, which has child `C`. -/
def die_C : Dwarf_Die := ⟨45, 0x34, [], .nil, .nil⟩

def die_B : Dwarf_Die := ⟨30, 0x2e, [⟨0x03, 0x08, 102⟩], .cons 45 0x34 [] .nil .nil, .nil⟩

def die_A : Dwarf_Die :=
  ⟨11, 0x11, [], .cons 30 0x2e [⟨0x03, 0x08, 102⟩] (.cons 45 0x34 [] .nil .nil) .nil, .nil⟩

def graph_abc : dwgrep_graph :=
  ⟨.cons 11 0x11 [] (.cons 30 0x2e [⟨0x03, 0x08, 102⟩] (.cons 45 0x34 [] .nil .nil) .nil) .nil⟩

/-- An image for `integrate`: a CU with four children; `D1` has an abstract origin
`D2`, `D2` has a specification `D3`, `D3` has neither, and `D4` lists a specification
`D3` before an abstract origin `D2`. -/
def ref_chain4 : die_chain := .cons 50 0x2e [⟨0x47, 0x13, 40⟩, ⟨0x31, 0x13, 30⟩] .nil .nil

def ref_chain3 : die_chain := .cons 40 0x2e [] .nil ref_chain4

def ref_chain2 : die_chain := .cons 30 0x2e [⟨0x47, 0x13, 40⟩] .nil ref_chain3

def ref_chain1 : die_chain := .cons 20 0x1d [⟨0x31, 0x13, 30⟩] .nil ref_chain2

def graph_ref : dwgrep_graph := ⟨.cons 11 0x11 [] ref_chain1 .nil⟩

def ref_D1 : Dwarf_Die := ⟨20, 0x1d, [⟨0x31, 0x13, 30⟩], .nil, ref_chain2⟩

def ref_D2 : Dwarf_Die := ⟨30, 0x2e, [⟨0x47, 0x13, 40⟩], .nil, ref_chain3⟩

def ref_D3 : Dwarf_Die := ⟨40, 0x2e, [], .nil, ref_chain4⟩

def ref_D4 : Dwarf_Die := ⟨50, 0x2e, [⟨0x47, 0x13, 40⟩, ⟨0x31, 0x13, 30⟩], .nil, .nil⟩

/-- The position index a value carries. -/
def value.pos : value → Nat
  | value_cst _ pos => pos
  | value_str _ pos => pos
  | value_seq _ pos => pos
  | value_die _ pos => pos
  | value_attr _ _ pos => pos
  | value_loclist_op _ _ pos => pos

/-- The position indices of the values on top of the frames of a list. -/
def top_positions (fs : List valfile) : List (Option Nat) :=
  fs.map fun f => f.head?.map value.pos

/-- A stand-in for the operations on constants, for the concrete scenarios: two
domains are comparable when they are the same or both plain numbers, and two
constants are equal when their magnitudes are. -/
def constant_ops.by_value : constant_ops :=
  { comparable := fun a b =>
      a == b || ((a == hex_constant_dom || a == dec_constant_dom)
        && (b == hex_constant_dom || b == dec_constant_dom))
    eq := fun a b => a.value == b.value }

/-- The state of the filter with upstream state `u` and what was written so far. -/
def op_assert.idle (m_pred : pred) {σ : Type} (dg : List diagnostic) (u : σ) :
    op_assert m_pred σ :=
  { m_upstream := u, diag := dg }

/-- What the filter makes of one upstream frame. -/
def op_assert.derive (m_pred : pred) (f : valfile) : List valfile :=
  match m_pred f with
  | .returned o => if o.res = .yes then [o.vf] else []
  | .thrown _ => []

/-- The diagnostic that a `dwop_f` writes for an upstream frame, if it writes one. -/
def dwop_f.complaint (vt : dwop_f_vtable) : valfile → List diagnostic
  | [] => []
  | value_die _ _ :: _ => []
  | value_attr _ _ _ :: _ => []
  | value_loclist_op _ _ _ :: _ => []
  | _ :: _ => [show_expects vt.name [.T_DIE, .T_AT, .T_LOCLIST_OP]]

/-- The negative predicate answers yes, no, fail where the positive one answers no,
yes, fail. -/
def flips (positive negative : pred) (vf : valfile) : Prop :=
  ((negative vf).res = some .yes ↔ (positive vf).res = some .no)
    ∧ ((negative vf).res = some .no ↔ (positive vf).res = some .yes)
    ∧ ((negative vf).res = some .fail ↔ (positive vf).res = some .fail)

/-- The assumption that the type tags are totally ordered and that `cmp` of every
class other than `value_seq` is a total order on the values of that class: it never
answers `fail` there, a value equals itself, the answers for `a b` and `b a` mirror
each other, and less-or-equal is transitive. -/
structure value_ops.total_order (E : value_ops) : Prop where
  code_injective : Function.Injective E.code
  never_fail : ∀ a b, a.get_type ≠ .T_SEQ → a.get_type = b.get_type → E.cmp a b ≠ .fail
  refl : ∀ a, a.get_type ≠ .T_SEQ → E.cmp a a = .equal
  less_greater : ∀ a b, a.get_type ≠ .T_SEQ → a.get_type = b.get_type →
    (E.cmp a b = .less ↔ E.cmp b a = .greater)
  equal_symm : ∀ a b, a.get_type ≠ .T_SEQ → a.get_type = b.get_type →
    E.cmp a b = .equal → E.cmp b a = .equal
  trans : ∀ a b c, a.get_type ≠ .T_SEQ → a.get_type = b.get_type → b.get_type = c.get_type →
    (E.cmp a b = .less ∨ E.cmp a b = .equal) → (E.cmp b c = .less ∨ E.cmp b c = .equal) →
    (E.cmp a c = .less ∨ E.cmp a c = .equal)

/-- A number to order the values of one class by, for the concrete scenarios. -/
def value.rank : value → Nat
  | value_cst cst _ => cst.value.natAbs
  | value_str str _ => str.length
  | value_seq _ _ => 0
  | value_die die _ => die.offset
  | value_attr attr _ _ => attr.code
  | value_loclist_op dwop _ _ => dwop.offset

/-- A stand-in for the value classes other than `value_seq`, for the concrete
scenarios: the types are numbered in the order of their declaration, two constants
compare by magnitude when `comparable` holds of their domains and answer `fail`
otherwise, two other values of one type compare by `rank`, values of two types
answer `fail`, and a clone is the value again. -/
def value_ops.stand_in (comparable : constant_dom → constant_dom → Bool) : value_ops where
  code
    | .T_CONST => 0
    | .T_STR => 1
    | .T_SEQ => 2
    | .T_DIE => 3
    | .T_AT => 4
    | .T_LOCLIST_OP => 5
  cmp a b :=
    match a, b with
    | value_cst c1 _, value_cst c2 _ =>
      if comparable c1.dom c2.dom then compare c1.value.natAbs c2.value.natAbs else .fail
    | a, b => if a.get_type = b.get_type then compare a.rank b.rank else .fail
  clone v := v

mutual
/-- The values other than sequences that a value is made of: the value itself, or for
a sequence those of its elements, at any depth. -/
def value.leaves : value → List value
  | value_seq seq _ => value.leaves_seq seq
  | v => [v]
/-- The leaves of the values of a list, in order. -/
def value.leaves_seq : List value → List value
  | [] => []
  | v :: seq => value.leaves v ++ value.leaves_seq seq
end

/-- Two comparisons one after the other: the second decides when the first says
`equal`. -/
def cmp_then (r1 r2 : Option cmp_result) : Option cmp_result :=
  match r1 with
  | some .equal => r2
  | r => r

/-- A comparison returned, and with an answer other than `fail`. -/
def cmp_ok (r : Option cmp_result) : Prop := ∃ x, r = some x ∧ x ≠ .fail

/-- The answer for `b` against `a` mirrors the answer for `a` against `b`. -/
def cmp_mirror (rab rba : Option cmp_result) : Prop :=
  (rab = some .less ↔ rba = some .greater) ∧ (rab = some .equal ↔ rba = some .equal)
    ∧ (rab = some .greater ↔ rba = some .less)

/-- The answers for `a b`, `b c` and `a c` compose as in an order. -/
def cmp_chain (rab rbc rac : Option cmp_result) : Prop :=
  (rab = some .less → rbc = some .less → rac = some .less)
    ∧ (rab = some .less → rbc = some .equal → rac = some .less)
    ∧ (rab = some .equal → rbc = some .less → rac = some .less)
    ∧ (rab = some .equal → rbc = some .equal → rac = some .equal)

/-- The comparison of `a` with `b` returns without `fail`, and the comparison of `b`
with `a` mirrors it. -/
def cmp_pair (E : value_ops) (a b : value) : Prop :=
  cmp_ok (value.cmp E a b) ∧ cmp_mirror (value.cmp E a b) (value.cmp E b a)

/-- The needle matches the list `l` from its start: `l` is long enough and every
element of the needle stands against an element that `p` accepts. -/
def matches_at (p : value → value → Option Bool) (l needle : List value) : Prop :=
  needle.length ≤ l.length ∧
    ∀ j, j < needle.length → ∃ a b, l[j]? = some a ∧ needle[j]? = some b ∧ p a b = some true

namespace builtin_dict

/-- The names that stand in the way of merging `a` and `b`: bound in both, and at least
one of the two builtins is not an overloaded one. -/
def conflict {τ : Type} (a b : builtin_dict τ) (name : String) : Prop :=
  ∃ ba bb, a.find name = some ba ∧ b.find name = some bb
    ∧ (ba.get_overload_tab = none ∨ bb.get_overload_tab = none)

/-- The names bound in both `a` and `b` to overloaded builtins of whose tables the
constructor `overload_tab` makes no table. -/
def clash {τ : Type} (overload_tab : τ → τ → Option τ) (a b : builtin_dict τ)
    (name : String) : Prop :=
  ∃ ba bb ta tb, a.find name = some ba ∧ b.find name = some bb
    ∧ ba.get_overload_tab = some ta ∧ bb.get_overload_tab = some tb
    ∧ overload_tab ta tb = none

/-- What the merged dictionary binds a name to, when nothing stands in the way. -/
def merged {τ : Type} (overload_tab : τ → τ → Option τ) (a b : builtin_dict τ)
    (name : String) : Option (builtin τ) :=
  match a.find name, b.find name with
  | none, none => none
  | some ba, none => some ba
  | none, some bb => some bb
  | some ba, some bb =>
    match ba.get_overload_tab, bb.get_overload_tab with
    | some ta, some tb => (overload_tab ta tb).map fun tc => .overloaded true name tc
    | _, _ => none

end builtin_dict

/-- A dictionary for the concrete scenarios: `winfo`, and `value` overloaded for
attributes. -/
def dict_one : builtin_dict (List value_type) :=
  ⟨[("winfo", .simple "winfo" 0), ("value", .overloaded true "value" [.T_AT])]⟩

/-- A second dictionary: `value` overloaded for strings, and `length`. -/
def dict_two : builtin_dict (List value_type) :=
  ⟨[("value", .overloaded true "value" [.T_STR]), ("length", .simple "length" 1)]⟩

/-- The states an operator can be in after `next` was called any number of times from
the state `s`, each call having returned a frame or nullptr. -/
inductive reach {σ : Type} [op σ] (s : σ) : σ → Prop where
  | refl : reach s s
  | yield {s1 s2 : σ} {n : Nat} {f : valfile} :
    reach s s1 → op.next n s1 = .yield f s2 → reach s s2
  | done {s1 s2 : σ} {n : Nat} : reach s s1 → op.next n s1 = .done s2 → reach s s2

/-- The operator in state `s` gives the frames `fs` and then nullptr, and it gives them
again when `reset` is called after any number of calls of `next`. -/
def replays {σ : Type} [op σ] (s : σ) (fs : List valfile) : Prop :=
  (∃ t, emits s fs t) ∧ ∀ s1, reach s s1 → ∃ t, emits (op.reset s1) fs t

/-- The next `k` calls of `next` from the state `s` all return nullptr. -/
def done_run {σ : Type} [op σ] : Nat → σ → Prop
  | 0, _ => True
  | k + 1, s => ∃ s1, eventually s (.done s1) ∧ done_run k s1

/-- An operator that keeps returning nullptr once it has returned nullptr. -/
def keeps_none (σ : Type) [op σ] : Prop :=
  ∀ n (s s1 : σ), op.next n s = .done s1 → ∀ k, done_run k s1

/-- A property of the state that a turn of a loop leaves behind. -/
def loop_step.all {σ : Type} (P : σ → Prop) : loop_step σ → Prop
  | .ret (.yield _ s) => P s
  | .ret (.done s) => P s
  | .ret _ => True
  | .again s => P s

/-- A property of the state that a call of `next` leaves behind. -/
def result.all {σ : Type} (P : σ → Prop) : result σ → Prop
  | .yield _ s => P s
  | .done s => P s
  | _ => True

/-- The object points to no list below the address `k`. -/
def object.fresh (k : Nat) : object → Prop
  | .seq r _ => k ≤ r
  | _ => True

namespace builtin_winfo

/-- The state of `winfo` while it walks the DIEs `ds` for the frame `f`. -/
def winfo.walking {σ : Type} (u : σ) (gr : dwgrep_graph) (ds : List Dwarf_Die) (f : valfile)
    (p : Nat) : winfo σ :=
  { m_upstream := u, m_gr := gr, m_it := ds, m_vf := some f, m_pos := p }

end builtin_winfo

namespace builtin_child

/-- The state of `child` between two upstream frames. -/
def child.idle {σ : Type} (gr : dwgrep_graph) (j : Dwarf_Die × List diagnostic) (u : σ) :
    child σ :=
  { m_upstream := u, m_gr := gr, m_vf := none, m_child := j.1, m_pos := 0, diag := j.2 }

/-- The state of `child` while it walks a chain of siblings for the frame `f`. -/
def child.walking {σ : Type} (gr : dwgrep_graph) (u : σ) (c : Dwarf_Die) (f : valfile)
    (p : Nat) (dg : List diagnostic) : child σ :=
  { m_upstream := u, m_gr := gr, m_vf := some f, m_child := c, m_pos := p, diag := dg }

/-- What `child` makes of one upstream frame: the frame without its top, with
each child of the DIE that was on top pushed in turn. -/
def child.derive : valfile → List valfile
  | value_die d _ :: rest => push_dies rest 0 d.child_list
  | _ => []

end builtin_child

namespace builtin_attribute

/-- The frames an attribute producer derives from the frame `f`: `f` with attribute
number `j` of the list, owned by `d`, pushed at position `p + j`. -/
def push_attrs (f : valfile) (d : Dwarf_Die) : Nat → List Dwarf_Attribute → List valfile
  | _, [] => []
  | p, a :: it => f.push (value_attr a d p) :: push_attrs f d (p + 1) it

/-- The state of `attribute` between two upstream frames. -/
def attribute_op.idle {σ : Type} (gr : dwgrep_graph) (j : Dwarf_Die × List diagnostic) (u : σ) :
    attribute_op σ :=
  { m_upstream := u, m_gr := gr, m_die := j.1, m_vf := none, m_it := [], m_pos := 0,
    diag := j.2 }

/-- The state of `attribute` while it walks the attributes `it` of `d` for the frame `f`. -/
def attribute_op.walking {σ : Type} (gr : dwgrep_graph) (u : σ) (d : Dwarf_Die)
    (it : List Dwarf_Attribute) (f : valfile) (p : Nat) (dg : List diagnostic) :
    attribute_op σ :=
  { m_upstream := u, m_gr := gr, m_die := d, m_vf := some f, m_it := it, m_pos := p,
    diag := dg }

/-- What `attribute` makes of one upstream frame. -/
def attribute_op.derive : valfile → List valfile
  | value_die d _ :: rest => push_attrs rest d 0 d.attrs
  | _ => []

end builtin_attribute

/-- The state of a `dwop_f` with upstream state `u` and what it has written so far. -/
def dwop_f.idle (vt : dwop_f_vtable) (gr : dwgrep_graph) {σ : Type} (dg : List diagnostic)
    (u : σ) : dwop_f vt σ :=
  { m_upstream := u, m_g := gr, diag := dg }

/-- The call of `operate` that `dwop_f::next` makes for a frame, if it makes one. -/
def dwop_f.dispatch (vt : dwop_f_vtable) (gr : dwgrep_graph) : valfile → Option operated
  | value_die d _ :: rest => some (vt.operate_die gr rest d)
  | value_attr a d _ :: rest => some (vt.operate_attr gr rest a d)
  | value_loclist_op o a _ :: rest => some (vt.operate_dwop gr rest o a)
  | _ => none

/-- The frame a call of `operate` leaves for `next` to return, if it returned true. -/
def operated.frames : operated → List valfile
  | .returned true vf => [vf]
  | _ => []

/-- What a `dwop_f` makes of one upstream frame: the frame `operate` leaves, if
`operate` is called and returns true. -/
def dwop_f.derive (vt : dwop_f_vtable) (gr : dwgrep_graph) (f : valfile) : List valfile :=
  match dwop_f.dispatch vt gr f with
  | some r => r.frames
  | none => []

/-- The frame is not empty and `operate` does not throw on it. -/
def dwop_f.ok (vt : dwop_f_vtable) (gr : dwgrep_graph) (f : valfile) : Prop :=
  f ≠ [] ∧ dwop_f.dispatch vt gr f ≠ some .thrown

namespace builtin_unit

/-- The state of `unit` between two upstream frames. -/
def unit.idle {σ : Type} (gr : dwgrep_graph) (j : all_dies_iterator × List diagnostic) (u : σ) :
    unit σ :=
  { m_upstream := u, m_gr := gr, m_vf := none, m_it := [], m_end := j.1, m_pos := 0,
    diag := j.2 }

/-- The state of `unit` while the DIEs `xs` are left to visit before `m_end`. -/
def unit.walking {σ : Type} (gr : dwgrep_graph) (u : σ) (xs e : List Dwarf_Die) (f : valfile)
    (p : Nat) (dg : List diagnostic) : unit σ :=
  { m_upstream := u, m_gr := gr, m_vf := some f, m_it := xs ++ e, m_end := e, m_pos := p,
    diag := dg }

/-- The frames `unit` derives from the rest of a frame whose top was, or was owned
by, the DIE `d`. -/
def unit.of_die (gr : dwgrep_graph) (d : Dwarf_Die) (rest : valfile) : List valfile :=
  match dwarf_diecu gr d with
  | some cudie => push_dies rest 0 cudie.unit_dies
  | none => []

/-- What `unit` makes of one upstream frame. -/
def unit.derive (gr : dwgrep_graph) : valfile → List valfile
  | value_die d _ :: rest => unit.of_die gr d rest
  | value_attr _ d _ :: rest => unit.of_die gr d rest
  | _ => []

/-- The frame is not empty, and a DIE on top of it, or the DIE that owns an attribute
on top of it, lies in a unit of the graph. -/
def unit.ok (gr : dwgrep_graph) : valfile → Prop
  | [] => False
  | value_die d _ :: _ => dwarf_diecu gr d ≠ none
  | value_attr _ d _ :: _ => dwarf_diecu gr d ≠ none
  | _ :: _ => True

end builtin_unit

namespace builtin_value_attr

/-- The state of `value` between two upstream frames. -/
def o.idle (at_value : at_value_t) {σ : Type} (gr : dwgrep_graph) (_ : Unit) (u : σ) :
    o at_value σ :=
  { m_upstream := u, m_gr := gr, m_vpr := none, m_vf := none }

/-- The state of `value` while the producer has `vs` left for the frame `f`. -/
def o.walking (at_value : at_value_t) {σ : Type} (gr : dwgrep_graph) (u : σ)
    (vs : List value) (f : valfile) : o at_value σ :=
  { m_upstream := u, m_gr := gr, m_vpr := some vs, m_vf := some f }

/-- What `value` makes of one upstream frame. -/
def o.derive (at_value : at_value_t) (gr : dwgrep_graph) : valfile → List valfile
  | value_attr a d _ :: rest => (at_value a d gr).map fun v => valfile.push rest v
  | _ => []

/-- The frame has an attribute on top. -/
def o.ok (f : valfile) : Prop := ∃ a d p rest, f = value_attr a d p :: rest

end builtin_value_attr

/-- The offsets of the DIEs of the graph are pairwise distinct. -/
def dwgrep_graph.wf (gr : dwgrep_graph) : Prop := (gr.all_dies.map fun d => d.offset).Nodup

instance (gr : dwgrep_graph) : Decidable gr.wf :=
  inferInstanceAs (Decidable (List.Nodup (gr.all_dies.map fun d : Dwarf_Die => d.offset)))

/-- The keys of the parent index built over a chain. -/
def die_chain.child_offsets (ch : die_chain) : List Dwarf_Off :=
  ch.dies.flatMap fun d => d.child_list.map fun c => c.offset

/-- A stand-in for `at_value` on the small image: a string form gives one string. -/
def at_value_abc : at_value_t := fun attr _ _ =>
  if attr.form = 0x08 then [value_str "f" 0] else []

namespace builtin_attribute

/-- The state of `attribute` between two upstream frames, with whatever `m_it` was left
at when `reset_me` was called. -/
def attribute_op.idle_at {σ : Type} (gr : dwgrep_graph)
    (j : Dwarf_Die × attr_iterator × List diagnostic) (u : σ) : attribute_op σ :=
  { m_upstream := u, m_gr := gr, m_die := j.1, m_vf := none, m_it := j.2.1, m_pos := 0,
    diag := j.2.2 }

end builtin_attribute

/-- The state of `op_loclist_op` between two upstream frames. -/
def op_loclist_op.idle (m_cb : cb_t) {σ : Type} (gr : dwgrep_graph) (name : String)
    (dg : List diagnostic) (u : σ) : op_loclist_op m_cb σ :=
  { m_upstream := u, m_gr := gr, m_name := name, m_vp := none, m_vf := none, diag := dg }

/-- The state of `op_loclist_op` while the producer has `vs` left for the frame `f`. -/
def op_loclist_op.walking (m_cb : cb_t) {σ : Type} (gr : dwgrep_graph) (name : String)
    (dg : List diagnostic) (u : σ) (vs : List value) (f : valfile) : op_loclist_op m_cb σ :=
  { m_upstream := u, m_gr := gr, m_name := name, m_vp := some vs, m_vf := some f, diag := dg }

/-- What `op_loclist_op` makes of one upstream frame. -/
def op_loclist_op.derive (m_cb : cb_t) (gr : dwgrep_graph) : valfile → List valfile
  | value_loclist_op dwop attr _ :: rest => (m_cb dwop attr gr).map fun v => valfile.push rest v
  | _ => []

namespace op_elem_seq

/-- The frames `op_elem_seq` derives from the elements `es` of a sequence, the first of
them at index `i`: the base frame with a clone of the element, its position set to its
index, on top. -/
def push_elems (E : value_ops) (base : valfile) : Nat → List value → List valfile
  | _, [] => []
  | i, e :: es => base.push ((e.clone E).set_pos i) :: push_elems E base (i + 1) es

/-- What `op_elem_seq` makes of one upstream frame. -/
def derive (E : value_ops) : valfile → List valfile
  | value_seq seq _ :: base => push_elems E base 0 seq
  | _ => []

/-- The frame has a sequence on top. -/
def ok (f : valfile) : Prop := ∃ seq p base, f = value_seq seq p :: base

end op_elem_seq

/-! ## General facts about loops and streams -/

theorem push_dies_eq_map (f : valfile) (p : Nat) (ds : List Dwarf_Die) :
    push_dies f p ds = (ds.enumFrom p).map (fun jd => f.push (value_die jd.2 jd.1)) := by
  induction ds generalizing p with
  | nil => rfl
  | cons d ds ih => simp [push_dies, List.enumFrom, ih]

theorem eventually_unique {σ : Type} [op σ] {s : σ} {r r1 : result σ}
    (h : eventually s r) (h1 : eventually s r1) : r = r1 := by
  obtain ⟨N, hN⟩ := h
  obtain ⟨M, hM⟩ := h1
  rw [← hN (max N M) (le_max_left _ _), ← hM (max N M) (le_max_right _ _)]

/-- The frames an operator emits and the state it ends in are determined. -/
theorem emits_unique {σ : Type} [op σ] {s : σ} {fs gs : List valfile} {t t1 : σ}
    (h : emits s fs t) (h1 : emits s gs t1) : fs = gs ∧ t = t1 := by
  induction fs generalizing s gs with
  | nil =>
    cases gs with
    | nil => simpa using eventually_unique h h1
    | cons g gs =>
      obtain ⟨s1, h2, _⟩ := h1
      cases eventually_unique h h2
  | cons f fs ih =>
    cases gs with
    | nil =>
      obtain ⟨s1, h2, _⟩ := h
      cases eventually_unique h1 h2
    | cons g gs =>
      obtain ⟨s1, h2, h3⟩ := h
      obtain ⟨s2, h4, h5⟩ := h1
      have h6 := eventually_unique h2 h4
      injection h6 with h7 h8
      subst h7 h8
      obtain ⟨h9, h10⟩ := ih h3 h5
      exact ⟨by rw [h9], h10⟩

/-- The common shape of all producers: between two upstream frames the operator
is in a state `idle j u`, where `u` is the state of the upstream and `j` what
is left over in the other fields; in that state it pulls a frame `f` and emits
the frames `derive f` before it is idle again. -/
theorem fan_out_emits {σ τ J : Type} [op σ] [op τ] (idle : J → σ → τ)
    (derive : valfile → List valfile) (ok : valfile → Prop)
    (hdone : ∀ j u u1, eventually u (.done u1) → eventually (idle j u) (.done (idle j u1)))
    (hstep : ∀ j u u1 f, ok f → eventually u (.yield f u1) →
      ∃ j1, ∀ out t, emits (idle j1 u1) out t → emits (idle j u) (derive f ++ out) t)
    (fs : List valfile) (j : J) (u u1 : σ) (hok : ∀ f ∈ fs, ok f) (h : emits u fs u1) :
    ∃ j1, emits (idle j u) (fs.flatMap derive) (idle j1 u1) := by
  induction fs generalizing j u with
  | nil => exact ⟨j, hdone j u u1 h⟩
  | cons f fs ih =>
    obtain ⟨u2, h2, h3⟩ := h
    obtain ⟨j1, h4⟩ := hstep j u u2 f (hok f (List.mem_cons_self _ _)) h2
    obtain ⟨j2, h5⟩ := ih j1 u2 (fun g hg => hok g (List.mem_cons_of_mem _ hg)) h3
    exact ⟨j2, by rw [List.flatMap_cons]; exact h4 _ _ h5⟩

theorem loop_ret {σ : Type} {body : Nat → σ → loop_step σ} {s : σ} {r : result σ} {N : Nat}
    (h : ∀ n, N ≤ n → body n s = .ret r) : ∀ n, N + 1 ≤ n → loop body n s = r := by
  intro n hn
  obtain ⟨m, rfl⟩ : ∃ m, n = m + 1 := ⟨n - 1, by omega⟩
  simp [loop, h m (by omega)]

theorem loop_again {σ : Type} {body : Nat → σ → loop_step σ} {s s1 : σ} {r : result σ}
    {N M : Nat} (h : ∀ n, N ≤ n → body n s = .again s1)
    (h1 : ∀ n, M ≤ n → loop body n s1 = r) : ∀ n, max N M + 1 ≤ n → loop body n s = r := by
  intro n hn
  obtain ⟨m, rfl⟩ : ∃ m, n = m + 1 := ⟨n - 1, by omega⟩
  have h2 : N ≤ m := le_trans (le_max_left N M) (by omega)
  have h3 : M ≤ m := le_trans (le_max_right N M) (by omega)
  simp [loop, h m h2, h1 m h3]

/-- A state that behaves like another one passes on what that one emits. -/
theorem emits_forward {σ : Type} [op σ] {s s1 : σ}
    (h : ∀ r, eventually s1 r → eventually s r) {fs : List valfile} {t : σ}
    (h1 : emits s1 fs t) : emits s fs t := by
  cases fs with
  | nil => exact h _ h1
  | cons f fs =>
    obtain ⟨s2, h2, h3⟩ := h1
    exact ⟨s2, h _ h2, h3⟩

theorem emits_cons {σ : Type} [op σ] {s s1 t : σ} {f : valfile} {fs : List valfile}
    (h : eventually s (.yield f s1)) (h1 : emits s1 fs t) : emits s (f :: fs) t :=
  ⟨s1, h, h1⟩

theorem finite_upstream_emits (fs init : List valfile) :
    emits (⟨fs, init⟩ : finite_upstream) fs ⟨[], init⟩ := by
  induction fs with
  | nil => exact ⟨0, fun n _ => rfl⟩
  | cons f fs ih => exact ⟨⟨fs, init⟩, ⟨0, fun n _ => rfl⟩, ih⟩

theorem flatMap_congr_mem {α β : Type} (l : List α) (g h : α → List β)
    (hgh : ∀ x ∈ l, g x = h x) : l.flatMap g = l.flatMap h := by
  induction l with
  | nil => rfl
  | cons x l ih =>
    rw [List.flatMap_cons, List.flatMap_cons, hgh x (List.mem_cons_self _ _),
      ih (fun y hy => hgh y (List.mem_cons_of_mem _ hy))]

theorem flatMap_eq_map {α β : Type} (l : List α) (g : α → List β) (h : α → β)
    (hgh : ∀ x ∈ l, g x = [h x]) : l.flatMap g = l.map h := by
  induction l with
  | nil => rfl
  | cons x l ih =>
    rw [List.flatMap_cons, hgh x (List.mem_cons_self _ _),
      ih (fun y hy => hgh y (List.mem_cons_of_mem _ hy))]
    rfl

/-! ## winfo: proofs -/

namespace builtin_winfo

theorem winfo_walking_emits {σ : Type} [op σ] (u : σ) (gr : dwgrep_graph) (f : valfile)
    (ds : List Dwarf_Die) (p : Nat) (out : List valfile) (t : winfo σ)
    (h : emits (winfo.mk_op u gr) out t) :
    emits (winfo.walking u gr ds f p) (push_dies f p ds ++ out) t := by
  induction ds generalizing p with
  | nil =>
    refine emits_forward ?_ h
    rintro r ⟨N, hN⟩
    exact ⟨max 0 N + 1, loop_again (fun n _ => rfl) hN⟩
  | cons d ds ih =>
    exact emits_cons ⟨0 + 1, loop_ret (fun n _ => rfl)⟩ (ih (p + 1))

theorem winfo_emits {σ : Type} [op σ] (gr : dwgrep_graph) (fs : List valfile) (u u1 : σ)
    (h : emits u fs u1) :
    emits (winfo.mk_op u gr) (fs.flatMap (fun f => push_dies f 0 gr.all_dies))
      (winfo.mk_op u1 gr) := by
  induction fs generalizing u with
  | nil =>
    obtain ⟨N, hN⟩ := h
    refine ⟨N + 1, loop_ret (fun n hn => ?_)⟩
    simp [winfo.body, winfo.mk_op, hN n hn]
  | cons f fs ih =>
    obtain ⟨u2, ⟨N, hN⟩, h2⟩ := h
    have h3 := winfo_walking_emits u2 gr f gr.all_dies 0 _ _ (ih u2 h2)
    rw [List.flatMap_cons]
    refine emits_forward ?_ h3
    rintro r ⟨M, hM⟩
    refine ⟨max N M + 1, fun n hn => ?_⟩
    obtain ⟨m, rfl⟩ : ∃ m, n = m + 1 := ⟨n - 1, by omega⟩
    have h4 : N ≤ m := le_trans (le_max_left N M) (by omega)
    have h5 : M ≤ m + 1 := le_trans (le_max_right N M) (by omega)
    rw [← hM (m + 1) h5]
    show loop winfo.body (m + 1) _ = loop winfo.body (m + 1) _
    simp [loop, winfo.body, winfo.mk_op, winfo.walking, hN m h4, all_dies_iterator.of_dwarf,
      dwgrep_graph.all_dies]

end builtin_winfo

/-! ## child: proofs -/

namespace builtin_child

theorem child_walking_emits {σ : Type} [op σ] (gr : dwgrep_graph) (u : σ) (f : valfile)
    (dg : List diagnostic) (sib : die_chain) :
    ∀ (o tg : Nat) (a : List Dwarf_Attribute) (ch : die_chain) (p : Nat),
      ∃ c1, ∀ out t, emits (child.idle gr (c1, dg) u) out t →
        emits (child.walking gr u ⟨o, tg, a, ch, sib⟩ f p dg)
          (push_dies f p (⟨o, tg, a, ch, sib⟩ :: sib.entries) ++ out) t := by
  induction sib with
  | nil =>
    intro o tg a ch p
    exact ⟨⟨o, tg, a, ch, .nil⟩, fun out t h =>
      emits_cons ⟨0 + 1, loop_ret (fun n _ => rfl)⟩ h⟩
  | cons o1 tg1 a1 ch1 sib1 _ ih =>
    intro o tg a ch p
    obtain ⟨c1, h1⟩ := ih o1 tg1 a1 ch1 (p + 1)
    exact ⟨c1, fun out t h => emits_cons ⟨0 + 1, loop_ret (fun n _ => rfl)⟩ (h1 out t h)⟩

theorem child_done {σ : Type} [op σ] (gr : dwgrep_graph) (j : Dwarf_Die × List diagnostic)
    (u u1 : σ) (h : eventually u (.done u1)) :
    eventually (child.idle gr j u) (.done (child.idle gr j u1)) := by
  obtain ⟨N, hN⟩ := h
  refine ⟨N + 1, loop_ret (fun n hn => ?_)⟩
  simp [child.body, child.idle, hN n hn]

theorem child_step {σ : Type} [op σ] (gr : dwgrep_graph) (j : Dwarf_Die × List diagnostic)
    (u u1 : σ) (f : valfile) (hf : f ≠ []) (h : eventually u (.yield f u1)) :
    ∃ j1, ∀ out t, emits (child.idle gr j1 u1) out t →
      emits (child.idle gr j u) (child.derive f ++ out) t := by
  obtain ⟨N, hN⟩ := h
  obtain ⟨c0, dg⟩ := j
  cases f with
  | nil => exact absurd rfl hf
  | cons v rest =>
    have skip : ∀ dg1, (∀ n, N ≤ n → child.body n (child.idle gr (c0, dg) u)
          = .again (child.idle gr (c0, dg1) u1)) → child.derive (v :: rest) = [] →
        ∃ j1, ∀ out t, emits (child.idle gr j1 u1) out t →
          emits (child.idle gr (c0, dg) u) (child.derive (v :: rest) ++ out) t := by
      intro dg1 hb hd
      refine ⟨(c0, dg1), fun out t h1 => ?_⟩
      rw [hd]
      refine emits_forward ?_ h1
      rintro r ⟨M, hM⟩
      exact ⟨max N M + 1, loop_again hb hM⟩
    cases v with
    | value_die d q =>
      obtain ⟨o, tg, a, ch, sb⟩ := d
      cases ch with
      | nil =>
        exact skip dg (fun n hn => by
          simp [child.body, child.idle, hN n hn, valfile.pop, dwarf_haschildren]) rfl
      | cons o1 tg1 a1 ch1 sib1 =>
        obtain ⟨c1, h1⟩ := child_walking_emits gr u1 rest dg sib1 o1 tg1 a1 ch1 0
        refine ⟨(c1, dg), fun out t h2 => ?_⟩
        refine emits_forward ?_ (h1 out t h2)
        rintro r ⟨M, hM⟩
        refine ⟨max N M + 1, fun n hn => ?_⟩
        obtain ⟨m, rfl⟩ : ∃ m, n = m + 1 := ⟨n - 1, by omega⟩
        have h4 : N ≤ m := le_trans (le_max_left N M) (by omega)
        have h5 : M ≤ m + 1 := le_trans (le_max_right N M) (by omega)
        rw [← hM (m + 1) h5]
        show loop child.body (m + 1) _ = loop child.body (m + 1) _
        simp [loop, child.body, child.idle, child.walking, hN m h4, valfile.pop,
          dwarf_haschildren, dwarf_child, die_chain.first]
    | value_cst c q =>
      exact skip (dg ++ [show_expects "child" [.T_DIE]])
        (fun n hn => by simp [child.body, child.idle, hN n hn, valfile.pop]) rfl
    | value_str c q =>
      exact skip (dg ++ [show_expects "child" [.T_DIE]])
        (fun n hn => by simp [child.body, child.idle, hN n hn, valfile.pop]) rfl
    | value_seq c q =>
      exact skip (dg ++ [show_expects "child" [.T_DIE]])
        (fun n hn => by simp [child.body, child.idle, hN n hn, valfile.pop]) rfl
    | value_attr c d q =>
      exact skip (dg ++ [show_expects "child" [.T_DIE]])
        (fun n hn => by simp [child.body, child.idle, hN n hn, valfile.pop]) rfl
    | value_loclist_op c d q =>
      exact skip (dg ++ [show_expects "child" [.T_DIE]])
        (fun n hn => by simp [child.body, child.idle, hN n hn, valfile.pop]) rfl

theorem child_emits {σ : Type} [op σ] (gr : dwgrep_graph) (fs : List valfile)
    (j : Dwarf_Die × List diagnostic) (u u1 : σ) (hok : ∀ f ∈ fs, f ≠ [])
    (h : emits u fs u1) :
    ∃ j1, emits (child.idle gr j u) (fs.flatMap child.derive) (child.idle gr j1 u1) :=
  fan_out_emits (child.idle gr) child.derive (fun f => f ≠ []) (child_done gr)
    (child_step gr) fs j u u1 hok h

end builtin_child

/-! ## attribute: proofs -/

namespace builtin_attribute

theorem push_attrs_eq_map (f : valfile) (d : Dwarf_Die) (p : Nat) (it : List Dwarf_Attribute) :
    push_attrs f d p it = (it.enumFrom p).map (fun ja => f.push (value_attr ja.2 d ja.1)) := by
  induction it generalizing p with
  | nil => rfl
  | cons a it ih => simp [push_attrs, List.enumFrom, ih]

theorem attribute_walking_emits {σ : Type} [op σ] (gr : dwgrep_graph) (u : σ) (d : Dwarf_Die)
    (f : valfile) (dg : List diagnostic) (it : List Dwarf_Attribute) (p : Nat)
    (out : List valfile) (t : attribute_op σ)
    (h : emits (attribute_op.idle gr (d, dg) u) out t) :
    emits (attribute_op.walking gr u d it f p dg) (push_attrs f d p it ++ out) t := by
  induction it generalizing p with
  | nil =>
    refine emits_forward ?_ h
    rintro r ⟨N, hN⟩
    exact ⟨max 0 N + 1, loop_again (fun n _ => rfl) hN⟩
  | cons a it ih =>
    exact emits_cons ⟨0 + 1, loop_ret (fun n _ => rfl)⟩ (ih (p + 1))

theorem attribute_done {σ : Type} [op σ] (gr : dwgrep_graph) (j : Dwarf_Die × List diagnostic)
    (u u1 : σ) (h : eventually u (.done u1)) :
    eventually (attribute_op.idle gr j u) (.done (attribute_op.idle gr j u1)) := by
  obtain ⟨N, hN⟩ := h
  refine ⟨N + 1, loop_ret (fun n hn => ?_)⟩
  simp [attribute_op.body, attribute_op.idle, hN n hn]

theorem attribute_step {σ : Type} [op σ] (gr : dwgrep_graph) (j : Dwarf_Die × List diagnostic)
    (u u1 : σ) (f : valfile) (hf : f ≠ []) (h : eventually u (.yield f u1)) :
    ∃ j1, ∀ out t, emits (attribute_op.idle gr j1 u1) out t →
      emits (attribute_op.idle gr j u) (attribute_op.derive f ++ out) t := by
  obtain ⟨N, hN⟩ := h
  obtain ⟨c0, dg⟩ := j
  cases f with
  | nil => exact absurd rfl hf
  | cons v rest =>
    have skip : (∀ n, N ≤ n → attribute_op.body n (attribute_op.idle gr (c0, dg) u)
          = .again (attribute_op.idle gr (c0, dg ++ [show_expects "attribute" [.T_DIE]]) u1)) →
        attribute_op.derive (v :: rest) = [] →
        ∃ j1, ∀ out t, emits (attribute_op.idle gr j1 u1) out t →
          emits (attribute_op.idle gr (c0, dg) u) (attribute_op.derive (v :: rest) ++ out) t := by
      intro hb hd
      refine ⟨(c0, dg ++ [show_expects "attribute" [.T_DIE]]), fun out t h1 => ?_⟩
      rw [hd]
      refine emits_forward ?_ h1
      rintro r ⟨M, hM⟩
      exact ⟨max N M + 1, loop_again hb hM⟩
    cases v with
    | value_die d q =>
      refine ⟨(d, dg), fun out t h2 => ?_⟩
      refine emits_forward ?_ (attribute_walking_emits gr u1 d rest dg d.attrs 0 out t h2)
      rintro r ⟨M, hM⟩
      refine ⟨max N M + 1, fun n hn => ?_⟩
      obtain ⟨m, rfl⟩ : ∃ m, n = m + 1 := ⟨n - 1, by omega⟩
      have h4 : N ≤ m := le_trans (le_max_left N M) (by omega)
      have h5 : M ≤ m + 1 := le_trans (le_max_right N M) (by omega)
      rw [← hM (m + 1) h5]
      show loop attribute_op.body (m + 1) _ = loop attribute_op.body (m + 1) _
      simp [loop, attribute_op.body, attribute_op.idle, attribute_op.walking, hN m h4,
        valfile.pop, attr_iterator.of_die]
    | value_cst c q =>
      exact skip (fun n hn => by
        simp [attribute_op.body, attribute_op.idle, hN n hn, valfile.pop]) rfl
    | value_str c q =>
      exact skip (fun n hn => by
        simp [attribute_op.body, attribute_op.idle, hN n hn, valfile.pop]) rfl
    | value_seq c q =>
      exact skip (fun n hn => by
        simp [attribute_op.body, attribute_op.idle, hN n hn, valfile.pop]) rfl
    | value_attr c d q =>
      exact skip (fun n hn => by
        simp [attribute_op.body, attribute_op.idle, hN n hn, valfile.pop]) rfl
    | value_loclist_op c d q =>
      exact skip (fun n hn => by
        simp [attribute_op.body, attribute_op.idle, hN n hn, valfile.pop]) rfl

theorem attribute_emits {σ : Type} [op σ] (gr : dwgrep_graph) (fs : List valfile)
    (j : Dwarf_Die × List diagnostic) (u u1 : σ) (hok : ∀ f ∈ fs, f ≠ [])
    (h : emits u fs u1) :
    ∃ j1, emits (attribute_op.idle gr j u) (fs.flatMap attribute_op.derive)
      (attribute_op.idle gr j1 u1) :=
  fan_out_emits (attribute_op.idle gr) attribute_op.derive (fun f => f ≠ [])
    (attribute_done gr) (attribute_step gr) fs j u u1 hok h

end builtin_attribute

/-! ## dwop_f: proofs -/

theorem dwop_f_done (vt : dwop_f_vtable) (gr : dwgrep_graph) {σ : Type} [op σ]
    (dg : List diagnostic) (u u1 : σ) (h : eventually u (.done u1)) :
    eventually (dwop_f.idle vt gr dg u) (.done (dwop_f.idle vt gr dg u1)) := by
  obtain ⟨N, hN⟩ := h
  refine ⟨N + 1, loop_ret (fun n hn => ?_)⟩
  simp [dwop_f.body, dwop_f.idle, hN n hn]

theorem dwop_f_after (vt : dwop_f_vtable) (gr : dwgrep_graph) {σ : Type} [op σ]
    (dg : List diagnostic) (u u1 : σ) (f : valfile) (r : operated) (N : Nat)
    (hr : r ≠ .thrown)
    (hb : ∀ n, N ≤ n → dwop_f.body n (dwop_f.idle vt gr dg u)
      = dwop_f.after (dwop_f.idle vt gr dg u) u1 r)
    (hd : dwop_f.derive vt gr f = r.frames) :
    ∃ dg1, ∀ out t, emits (dwop_f.idle vt gr dg1 u1) out t →
      emits (dwop_f.idle vt gr dg u) (dwop_f.derive vt gr f ++ out) t := by
  refine ⟨dg, fun out t h1 => ?_⟩
  rw [hd]
  cases r with
  | thrown => exact absurd rfl hr
  | returned b vf =>
    cases b with
    | true => exact emits_cons ⟨N + 1, loop_ret hb⟩ h1
    | false =>
      refine emits_forward ?_ h1
      rintro r ⟨M, hM⟩
      exact ⟨max N M + 1, loop_again hb hM⟩

theorem dwop_f_step (vt : dwop_f_vtable) (gr : dwgrep_graph) {σ : Type} [op σ]
    (dg : List diagnostic) (u u1 : σ) (f : valfile) (hf : dwop_f.ok vt gr f)
    (h : eventually u (.yield f u1)) :
    ∃ dg1, ∀ out t, emits (dwop_f.idle vt gr dg1 u1) out t →
      emits (dwop_f.idle vt gr dg u) (dwop_f.derive vt gr f ++ out) t := by
  obtain ⟨N, hN⟩ := h
  obtain ⟨hf1, hf2⟩ := hf
  cases f with
  | nil => exact absurd rfl hf1
  | cons v rest =>
    have skip : (∀ n, N ≤ n → dwop_f.body n (dwop_f.idle vt gr dg u)
          = .again (dwop_f.idle vt gr
              (dg ++ [show_expects vt.name [.T_DIE, .T_AT, .T_LOCLIST_OP]]) u1)) →
        dwop_f.derive vt gr (v :: rest) = [] →
        ∃ dg1, ∀ out t, emits (dwop_f.idle vt gr dg1 u1) out t →
          emits (dwop_f.idle vt gr dg u) (dwop_f.derive vt gr (v :: rest) ++ out) t := by
      intro hb hd
      refine ⟨dg ++ [show_expects vt.name [.T_DIE, .T_AT, .T_LOCLIST_OP]], fun out t h1 => ?_⟩
      rw [hd]
      refine emits_forward ?_ h1
      rintro r ⟨M, hM⟩
      exact ⟨max N M + 1, loop_again hb hM⟩
    cases v with
    | value_die d q =>
      exact dwop_f_after vt gr dg u u1 _ (vt.operate_die gr rest d) N
        (fun h => hf2 (by simp [dwop_f.dispatch, h]))
        (fun n hn => by simp [dwop_f.body, dwop_f.idle, hN n hn, valfile.pop])
        rfl
    | value_attr a d q =>
      exact dwop_f_after vt gr dg u u1 _ (vt.operate_attr gr rest a d) N
        (fun h => hf2 (by simp [dwop_f.dispatch, h]))
        (fun n hn => by simp [dwop_f.body, dwop_f.idle, hN n hn, valfile.pop])
        rfl
    | value_loclist_op o a q =>
      exact dwop_f_after vt gr dg u u1 _ (vt.operate_dwop gr rest o a) N
        (fun h => hf2 (by simp [dwop_f.dispatch, h]))
        (fun n hn => by simp [dwop_f.body, dwop_f.idle, hN n hn, valfile.pop])
        rfl
    | value_cst c q =>
      exact skip (fun n hn => by simp [dwop_f.body, dwop_f.idle, hN n hn, valfile.pop]) rfl
    | value_str c q =>
      exact skip (fun n hn => by simp [dwop_f.body, dwop_f.idle, hN n hn, valfile.pop]) rfl
    | value_seq c q =>
      exact skip (fun n hn => by simp [dwop_f.body, dwop_f.idle, hN n hn, valfile.pop]) rfl

theorem dwop_f_emits (vt : dwop_f_vtable) (gr : dwgrep_graph) {σ : Type} [op σ]
    (fs : List valfile) (dg : List diagnostic) (u u1 : σ)
    (hok : ∀ f ∈ fs, dwop_f.ok vt gr f) (h : emits u fs u1) :
    ∃ dg1, emits (dwop_f.idle vt gr dg u) (fs.flatMap (dwop_f.derive vt gr))
      (dwop_f.idle vt gr dg1 u1) :=
  fan_out_emits (dwop_f.idle vt gr) (dwop_f.derive vt gr) (dwop_f.ok vt gr)
    (dwop_f_done vt gr) (dwop_f_step vt gr) fs dg u u1 hok h

/-! ## unit: proofs -/

namespace builtin_unit

theorem unit_walking_emits {σ : Type} [op σ] (gr : dwgrep_graph) (u : σ) (e : List Dwarf_Die)
    (f : valfile) (dg : List diagnostic) (xs : List Dwarf_Die) (p : Nat)
    (out : List valfile) (t : unit σ) (h : emits (unit.idle gr (e, dg) u) out t) :
    emits (unit.walking gr u xs e f p dg) (push_dies f p xs ++ out) t := by
  induction xs generalizing p with
  | nil =>
    refine emits_forward ?_ h
    rintro r ⟨N, hN⟩
    refine ⟨max 0 N + 1, loop_again (fun n _ => ?_) hN⟩
    simp [unit.body, unit.walking, unit.emit, unit.reset_me, unit.idle, all_dies_iterator.end_]
  | cons x xs ih =>
    have hne : x :: (xs ++ e) ≠ e := fun h1 => by
      have h2 := congrArg List.length h1
      simp at h2
      omega
    refine emits_cons ⟨0 + 1, loop_ret (fun n _ => ?_)⟩ (ih (p + 1))
    simp [unit.body, unit.walking, unit.emit, hne]

theorem unit_done {σ : Type} [op σ] (gr : dwgrep_graph) (j : all_dies_iterator × List diagnostic)
    (u u1 : σ) (h : eventually u (.done u1)) :
    eventually (unit.idle gr j u) (.done (unit.idle gr j u1)) := by
  obtain ⟨N, hN⟩ := h
  refine ⟨N + 1, loop_ret (fun n hn => ?_)⟩
  simp [unit.body, unit.idle, hN n hn]

theorem unit_init_from_die (gr : dwgrep_graph) (d cudie : Dwarf_Die)
    (h : dwarf_diecu gr d = some cudie) :
    unit.init_from_die gr d = some (cudie.unit_dies ++ cudie.siblings.dies, cudie.siblings.dies) := by
  obtain ⟨o, tg, a, ch, sb⟩ := cudie
  simp [unit.init_from_die, h, cu_iterator.at_cu, all_dies_iterator.of_cu, Dwarf_Die.chain,
    die_chain.dies, cu_iterator.incr, Dwarf_Die.unit_dies]

theorem unit_step_die {σ : Type} [op σ] (gr : dwgrep_graph)
    (j : all_dies_iterator × List diagnostic) (u u1 : σ) (d : Dwarf_Die)
    (rest : valfile) (N : Nat) (hd : dwarf_diecu gr d ≠ none)
    (hb : ∀ n it e, N ≤ n → unit.init_from_die gr d = some (it, e) →
      unit.body n (unit.idle gr j u) = unit.emit
        { m_upstream := u1, m_gr := gr, m_vf := some rest, m_it := it, m_end := e, m_pos := 0,
          diag := j.2 }) :
    ∃ j1, ∀ out t, emits (unit.idle gr j1 u1) out t →
      emits (unit.idle gr j u) (unit.of_die gr d rest ++ out) t := by
  obtain ⟨e0, dg⟩ := j
  cases hcu : dwarf_diecu gr d with
  | none => exact absurd hcu hd
  | some cudie =>
    have hi := unit_init_from_die gr d cudie hcu
    refine ⟨(cudie.siblings.dies, dg), fun out t h2 => ?_⟩
    have h3 := unit_walking_emits gr u1 cudie.siblings.dies rest dg cudie.unit_dies 0 out t h2
    simp only [unit.of_die, hcu]
    refine emits_forward ?_ h3
    rintro r ⟨M, hM⟩
    refine ⟨max N M + 1, fun n hn => ?_⟩
    obtain ⟨m, rfl⟩ : ∃ m, n = m + 1 := ⟨n - 1, by omega⟩
    have h4 : N ≤ m := le_trans (le_max_left N M) (by omega)
    have h5 : M ≤ m + 1 := le_trans (le_max_right N M) (by omega)
    rw [← hM (m + 1) h5]
    show loop unit.body (m + 1) _ = loop unit.body (m + 1) _
    simp only [loop, hb m _ _ h4 hi]
    rfl

theorem unit_step {σ : Type} [op σ] (gr : dwgrep_graph)
    (j : all_dies_iterator × List diagnostic) (u u1 : σ) (f : valfile) (hf : unit.ok gr f)
    (h : eventually u (.yield f u1)) :
    ∃ j1, ∀ out t, emits (unit.idle gr j1 u1) out t →
      emits (unit.idle gr j u) (unit.derive gr f ++ out) t := by
  obtain ⟨N, hN⟩ := h
  cases f with
  | nil => exact absurd hf (by simp [unit.ok])
  | cons v rest =>
    have skip : (∀ n, N ≤ n → unit.body n (unit.idle gr j u)
          = .again (unit.idle gr (j.1, j.2 ++ [show_expects "unit" [.T_DIE, .T_AT]]) u1)) →
        unit.derive gr (v :: rest) = [] →
        ∃ j1, ∀ out t, emits (unit.idle gr j1 u1) out t →
          emits (unit.idle gr j u) (unit.derive gr (v :: rest) ++ out) t := by
      intro hb hd
      refine ⟨(j.1, j.2 ++ [show_expects "unit" [.T_DIE, .T_AT]]), fun out t h1 => ?_⟩
      rw [hd]
      refine emits_forward ?_ h1
      rintro r ⟨M, hM⟩
      exact ⟨max N M + 1, loop_again hb hM⟩
    cases v with
    | value_die d q =>
      exact unit_step_die gr j u u1 d rest N hf (fun n it e hn hi => by
        simp [unit.body, unit.idle, hN n hn, valfile.pop, hi])
    | value_attr a d q =>
      exact unit_step_die gr j u u1 d rest N hf (fun n it e hn hi => by
        simp [unit.body, unit.idle, hN n hn, valfile.pop, hi])
    | value_cst c q =>
      exact skip (fun n hn => by simp [unit.body, unit.idle, hN n hn, valfile.pop]) rfl
    | value_str c q =>
      exact skip (fun n hn => by simp [unit.body, unit.idle, hN n hn, valfile.pop]) rfl
    | value_seq c q =>
      exact skip (fun n hn => by simp [unit.body, unit.idle, hN n hn, valfile.pop]) rfl
    | value_loclist_op c d q =>
      exact skip (fun n hn => by simp [unit.body, unit.idle, hN n hn, valfile.pop]) rfl

theorem unit_emits {σ : Type} [op σ] (gr : dwgrep_graph) (fs : List valfile)
    (j : all_dies_iterator × List diagnostic) (u u1 : σ) (hok : ∀ f ∈ fs, unit.ok gr f)
    (h : emits u fs u1) :
    ∃ j1, emits (unit.idle gr j u) (fs.flatMap (unit.derive gr)) (unit.idle gr j1 u1) :=
  fan_out_emits (unit.idle gr) (unit.derive gr) (unit.ok gr) (unit_done gr) (unit_step gr)
    fs j u u1 hok h

end builtin_unit

/-! ## value: proofs -/

namespace builtin_value_attr

theorem value_walking_emits (at_value : at_value_t) {σ : Type} [op σ] (gr : dwgrep_graph)
    (u : σ) (f : valfile) (vs : List value) (out : List valfile) (t : o at_value σ)
    (h : emits (o.idle at_value gr () u) out t) :
    emits (o.walking at_value gr u vs f) ((vs.map fun v => valfile.push f v) ++ out) t := by
  induction vs with
  | nil =>
    refine emits_forward ?_ h
    rintro r ⟨N, hN⟩
    exact ⟨max 0 N + 1, loop_again (fun n _ => rfl) hN⟩
  | cons v vs ih =>
    exact emits_cons ⟨0 + 1, loop_ret (fun n _ => rfl)⟩ ih

theorem value_done (at_value : at_value_t) {σ : Type} [op σ] (gr : dwgrep_graph) (j : Unit)
    (u u1 : σ) (h : eventually u (.done u1)) :
    eventually (o.idle at_value gr j u) (.done (o.idle at_value gr j u1)) := by
  obtain ⟨N, hN⟩ := h
  refine ⟨N + 1, loop_ret (fun n hn => ?_)⟩
  simp [o.body, o.idle, hN n hn]

theorem value_step (at_value : at_value_t) {σ : Type} [op σ] (gr : dwgrep_graph) (j : Unit)
    (u u1 : σ) (f : valfile) (hf : o.ok f) (h : eventually u (.yield f u1)) :
    ∃ j1, ∀ out t, emits (o.idle at_value gr j1 u1) out t →
      emits (o.idle at_value gr j u) (o.derive at_value gr f ++ out) t := by
  obtain ⟨N, hN⟩ := h
  obtain ⟨a, d, p, rest, rfl⟩ := hf
  refine ⟨(), fun out t h2 => ?_⟩
  refine emits_forward ?_ (value_walking_emits at_value gr u1 rest (at_value a d gr) out t h2)
  rintro r ⟨M, hM⟩
  refine ⟨max N M + 1, fun n hn => ?_⟩
  obtain ⟨m, rfl⟩ : ∃ m, n = m + 1 := ⟨n - 1, by omega⟩
  have h4 : N ≤ m := le_trans (le_max_left N M) (by omega)
  have h5 : M ≤ m + 1 := le_trans (le_max_right N M) (by omega)
  rw [← hM (m + 1) h5]
  show loop o.body (m + 1) _ = loop o.body (m + 1) _
  simp [loop, o.body, o.idle, o.walking, hN m h4, valfile.pop]

theorem value_emits (at_value : at_value_t) {σ : Type} [op σ] (gr : dwgrep_graph)
    (fs : List valfile) (u u1 : σ) (hok : ∀ f ∈ fs, o.ok f) (h : emits u fs u1) :
    emits (o.mk_op at_value u gr) (fs.flatMap (o.derive at_value gr))
      (o.mk_op at_value u1 gr) := by
  obtain ⟨_, h1⟩ := fan_out_emits (o.idle at_value gr) (o.derive at_value gr) o.ok
    (value_done at_value gr) (value_step at_value gr) fs () u u1 hok h
  exact h1

end builtin_value_attr

/-! ## The parent index: proofs -/

theorem lookup_mem {α β : Type} [DecidableEq α] (l : List (α × β)) (k : α) (v : β)
    (h : l.lookup k = some v) : (k, v) ∈ l := by
  induction l with
  | nil => simp [List.lookup] at h
  | cons kv l ih =>
    obtain ⟨k1, v1⟩ := kv
    by_cases hk : k = k1
    · subst hk
      simp [List.lookup] at h
      simp [h]
    · have : (k == k1) = false := by simpa using hk
      simp [List.lookup, this] at h
      simp [ih h]

theorem lookup_none_iff {α β : Type} [DecidableEq α] (l : List (α × β)) (k : α) :
    l.lookup k = none ↔ (l.any fun kv => kv.1 == k) = false := by
  induction l with
  | nil => simp [List.lookup]
  | cons kv l ih =>
    obtain ⟨k1, v1⟩ := kv
    by_cases hk : k = k1
    · subst hk
      simp [List.lookup]
    · have h1 : (k == k1) = false := by simpa using hk
      have h2 : (k1 == k) = false := by simpa using fun h => hk h.symm
      simp only [List.lookup, h1, ih, List.any_cons, h2, Bool.false_or]

theorem lookup_of_nodup {α β : Type} [DecidableEq α] (l : List (α × β)) (k : α) (v : β)
    (hn : (l.map Prod.fst).Nodup) (h : (k, v) ∈ l) : l.lookup k = some v := by
  induction l with
  | nil => simp at h
  | cons kv l ih =>
    obtain ⟨k1, v1⟩ := kv
    simp only [List.map_cons, List.nodup_cons] at hn
    rcases List.mem_cons.1 h with h1 | h1
    · injection h1 with h2 h3
      subst h2 h3
      simp [List.lookup]
    · have hk : k ≠ k1 := by
        rintro rfl
        exact hn.1 (List.mem_map.2 ⟨(k, v), h1, rfl⟩)
      have : (k == k1) = false := by simpa using hk
      simp only [List.lookup, this]
      exact ih hn.2 h1

theorem find_of_nodup (l : List Dwarf_Die) (d : Dwarf_Die)
    (hn : (l.map fun x => x.offset).Nodup) (h : d ∈ l) :
    l.find? (fun x => x.offset == d.offset) = some d := by
  induction l with
  | nil => simp at h
  | cons x l ih =>
    simp only [List.map_cons, List.nodup_cons] at hn
    rcases List.mem_cons.1 h with h1 | h1
    · subst h1
      simp
    · have hk : x.offset ≠ d.offset := fun h2 =>
        hn.1 (List.mem_map.2 ⟨d, h1, h2.symm⟩)
      have : (x.offset == d.offset) = false := by simpa using hk
      simp only [List.find?, this]
      exact ih hn.2 h1

theorem child_offsets_perm (ch : die_chain) :
    (ch.child_offsets ++ ch.entries.map fun d => d.offset).Perm (ch.dies.map fun d => d.offset) := by
  induction ch with
  | nil => simp [die_chain.child_offsets, die_chain.dies, die_chain.entries]
  | cons o tg a c s ihc ihs =>
    rw [List.perm_iff_count] at ihc ihs ⊢
    intro x
    have h1 := ihc x
    have h2 := ihs x
    simp only [die_chain.child_offsets, die_chain.dies, die_chain.entries, List.flatMap_cons,
      List.flatMap_append, List.count_append, List.map_cons, List.map_append, List.count_cons,
      Dwarf_Die.child_list] at h1 h2 ⊢
    omega

theorem parent_map_keys (gr : dwgrep_graph) :
    gr.parent_map.map Prod.fst = gr.dwarf.child_offsets := by
  simp [dwgrep_graph.parent_map, die_chain.child_offsets, List.map_flatMap,
    dwgrep_graph.all_dies, Function.comp_def]

theorem parent_map_keys_nodup (gr : dwgrep_graph) (hwf : gr.wf) :
    (gr.parent_map.map Prod.fst).Nodup := by
  rw [parent_map_keys]
  exact List.Nodup.of_append_left ((child_offsets_perm gr.dwarf).nodup_iff.2 hwf)

/-- In a graph with distinct offsets the index maps each child to its parent, and
`dwarf_offdie` finds the parent again. -/
theorem find_parent_of_child (gr : dwgrep_graph) (hwf : gr.wf) (d c : Dwarf_Die)
    (hd : d ∈ gr.all_dies) (hc : c ∈ d.child_list) :
    gr.find_parent c = some d.offset ∧ dwarf_offdie gr d.offset = some d := by
  refine ⟨lookup_of_nodup _ _ _ (parent_map_keys_nodup gr hwf) ?_, find_of_nodup _ _ hwf hd⟩
  exact List.mem_flatMap.2 ⟨d, hd, List.mem_map.2 ⟨c, hc, rfl⟩⟩

/-- Every offset the index gives is the offset of a DIE that `dwarf_offdie` finds. -/
theorem offdie_of_find_parent (gr : dwgrep_graph) (d : Dwarf_Die) (off : Dwarf_Off)
    (h : gr.find_parent d = some off) : ∃ pd, dwarf_offdie gr off = some pd ∧ pd.offset = off := by
  have h1 := lookup_mem _ _ _ h
  obtain ⟨d1, hd1, h2⟩ := List.mem_flatMap.1 h1
  obtain ⟨c, _, h3⟩ := List.mem_map.1 h2
  injection h3 with _ h4
  have h5 : (gr.all_dies.find? fun x => x.offset == off).isSome := by
    rw [List.find?_isSome]
    exact ⟨d1, hd1, by simp [h4]⟩
  obtain ⟨pd, hpd⟩ := Option.isSome_iff_exists.1 h5
  exact ⟨pd, hpd, by simpa using List.find?_some hpd⟩

/-- The test `is_root` answers yes exactly when `find_parent` finds nothing. -/
theorem is_root_iff (gr : dwgrep_graph) (d : Dwarf_Die) :
    gr.is_root d = true ↔ gr.find_parent d = none := by
  simp only [dwgrep_graph.is_root, dwgrep_graph.find_parent, lookup_none_iff]
  simp

theorem mem_push_dies (rest : valfile) (cs : List Dwarf_Die) (p : Nat) (f : valfile)
    (h : f ∈ push_dies rest p cs) : ∃ c j, c ∈ cs ∧ f = value_die c j :: rest := by
  induction cs generalizing p with
  | nil => simp [push_dies] at h
  | cons c cs ih =>
    simp only [push_dies, List.mem_cons] at h
    rcases h with h | h
    · exact ⟨c, p, List.mem_cons_self _ _, h⟩
    · obtain ⟨c1, j, h1, h2⟩ := ih (p + 1) h
      exact ⟨c1, j, List.mem_cons_of_mem _ h1, h2⟩

theorem parent_operate_child (gr : dwgrep_graph) (hwf : gr.wf) (d c : Dwarf_Die)
    (hd : d ∈ gr.all_dies) (hc : c ∈ d.child_list) (rest : valfile) :
    builtin_parent.parent.operate_die gr rest c = .returned true (value_die d 0 :: rest) := by
  obtain ⟨h1, h2⟩ := find_parent_of_child gr hwf d c hd hc
  simp [builtin_parent.parent.operate_die, h1, h2, valfile.push]

theorem parent_of_pushed_children (gr : dwgrep_graph) (hwf : gr.wf) (d : Dwarf_Die)
    (hd : d ∈ gr.all_dies) (rest : valfile) (cs : List Dwarf_Die)
    (hcs : ∀ c ∈ cs, c ∈ d.child_list) (p : Nat) :
    (push_dies rest p cs).flatMap (dwop_f.derive builtin_parent.parent gr)
      = cs.map fun _ => valfile.push rest (value_die d 0) := by
  induction cs generalizing p with
  | nil => rfl
  | cons c cs ih =>
    have h1 := parent_operate_child gr hwf d c hd (hcs c (List.mem_cons_self _ _)) rest
    rw [push_dies, List.flatMap_cons, ih (fun x hx => hcs x (List.mem_cons_of_mem _ hx))]
    simp [dwop_f.derive, dwop_f.dispatch, valfile.push, builtin_parent.parent, h1,
      operated.frames]

/-! ## Compilation units: proofs -/

/-- What `find_cu` finds is a unit of the chain that holds a DIE at the offset asked
for, and its DIEs lie in the file right before those of the units after it. -/
theorem find_cu_spec (ch : die_chain) (off : Dwarf_Off) (cudie : Dwarf_Die)
    (h : ch.find_cu off = some cudie) :
    cudie ∈ ch.entries ∧ off ∈ cudie.unit_dies.map (fun d => d.offset)
      ∧ ∃ pre, ch.dies = pre ++ cudie.unit_dies ++ cudie.siblings.dies := by
  induction ch with
  | nil => simp [die_chain.find_cu] at h
  | cons o tg a c s _ ihs =>
    by_cases hany : (Dwarf_Die.unit_dies ⟨o, tg, a, c, s⟩).any (fun d => d.offset == off) = true
    · simp only [die_chain.find_cu, hany, if_true, Option.some.injEq] at h
      subst h
      refine ⟨by simp [die_chain.entries], ?_, [], by simp [die_chain.dies, Dwarf_Die.unit_dies]⟩
      obtain ⟨x, hx, hxo⟩ := List.any_eq_true.1 hany
      exact List.mem_map.2 ⟨x, hx, by simpa using hxo⟩
    · simp only [die_chain.find_cu, hany] at h
      obtain ⟨h1, h2, pre, h3⟩ := ihs h
      refine ⟨by simp [die_chain.entries, h1], h2,
        (Dwarf_Die.unit_dies ⟨o, tg, a, c, s⟩) ++ pre, ?_⟩
      simp [die_chain.dies, Dwarf_Die.unit_dies, h3]

theorem find_cu_of_mem (ch : die_chain) (d : Dwarf_Die) (h : d ∈ ch.dies) :
    ∃ cudie, ch.find_cu d.offset = some cudie := by
  induction ch with
  | nil => simp [die_chain.dies] at h
  | cons o tg a c s _ ihs =>
    by_cases hany : (Dwarf_Die.unit_dies ⟨o, tg, a, c, s⟩).any
        (fun x => x.offset == d.offset) = true
    · exact ⟨⟨o, tg, a, c, s⟩, by simp only [die_chain.find_cu, hany, if_true]⟩
    · simp only [die_chain.find_cu, hany]
      apply ihs
      simp only [die_chain.dies, List.mem_cons, List.mem_append] at h
      rcases h with h | h | h
      · exact absurd (List.any_eq_true.2 ⟨d, by simp [Dwarf_Die.unit_dies, h], by simp⟩) hany
      · exact absurd (List.any_eq_true.2 ⟨d, by simp [Dwarf_Die.unit_dies, h], by simp⟩) hany
      · exact h

theorem offset_of_pushed_dies (gr : dwgrep_graph) (rest : valfile) (ds : List Dwarf_Die)
    (p : Nat) :
    (push_dies rest p ds).flatMap (dwop_f.derive builtin_offset.offset gr)
      = ds.map fun d => valfile.push rest (value_cst ⟨d.offset, hex_constant_dom⟩ 0) := by
  induction ds generalizing p with
  | nil => rfl
  | cons d ds ih =>
    rw [push_dies, List.flatMap_cons, ih]
    rfl

/-! ## Per-frame facts used by the claims -/

open builtin_winfo builtin_child

theorem mem_child_derive (f0 f : valfile) (h : f ∈ child.derive f0) :
    ∃ d p rest c j, f0 = value_die d p :: rest ∧ c ∈ d.child_list ∧ f = value_die c j :: rest := by
  cases f0 with
  | nil => simp [child.derive] at h
  | cons v rest =>
    cases v with
    | value_die d p =>
      obtain ⟨c, j, hc, hf⟩ := mem_push_dies _ _ _ _ h
      exact ⟨d, p, rest, c, j, rfl, hc, hf⟩
    | value_cst c q => simp [child.derive] at h
    | value_str c q => simp [child.derive] at h
    | value_seq c q => simp [child.derive] at h
    | value_attr c d q => simp [child.derive] at h
    | value_loclist_op c d q => simp [child.derive] at h

theorem parent_not_thrown (gr : dwgrep_graph) (f : valfile) :
    dwop_f.dispatch builtin_parent.parent gr f ≠ some .thrown := by
  cases f with
  | nil => simp [dwop_f.dispatch]
  | cons v rest =>
    cases v with
    | value_die d p =>
      simp only [dwop_f.dispatch, builtin_parent.parent, builtin_parent.parent.operate_die]
      cases hp : gr.find_parent d with
      | none => simp
      | some off =>
        obtain ⟨pd, hpd, _⟩ := offdie_of_find_parent gr d off hp
        simp [hpd]
    | value_attr a d q =>
      simp [dwop_f.dispatch, builtin_parent.parent, builtin_parent.parent.operate_attr]
    | value_loclist_op c d q =>
      simp [dwop_f.dispatch, builtin_parent.parent, dwop_f.operate_dwop]
    | value_cst c q => simp [dwop_f.dispatch]
    | value_str c q => simp [dwop_f.dispatch]
    | value_seq c q => simp [dwop_f.dispatch]

theorem attr_named_not_thrown (m_atname : Nat) (gr : dwgrep_graph) (f : valfile) :
    dwop_f.dispatch (builtin_attr_named.o m_atname) gr f ≠ some .thrown := by
  cases f with
  | nil => simp [dwop_f.dispatch]
  | cons v rest =>
    cases v with
    | value_die d p =>
      simp only [dwop_f.dispatch, builtin_attr_named.o, builtin_attr_named.o.operate_die]
      cases dwarf_attr d m_atname <;> simp
    | value_attr a d q =>
      simp [dwop_f.dispatch, builtin_attr_named.o, dwop_f.operate_attr]
    | value_loclist_op c d q =>
      simp [dwop_f.dispatch, builtin_attr_named.o, dwop_f.operate_dwop]
    | value_cst c q => simp [dwop_f.dispatch]
    | value_str c q => simp [dwop_f.dispatch]
    | value_seq c q => simp [dwop_f.dispatch]

/-- Every frame that `attr_named` passes on has an attribute on top. -/
theorem mem_attr_named_derive (m_atname : Nat) (gr : dwgrep_graph) (f0 f : valfile)
    (h : f ∈ dwop_f.derive (builtin_attr_named.o m_atname) gr f0) :
    ∃ a d rest, f = value_attr a d 0 :: rest := by
  cases f0 with
  | nil => simp [dwop_f.derive, dwop_f.dispatch] at h
  | cons v rest =>
    cases v with
    | value_die d p =>
      simp only [dwop_f.derive, dwop_f.dispatch, builtin_attr_named.o,
        builtin_attr_named.o.operate_die] at h
      cases ha : dwarf_attr d m_atname with
      | none => simp [ha, operated.frames] at h
      | some attr =>
        simp only [ha, operated.frames, List.mem_singleton] at h
        exact ⟨attr, d, rest, h⟩
    | value_attr a d q =>
      simp [dwop_f.derive, dwop_f.dispatch, builtin_attr_named.o, dwop_f.operate_attr,
        operated.frames] at h
    | value_loclist_op c d q =>
      simp [dwop_f.derive, dwop_f.dispatch, builtin_attr_named.o, dwop_f.operate_dwop,
        operated.frames] at h
    | value_cst c q => simp [dwop_f.derive, dwop_f.dispatch] at h
    | value_str c q => simp [dwop_f.derive, dwop_f.dispatch] at h
    | value_seq c q => simp [dwop_f.derive, dwop_f.dispatch] at h

/-! ## The claims -/

/-- C1: for a graph with DIEs `d_1..d_n` in file order and an upstream that hands
out the frames `f_1..f_k` and then nullptr, successive calls of `winfo::next`
give exactly the `k * n` frames `(f_1,d_1), .., (f_1,d_n), (f_2,d_1), .., (f_k,d_n)`,
where `(f_i,d_j)` is `f_i` with nothing popped and the DIE `d_j` pushed (at position
`j - 1`), and then nullptr; for an empty graph no frame is given at all and nullptr
is returned once the upstream is drained. -/
theorem winfo_next_enumerates_all_dies {σ : Type} [op σ] (gr : dwgrep_graph)
    (fs : List valfile) (u u1 : σ) (h : emits u fs u1) :
    emits (winfo.mk_op u gr)
        (fs.flatMap fun f => gr.all_dies.enum.map fun jd => f.push (value_die jd.2 jd.1))
        (winfo.mk_op u1 gr)
      ∧ (fs.flatMap fun f =>
          gr.all_dies.enum.map fun jd => f.push (value_die jd.2 jd.1)).length
        = fs.length * gr.all_dies.length
      ∧ (gr.all_dies = [] → emits (winfo.mk_op u gr) [] (winfo.mk_op u1 gr)) := by
  have h1 := winfo_emits gr fs u u1 h
  have h2 : (fun f => push_dies f 0 gr.all_dies)
      = fun f => gr.all_dies.enum.map fun jd => valfile.push f (value_die jd.2 jd.1) := by
    funext f
    rw [push_dies_eq_map, List.enum]
  rw [h2] at h1
  refine ⟨h1, ?_, fun h3 => ?_⟩
  · clear h h1
    induction fs with
    | nil => simp
    | cons f fs ih =>
      rw [List.flatMap_cons, List.length_append, ih]
      simp [Nat.succ_mul, Nat.add_comm]
  · have h4 : (fs.flatMap fun f =>
        gr.all_dies.enum.map fun jd => valfile.push f (value_die jd.2 jd.1)) = [] := by
      rw [h3]
      induction fs with
      | nil => rfl
      | cons f fs ih => simp [List.flatMap_cons]
    rw [h4] at h1
    exact h1

theorem winfo_next_enumerates_all_dies_witness :
    emits (winfo.mk_op (finite_upstream.of [[], [value_str "x" 0]]) graph_abc)
      [[value_die die_A 0], [value_die die_B 1], [value_die die_C 2],
       [value_die die_A 0, value_str "x" 0], [value_die die_B 1, value_str "x" 0],
       [value_die die_C 2, value_str "x" 0]]
      (winfo.mk_op ⟨[], [[], [value_str "x" 0]]⟩ graph_abc) :=
  (winfo_next_enumerates_all_dies graph_abc [[], [value_str "x" 0]] _ _
    (finite_upstream_emits _ _)).1

/-- C2: for an upstream of non-empty frames, `child::next` gives, for each upstream
frame in turn whose top is a DIE, the frame without its top with each immediate
child of that DIE pushed, in sibling order (the `i`-th child at position `i - 1`),
before it goes on to the next upstream frame; a DIE without children gives no
frame (nor does a frame with another top). -/
theorem child_next_enumerates_children {σ : Type} [op σ] (gr : dwgrep_graph)
    (fs : List valfile) (u u1 : σ) (h : emits u fs u1) (hne : ∀ f ∈ fs, f ≠ []) :
    ∃ t : child σ, t.m_upstream = u1 ∧ emits (child.mk_op u gr)
      (fs.flatMap fun f => match f with
        | value_die d _ :: rest =>
          d.child_list.enum.map fun jc => valfile.push rest (value_die jc.2 jc.1)
        | _ => []) t := by
  obtain ⟨j1, h1⟩ := child_emits gr fs (⟨0, 0, [], .nil, .nil⟩, []) u u1 hne h
  have h2 : child.derive = fun f => match f with
      | value_die d _ :: rest =>
        d.child_list.enum.map fun jc => valfile.push rest (value_die jc.2 jc.1)
      | _ => [] := by
    funext f
    unfold child.derive
    split <;> simp [push_dies_eq_map, List.enum]
  rw [h2] at h1
  exact ⟨_, rfl, h1⟩

/-- On the graph `A -> B -> C`, `winfo child child` gives exactly one frame, with `C` on top. -/
theorem child_next_enumerates_children_witness :
    ∃ t, emits (child.mk_op (child.mk_op (winfo.mk_op (finite_upstream.of [[]]) graph_abc)
      graph_abc) graph_abc) [[value_die die_C 0]] t := by
  have h1 := winfo_emits graph_abc [[]] _ _ (finite_upstream_emits [[]] [[]])
  obtain ⟨j1, h2⟩ := child_emits graph_abc _ (⟨0, 0, [], .nil, .nil⟩, []) _ _
    (by intro f hf; simp [push_dies, dwgrep_graph.all_dies, graph_abc, die_chain.dies] at hf
        rcases hf with rfl | rfl | rfl <;> simp [valfile.push]) h1
  obtain ⟨t, _, h3⟩ := child_next_enumerates_children graph_abc
    [[value_die die_B 0], [value_die die_C 0]] _ _ h2
    (by intro f hf; simp at hf; rcases hf with rfl | rfl <;> simp)
  exact ⟨t, h3⟩

/-- C3: for an upstream of non-empty frames, `parent` gives, for each upstream frame
in turn: nothing, if the top is a DIE `d` and `find_parent (d)` finds nothing; the
frame with its top replaced by the DIE at the offset that `find_parent (d)` gives,
if it finds one (that DIE exists); the frame with its top replaced by the owning
DIE, if the top is an attribute.  `find_parent (d)` finds nothing exactly when
`?root` answers yes on a frame with `d` on top. -/
theorem parent_next_replaces_top_by_parent {σ : Type} [op σ] (gr : dwgrep_graph)
    (fs : List valfile) (u u1 : σ) (h : emits u fs u1) (hne : ∀ f ∈ fs, f ≠ []) :
    (∃ t : dwop_f builtin_parent.parent σ, t.m_upstream = u1 ∧
      emits (builtin_parent.build_exec u gr)
        (fs.flatMap fun f => match f with
          | value_die d _ :: rest =>
            match gr.find_parent d with
            | none => []
            | some off => (dwarf_offdie gr off).toList.map fun pd =>
                valfile.push rest (value_die pd 0)
          | value_attr _ d _ :: rest => [valfile.push rest (value_die d 0)]
          | _ => []) t)
      ∧ (∀ d off, gr.find_parent d = some off →
          ∃ pd, dwarf_offdie gr off = some pd ∧ pd.offset = off)
      ∧ (∀ d p rest, gr.find_parent d = none ↔
          (builtin_rootp.p.result gr (value_die d p :: rest)).map (fun r => r.res)
            = some .yes) := by
  refine ⟨?_, offdie_of_find_parent gr, fun d p rest => ?_⟩
  · obtain ⟨dg1, h1⟩ := dwop_f_emits builtin_parent.parent gr fs [] u u1
      (fun f hf => ⟨hne f hf, parent_not_thrown gr f⟩) h
    refine ⟨dwop_f.idle builtin_parent.parent gr dg1 u1, rfl, ?_⟩
    rw [flatMap_congr_mem fs _ (dwop_f.derive builtin_parent.parent gr)]
    · exact h1
    · intro f _
      cases f with
      | nil => rfl
      | cons v rest =>
        cases v with
        | value_die d p =>
          simp only [dwop_f.derive, dwop_f.dispatch, builtin_parent.parent,
            builtin_parent.parent.operate_die]
          cases hp : gr.find_parent d with
          | none => rfl
          | some off =>
            obtain ⟨pd, hpd, _⟩ := offdie_of_find_parent gr d off hp
            simp [hpd, operated.frames]
        | value_attr a d q => rfl
        | value_loclist_op c d q => rfl
        | value_cst c q => rfl
        | value_str c q => rfl
        | value_seq c q => rfl
  · rw [← is_root_iff]
    simp only [builtin_rootp.p.result, Option.map_some', Option.some.injEq]
    cases gr.is_root d <;> simp [pred_result.of_bool]

theorem parent_next_replaces_top_by_parent_witness :
    ∃ t, emits (builtin_parent.build_exec (finite_upstream.of
        [[value_die die_A 0], [value_die die_C 2, value_str "x" 0],
         [value_attr ⟨0x03, 0x08, 102⟩ die_B 0]]) graph_abc)
      [[value_die die_B 0, value_str "x" 0], [value_die die_B 0]] t := by
  obtain ⟨t, _, h⟩ := (parent_next_replaces_top_by_parent graph_abc
    [[value_die die_A 0], [value_die die_C 2, value_str "x" 0],
     [value_attr ⟨0x03, 0x08, 102⟩ die_B 0]] _ _ (finite_upstream_emits _ _)
    (by intro f hf; simp at hf; rcases hf with rfl | rfl | rfl <;> simp)).1
  exact ⟨t, h⟩

/-- C4: in a graph with pairwise distinct DIE offsets, for an upstream of non-empty
frames in which every DIE on top of a frame is a DIE `d` of the graph (one that
`winfo` gives), `parent` applied to the frames of `child` gives, for each child that
`child` pushed for `d`, exactly one frame, and that frame has `d` itself on top: the
parent index sends each child of `d` to the offset of `d`, and `dwarf_offdie` gives
`d` back. -/
theorem parent_of_child_is_the_die {σ : Type} [op σ] (gr : dwgrep_graph) (hwf : gr.wf)
    (fs : List valfile) (u u1 : σ) (h : emits u fs u1)
    (hd : ∀ f ∈ fs, f ≠ [] ∧ ∀ d p rest, f = value_die d p :: rest → d ∈ gr.all_dies) :
    (∃ t : dwop_f builtin_parent.parent (child σ), t.m_upstream.m_upstream = u1 ∧
      emits (builtin_parent.build_exec (child.mk_op u gr) gr)
        (fs.flatMap fun f => match f with
          | value_die d _ :: rest =>
            d.child_list.map fun _ => valfile.push rest (value_die d 0)
          | _ => []) t)
      ∧ (∀ d ∈ gr.all_dies, ∀ c ∈ d.child_list,
          gr.find_parent c = some d.offset ∧ dwarf_offdie gr d.offset = some d) := by
  refine ⟨?_, fun d hd1 c hc => find_parent_of_child gr hwf d c hd1 hc⟩
  obtain ⟨j1, h1⟩ := child_emits gr fs (⟨0, 0, [], .nil, .nil⟩, []) u u1
    (fun f hf => (hd f hf).1) h
  obtain ⟨dg1, h2⟩ := dwop_f_emits builtin_parent.parent gr _ [] _ _ (fun f hf => by
    obtain ⟨f0, _, hf1⟩ := List.mem_flatMap.1 hf
    obtain ⟨d, p, rest, c, j, _, _, rfl⟩ := mem_child_derive f0 f hf1
    exact ⟨by simp, parent_not_thrown gr _⟩) h1
  refine ⟨dwop_f.idle builtin_parent.parent gr dg1 (child.idle gr j1 u1), rfl, ?_⟩
  rw [List.flatMap_assoc] at h2
  rw [flatMap_congr_mem fs _ (fun f =>
    (child.derive f).flatMap (dwop_f.derive builtin_parent.parent gr))]
  · exact h2
  · intro f hf
    cases f with
    | nil => rfl
    | cons v rest =>
      cases v with
      | value_die d p =>
        exact (parent_of_pushed_children gr hwf d ((hd _ hf).2 d p rest rfl) rest
          d.child_list (fun c hc => hc) 0).symm
      | value_attr a d q => rfl
      | value_loclist_op c d q => rfl
      | value_cst c q => rfl
      | value_str c q => rfl
      | value_seq c q => rfl

theorem parent_of_child_is_the_die_witness :
    ∃ t, emits (builtin_parent.build_exec
        (child.mk_op (winfo.mk_op (finite_upstream.of [[]]) graph_abc) graph_abc) graph_abc)
      [[value_die die_A 0], [value_die die_B 0]] t := by
  have h1 := winfo_emits graph_abc [[]] _ _ (finite_upstream_emits [[]] [[]])
  obtain ⟨t, _, h⟩ := (parent_of_child_is_the_die graph_abc (by decide)
    [[value_die die_A 0], [value_die die_B 1], [value_die die_C 2]] _ _ h1
    (by intro f hf
        simp only [List.mem_cons, List.mem_singleton, List.not_mem_nil, or_false] at hf
        rcases hf with rfl | rfl | rfl
        · exact ⟨by simp, fun d p rest he => by
            injection he with h2; injection h2 with h3; subst h3; decide⟩
        · exact ⟨by simp, fun d p rest he => by
            injection he with h2; injection h2 with h3; subst h3; decide⟩
        · exact ⟨by simp, fun d p rest he => by
            injection he with h2; injection h2 with h3; subst h3; decide⟩)).1
  exact ⟨t, h⟩

/-- C5 (the behaviour of the code): `offset` gives no frame for an upstream frame
with a `LoclistOp` on top and writes no diagnostic; the frame is dropped, because
`dwop_f::next` calls the member `operate (valfile &, Dwarf_Op *, Dwarf_Attribute &)`,
which `offset` does not override.  The member of `offset` written for this case
would have pushed the opcode's offset as a hex constant. -/
theorem offset_next_drops_loclist_op (gr : dwgrep_graph) (dwop : Dwarf_Op)
    (attr : Dwarf_Attribute) (pos : Nat) (rest : valfile) :
    emits (builtin_offset.build_exec
        (finite_upstream.of [value_loclist_op dwop attr pos :: rest]) gr) []
        (dwop_f.idle builtin_offset.offset gr []
          ⟨[], [value_loclist_op dwop attr pos :: rest]⟩)
      ∧ builtin_offset.offset.operate_loclist_op rest dwop attr
        = .returned true (value_cst ⟨dwop.offset, hex_constant_dom⟩ 0 :: rest) := by
  refine ⟨⟨2, fun n hn => ?_⟩, rfl⟩
  obtain ⟨m, rfl⟩ : ∃ m, n = m + 2 := ⟨n - 2, by omega⟩
  rfl

/-- C6: over a single empty upstream frame, `winfo offset` gives exactly one frame
per DIE of the graph, in file order, the `j`-th holding nothing but the hex constant
of the offset of `d_j`; there are as many frames as DIEs, and the frames are
pairwise distinct when the offsets of the DIEs are. -/
theorem winfo_offset_enumerates_offsets (gr : dwgrep_graph) :
    (∃ t, emits (builtin_offset.build_exec (winfo.mk_op (finite_upstream.of [[]]) gr) gr)
        (gr.all_dies.map fun d => [value_cst ⟨d.offset, hex_constant_dom⟩ 0]) t)
      ∧ (gr.all_dies.map fun d => [value_cst ⟨d.offset, hex_constant_dom⟩ 0]).length
        = gr.all_dies.length
      ∧ ((gr.all_dies.map fun d => d.offset).Nodup →
        (gr.all_dies.map fun d => [value_cst ⟨d.offset, hex_constant_dom⟩ 0]).Nodup) := by
  refine ⟨?_, by simp, fun hn => ?_⟩
  · have h1 := winfo_emits gr [[]] _ _ (finite_upstream_emits [[]] [[]])
    obtain ⟨dg1, h2⟩ := dwop_f_emits builtin_offset.offset gr _ [] _ _ (fun f hf => by
      simp only [List.flatMap_cons, List.flatMap_nil, List.append_nil] at hf
      obtain ⟨c, j, _, rfl⟩ := mem_push_dies _ _ _ _ hf
      exact ⟨by simp, by simp [dwop_f.dispatch, builtin_offset.offset,
        builtin_offset.offset.operate_die]⟩) h1
    simp only [List.flatMap_cons, List.flatMap_nil, List.append_nil] at h2
    rw [offset_of_pushed_dies] at h2
    exact ⟨_, h2⟩
  · have h3 : (gr.all_dies.map fun d => [value_cst ⟨d.offset, hex_constant_dom⟩ 0])
        = (gr.all_dies.map fun d => d.offset).map
            fun n : Nat => [value_cst ⟨n, hex_constant_dom⟩ 0] := by
      simp [List.map_map, Function.comp_def]
    rw [h3]
    refine List.Nodup.map (fun a b hab => ?_) hn
    simpa using hab

/-- C7: for an upstream of non-empty frames, `label` gives exactly one frame for each
upstream frame with a DIE, an attribute or a `LoclistOp` on top, in the order of the
upstream and none of them dropped: the upstream frame with its top replaced by a
constant at position 0 (the tag in `dw_tag_dom` for a DIE, the name code in
`dw_attr_dom` for an attribute, the atom in `dw_locexpr_opcode_short_dom` for a
`LoclistOp`), and with the values below the top as they were. -/
theorem label_next_replaces_top_by_constant {σ : Type} [op σ] (gr : dwgrep_graph)
    (fs : List valfile) (u u1 : σ) (h : emits u fs u1) (hne : ∀ f ∈ fs, f ≠ []) :
    ∃ t : dwop_f builtin_label.op σ, t.m_upstream = u1 ∧
      emits (builtin_label.build_exec u gr)
        (fs.flatMap fun f => match f with
          | value_die d _ :: rest => [value_cst ⟨d.tag, dw_tag_dom⟩ 0 :: rest]
          | value_attr a _ _ :: rest => [value_cst ⟨a.code, dw_attr_dom⟩ 0 :: rest]
          | value_loclist_op o _ _ :: rest =>
            [value_cst ⟨o.atom, dw_locexpr_opcode_short_dom⟩ 0 :: rest]
          | _ => []) t := by
  obtain ⟨dg1, h1⟩ := dwop_f_emits builtin_label.op gr fs [] u u1 (fun f hf => by
    refine ⟨hne f hf, ?_⟩
    cases f with
    | nil => simp [dwop_f.dispatch]
    | cons v rest =>
      cases v <;> simp [dwop_f.dispatch, builtin_label.op, builtin_label.op.operate_die,
        builtin_label.op.operate_attr, builtin_label.op.operate_dwop]) h
  refine ⟨dwop_f.idle builtin_label.op gr dg1 u1, rfl, ?_⟩
  rw [flatMap_congr_mem fs _ (dwop_f.derive builtin_label.op gr)]
  · exact h1
  · intro f _
    cases f with
    | nil => rfl
    | cons v rest => cases v <;> rfl

theorem label_next_replaces_top_by_constant_witness :
    ∃ t, emits (builtin_label.build_exec (finite_upstream.of
        [[value_die die_B 1, value_str "x" 0], [value_attr ⟨0x03, 0x08, 102⟩ die_B 0],
         [value_loclist_op ⟨0x91, 16, 0, 0⟩ ⟨0x40, 0x18, 0⟩ 0]]) graph_abc)
      [[value_cst ⟨0x2e, dw_tag_dom⟩ 0, value_str "x" 0], [value_cst ⟨0x03, dw_attr_dom⟩ 0],
       [value_cst ⟨0x91, dw_locexpr_opcode_short_dom⟩ 0]] t := by
  obtain ⟨t, _, h⟩ := label_next_replaces_top_by_constant graph_abc
    [[value_die die_B 1, value_str "x" 0], [value_attr ⟨0x03, 0x08, 102⟩ die_B 0],
     [value_loclist_op ⟨0x91, 16, 0, 0⟩ ⟨0x40, 0x18, 0⟩ 0]] _ _ (finite_upstream_emits _ _)
    (by intro f hf; simp at hf; rcases hf with rfl | rfl | rfl <;> simp)
  exact ⟨t, h⟩

/-- C8: for an upstream of non-empty frames, `attribute` gives, for each upstream
frame in turn whose top is a DIE, the frame without its top with each attribute of
that DIE pushed, in stored order, as an attribute value owned by that DIE (the
`i`-th at position `i - 1`), before it goes on to the next upstream frame; a DIE
without attributes gives no frame (nor does a frame with another top). -/
theorem attribute_next_enumerates_attributes {σ : Type} [op σ] (gr : dwgrep_graph)
    (fs : List valfile) (u u1 : σ) (h : emits u fs u1) (hne : ∀ f ∈ fs, f ≠ []) :
    ∃ t : builtin_attribute.attribute_op σ, t.m_upstream = u1 ∧
      emits (builtin_attribute.attribute_op.mk_op u gr)
        (fs.flatMap fun f => match f with
          | value_die d _ :: rest =>
            d.attrs.enum.map fun ja => valfile.push rest (value_attr ja.2 d ja.1)
          | _ => []) t := by
  obtain ⟨j1, h1⟩ := builtin_attribute.attribute_emits gr fs (⟨0, 0, [], .nil, .nil⟩, []) u u1
    hne h
  refine ⟨builtin_attribute.attribute_op.idle gr j1 u1, rfl, ?_⟩
  rw [flatMap_congr_mem fs _ builtin_attribute.attribute_op.derive]
  · exact h1
  · intro f _
    unfold builtin_attribute.attribute_op.derive
    split <;> simp [builtin_attribute.push_attrs_eq_map, List.enum]

theorem attribute_next_enumerates_attributes_witness :
    ∃ t, emits (builtin_attribute.attribute_op.mk_op (finite_upstream.of
        [[value_die die_A 0], [value_die die_B 1, value_str "x" 0]]) graph_abc)
      [[value_attr ⟨0x03, 0x08, 102⟩ die_B 0, value_str "x" 0]] t := by
  obtain ⟨t, _, h⟩ := attribute_next_enumerates_attributes graph_abc
    [[value_die die_A 0], [value_die die_B 1, value_str "x" 0]] _ _
    (finite_upstream_emits _ _)
    (by intro f hf; simp at hf; rcases hf with rfl | rfl <;> simp)
  exact ⟨t, h⟩

/-- C9: for an upstream of non-empty frames in which every DIE that is on top of a
frame, or owns the attribute on top of a frame, lies in a unit of the graph, `unit`
gives, for each upstream frame in turn whose top is such a DIE `d` or an attribute
owned by `d`, the frame without its top with each DIE of the unit that holds `d`
pushed: the CU DIE first, then its descendants in file order (the `i`-th at
position `i - 1`).  The unit found for `d` is a unit of the graph with a DIE at the
offset of `d`; in the file its DIEs are followed directly by the DIEs of the units
after it, which are not given; every DIE of the graph lies in a unit, and with
pairwise distinct offsets it is itself one of the DIEs given. -/
theorem unit_next_enumerates_unit_dies {σ : Type} [op σ] (gr : dwgrep_graph)
    (fs : List valfile) (u u1 : σ) (h : emits u fs u1)
    (hd : ∀ f ∈ fs, f ≠ [] ∧ ∀ d, ((∃ p rest, f = value_die d p :: rest)
      ∨ (∃ a p rest, f = value_attr a d p :: rest)) → dwarf_diecu gr d ≠ none) :
    (∃ t : builtin_unit.unit σ, t.m_upstream = u1 ∧
      emits (builtin_unit.unit.mk_op u gr)
        (fs.flatMap fun f => match f with
          | value_die d _ :: rest =>
            match dwarf_diecu gr d with
            | some cudie =>
              cudie.unit_dies.enum.map fun jx => valfile.push rest (value_die jx.2 jx.1)
            | none => []
          | value_attr _ d _ :: rest =>
            match dwarf_diecu gr d with
            | some cudie =>
              cudie.unit_dies.enum.map fun jx => valfile.push rest (value_die jx.2 jx.1)
            | none => []
          | _ => []) t)
      ∧ (∀ d cudie, dwarf_diecu gr d = some cudie →
          cudie ∈ gr.dwarf.entries ∧ d.offset ∈ cudie.unit_dies.map (fun x => x.offset)
          ∧ ∃ pre, gr.all_dies = pre ++ cudie.unit_dies ++ cudie.siblings.dies)
      ∧ (∀ d ∈ gr.all_dies, ∃ cudie, dwarf_diecu gr d = some cudie)
      ∧ (gr.wf → ∀ d ∈ gr.all_dies, ∀ cudie, dwarf_diecu gr d = some cudie →
          d ∈ cudie.unit_dies) := by
  refine ⟨?_, fun d cudie hcu => find_cu_spec gr.dwarf d.offset cudie hcu,
    fun d hd1 => find_cu_of_mem gr.dwarf d hd1, fun hwf d hd1 cudie hcu => ?_⟩
  · obtain ⟨j1, h1⟩ := builtin_unit.unit_emits gr fs ([], []) u u1 (fun f hf => by
      obtain ⟨h2, h3⟩ := hd f hf
      cases f with
      | nil => exact absurd rfl h2
      | cons v rest =>
        cases v with
        | value_die d p => exact h3 d (Or.inl ⟨p, rest, rfl⟩)
        | value_attr a d p => exact h3 d (Or.inr ⟨a, p, rest, rfl⟩)
        | value_cst c q => trivial
        | value_str c q => trivial
        | value_seq c q => trivial
        | value_loclist_op c d q => trivial) h
    refine ⟨builtin_unit.unit.idle gr j1 u1, rfl, ?_⟩
    rw [flatMap_congr_mem fs _ (builtin_unit.unit.derive gr)]
    · exact h1
    · intro f _
      unfold builtin_unit.unit.derive
      split
      · simp only [builtin_unit.unit.of_die]
        cases dwarf_diecu gr _ <;> simp [push_dies_eq_map, List.enum]
      · simp only [builtin_unit.unit.of_die]
        cases dwarf_diecu gr _ <;> simp [push_dies_eq_map, List.enum]
      · rfl
  · obtain ⟨_, h2, pre, h3⟩ := find_cu_spec gr.dwarf d.offset cudie hcu
    obtain ⟨x, hx, hxo⟩ := List.mem_map.1 h2
    have hx1 : x ∈ gr.all_dies := by
      show x ∈ gr.dwarf.dies
      rw [h3]
      simp [hx]
    have := List.inj_on_of_nodup_map hwf hx1 hd1 hxo
    rw [← this]
    exact hx

theorem unit_next_enumerates_unit_dies_witness :
    ∃ t, emits (builtin_unit.unit.mk_op (finite_upstream.of
        [[value_die die_C 2, value_str "x" 0], [value_attr ⟨0x03, 0x08, 102⟩ die_B 0]])
        graph_abc)
      [[value_die die_A 0, value_str "x" 0], [value_die die_B 1, value_str "x" 0],
       [value_die die_C 2, value_str "x" 0],
       [value_die die_A 0], [value_die die_B 1], [value_die die_C 2]] t := by
  obtain ⟨t, _, h⟩ := (unit_next_enumerates_unit_dies graph_abc
    [[value_die die_C 2, value_str "x" 0], [value_attr ⟨0x03, 0x08, 102⟩ die_B 0]] _ _
    (finite_upstream_emits _ _)
    (by intro f hf
        simp only [List.mem_cons, List.mem_singleton, List.not_mem_nil, or_false] at hf
        rcases hf with rfl | rfl
        · refine ⟨by simp, fun d hd => ?_⟩
          rcases hd with ⟨p, rest, he⟩ | ⟨a, p, rest, he⟩
          · injection he with h2; injection h2 with h3; subst h3; decide
          · injection he with h2; injection h2
        · refine ⟨by simp, fun d hd => ?_⟩
          rcases hd with ⟨p, rest, he⟩ | ⟨a, p, rest, he⟩
          · injection he with h2; injection h2
          · injection he with h2; injection h2 with _ h3; subst h3; decide)).1
  exact ⟨t, h⟩

/-- C10: the operator built for `@AT_X` is `value` on top of `attr_named (X)`.  For
an upstream of non-empty frames it gives, for each upstream frame in turn whose top
is a DIE: if the DIE has the attribute `X`, one frame for each value that `at_value`
produces for that attribute, in the order produced, each pushed on the frame
without the DIE; if the DIE has no attribute `X`, no frame, and it goes on with the
next upstream frame (as it does for a frame with another top). -/
theorem attr_named_build_exec_gives_values (at_value : at_value_t) (m_atname : Nat)
    {σ : Type} [op σ] (gr : dwgrep_graph) (fs : List valfile) (u u1 : σ)
    (h : emits u fs u1) (hne : ∀ f ∈ fs, f ≠ []) :
    builtin_attr_named.build_exec at_value m_atname u gr
        = builtin_value_attr.o.mk_op at_value
            (dwop_f.mk_op (builtin_attr_named.o m_atname) u gr) gr
      ∧ ∃ t : builtin_value_attr.o at_value (dwop_f (builtin_attr_named.o m_atname) σ),
        t.m_upstream.m_upstream = u1 ∧
        emits (builtin_attr_named.build_exec at_value m_atname u gr)
          (fs.flatMap fun f => match f with
            | value_die d _ :: rest =>
              match dwarf_attr d m_atname with
              | some attr => (at_value attr d gr).map fun v => valfile.push rest v
              | none => []
            | _ => []) t := by
  refine ⟨rfl, ?_⟩
  obtain ⟨dg1, h1⟩ := dwop_f_emits (builtin_attr_named.o m_atname) gr fs [] u u1
    (fun f hf => ⟨hne f hf, attr_named_not_thrown m_atname gr f⟩) h
  have h2 := builtin_value_attr.value_emits at_value gr _ _ _ (fun f hf => by
    obtain ⟨f0, _, hf1⟩ := List.mem_flatMap.1 hf
    obtain ⟨a, d, rest, rfl⟩ := mem_attr_named_derive m_atname gr f0 f hf1
    exact ⟨a, d, 0, rest, rfl⟩) h1
  refine ⟨builtin_value_attr.o.mk_op at_value
    (dwop_f.idle (builtin_attr_named.o m_atname) gr dg1 u1) gr, rfl, ?_⟩
  rw [List.flatMap_assoc] at h2
  rw [flatMap_congr_mem fs _ (fun f => (dwop_f.derive (builtin_attr_named.o m_atname) gr f).flatMap
    (builtin_value_attr.o.derive at_value gr))]
  · exact h2
  · intro f _
    cases f with
    | nil => rfl
    | cons v rest =>
      cases v with
      | value_die d p =>
        simp only [dwop_f.derive, dwop_f.dispatch, builtin_attr_named.o,
          builtin_attr_named.o.operate_die]
        cases ha : dwarf_attr d m_atname with
        | none => simp [operated.frames]
        | some attr => simp [operated.frames, builtin_value_attr.o.derive, valfile.push]
      | value_attr a d q => rfl
      | value_loclist_op c d q => rfl
      | value_cst c q => rfl
      | value_str c q => rfl
      | value_seq c q => rfl

theorem attr_named_build_exec_gives_values_witness :
    ∃ t, emits (builtin_attr_named.build_exec at_value_abc 0x03 (finite_upstream.of
        [[value_die die_A 0], [value_die die_B 1, value_str "x" 0]]) graph_abc)
      [[value_str "f" 0, value_str "x" 0]] t := by
  obtain ⟨t, _, h⟩ := (attr_named_build_exec_gives_values at_value_abc 0x03 graph_abc
    [[value_die die_A 0], [value_die die_B 1, value_str "x" 0]] _ _
    (finite_upstream_emits _ _)
    (by intro f hf; simp at hf; rcases hf with rfl | rfl <;> simp)).2
  exact ⟨t, h⟩

/-- C11: for an upstream of non-empty frames in which the reference of the attribute
that `integrate` picks resolves to a DIE, `integrate` gives, for each upstream frame
in turn whose top is a DIE `d`: the frame with its top replaced by the DIE that the
`DW_AT_abstract_origin` attribute of `d` refers to, if `d` has that attribute;
otherwise by the DIE that its `DW_AT_specification` attribute refers to, if it has
that one; and nothing if it has neither.  The DIE referred to is pushed as it is
(position 0), whatever attributes it carries itself: a single hop. -/
theorem integrate_next_follows_one_reference {σ : Type} [op σ] (gr : dwgrep_graph)
    (fs : List valfile) (u u1 : σ) (h : emits u fs u1)
    (hd : ∀ f ∈ fs, f ≠ [] ∧ ∀ d p rest a, f = value_die d p :: rest →
      (dwarf_attr d DW_AT_abstract_origin = some a
        ∨ (dwarf_attr d DW_AT_abstract_origin = none
          ∧ dwarf_attr d DW_AT_specification = some a)) →
      dwarf_formref_die gr a ≠ none) :
    ∃ t : dwop_f builtin_integrate.integrate σ, t.m_upstream = u1 ∧
      emits (builtin_integrate.build_exec u gr)
        (fs.flatMap fun f => match f with
          | value_die d _ :: rest =>
            match dwarf_attr d DW_AT_abstract_origin with
            | some a => (dwarf_formref_die gr a).toList.map fun die2 =>
                valfile.push rest (value_die die2 0)
            | none =>
              match dwarf_attr d DW_AT_specification with
              | some a => (dwarf_formref_die gr a).toList.map fun die2 =>
                  valfile.push rest (value_die die2 0)
              | none => []
          | _ => []) t := by
  obtain ⟨dg1, h1⟩ := dwop_f_emits builtin_integrate.integrate gr fs [] u u1 (fun f hf => by
    obtain ⟨h2, h3⟩ := hd f hf
    refine ⟨h2, ?_⟩
    cases f with
    | nil => exact absurd rfl h2
    | cons v rest =>
      cases v with
      | value_die d p =>
        simp only [dwop_f.dispatch, builtin_integrate.integrate,
          builtin_integrate.integrate.operate_die]
        cases ho : dwarf_attr d DW_AT_abstract_origin with
        | some a =>
          cases hr : dwarf_formref_die gr a with
          | none => exact absurd hr (h3 d p rest a rfl (Or.inl ho))
          | some die2 => simp [hr]
        | none =>
          cases hs : dwarf_attr d DW_AT_specification with
          | none => simp
          | some a =>
            cases hr : dwarf_formref_die gr a with
            | none => exact absurd hr (h3 d p rest a rfl (Or.inr ⟨ho, hs⟩))
            | some die2 => simp [hr]
      | value_attr a d q =>
        simp [dwop_f.dispatch, builtin_integrate.integrate, dwop_f.operate_attr]
      | value_loclist_op c d q =>
        simp [dwop_f.dispatch, builtin_integrate.integrate, dwop_f.operate_dwop]
      | value_cst c q => simp [dwop_f.dispatch]
      | value_str c q => simp [dwop_f.dispatch]
      | value_seq c q => simp [dwop_f.dispatch]) h
  refine ⟨dwop_f.idle builtin_integrate.integrate gr dg1 u1, rfl, ?_⟩
  rw [flatMap_congr_mem fs _ (dwop_f.derive builtin_integrate.integrate gr)]
  · exact h1
  · intro f _
    cases f with
    | nil => rfl
    | cons v rest =>
      cases v with
      | value_die d p =>
        simp only [dwop_f.derive, dwop_f.dispatch, builtin_integrate.integrate,
          builtin_integrate.integrate.operate_die]
        cases ho : dwarf_attr d DW_AT_abstract_origin with
        | some a => cases hr : dwarf_formref_die gr a <;> simp [hr, operated.frames]
        | none =>
          cases hs : dwarf_attr d DW_AT_specification with
          | none => simp [operated.frames]
          | some a => cases hr : dwarf_formref_die gr a <;> simp [hr, operated.frames]
      | value_attr a d q => rfl
      | value_loclist_op c d q => rfl
      | value_cst c q => rfl
      | value_str c q => rfl
      | value_seq c q => rfl

/-- On the image `graph_ref`: `D1` gives its abstract origin `D2` and not `D3`, which
`D2` specifies; `D3` gives nothing; `D4` gives its abstract origin; `D2` gives `D3`. -/
theorem integrate_next_follows_one_reference_witness :
    ∃ t, emits (builtin_integrate.build_exec (finite_upstream.of
        [[value_die ref_D1 0], [value_die ref_D3 2, value_str "x" 0], [value_die ref_D4 3],
         [value_die ref_D2 1]]) graph_ref)
      [[value_die ref_D2 0], [value_die ref_D2 0], [value_die ref_D3 0]] t := by
  obtain ⟨t, _, h⟩ := integrate_next_follows_one_reference graph_ref
    [[value_die ref_D1 0], [value_die ref_D3 2, value_str "x" 0], [value_die ref_D4 3],
     [value_die ref_D2 1]] _ _ (finite_upstream_emits _ _)
    (by intro f hf
        simp only [List.mem_cons, List.mem_singleton, List.not_mem_nil, or_false] at hf
        rcases hf with rfl | rfl | rfl | rfl <;>
        · refine ⟨by simp, fun d p rest a he ha => ?_⟩
          injection he with h2 h3
          injection h2 with h4 h5
          subst h4
          rcases ha with ha | ⟨ha1, ha⟩ <;>
            simp [dwarf_attr, ref_D1, ref_D2, ref_D3, ref_D4, DW_AT_abstract_origin,
              DW_AT_specification] at * <;>
            (try subst ha) <;> (try decide))
  exact ⟨t, h⟩

/-! ## Positions -/

theorem top_positions_push_dies (f : valfile) (p : Nat) (ds : List Dwarf_Die) :
    top_positions (push_dies f p ds) = (List.range' p ds.length).map some := by
  induction ds generalizing p with
  | nil => rfl
  | cons d ds ih =>
    have h1 := ih (p + 1)
    simp only [top_positions] at h1
    simp [top_positions, push_dies, valfile.push, value.pos, List.range'_succ, h1]

theorem top_positions_push_attrs (f : valfile) (d : Dwarf_Die) (p : Nat)
    (it : List Dwarf_Attribute) :
    top_positions (builtin_attribute.push_attrs f d p it)
      = (List.range' p it.length).map some := by
  induction it generalizing p with
  | nil => rfl
  | cons a it ih =>
    have h1 := ih (p + 1)
    simp only [top_positions] at h1
    simp [top_positions, builtin_attribute.push_attrs, valfile.push, value.pos,
      List.range'_succ, h1]

theorem push_dies_length (f : valfile) (p : Nat) (ds : List Dwarf_Die) :
    (push_dies f p ds).length = ds.length := by
  induction ds generalizing p with
  | nil => rfl
  | cons d ds ih => simp [push_dies, ih]

theorem push_attrs_length (f : valfile) (d : Dwarf_Die) (p : Nat) (it : List Dwarf_Attribute) :
    (builtin_attribute.push_attrs f d p it).length = it.length := by
  induction it generalizing p with
  | nil => rfl
  | cons a it ih => simp [builtin_attribute.push_attrs, ih]

theorem top_positions_of_push_dies (f : valfile) (ds : List Dwarf_Die) :
    top_positions (push_dies f 0 ds)
      = (List.range (push_dies f 0 ds).length).map some := by
  rw [top_positions_push_dies, push_dies_length, List.range_eq_range']

/-- C12: for an upstream of non-empty frames (with DIEs that lie in a unit, for
`unit`), each of `winfo`, `unit`, `child` and `attribute` gives, for each upstream
frame in turn, the frames it derives from that frame, and the values pushed on
the `m` frames derived from one upstream frame carry the positions `0, 1, .., m - 1`
in the order given; so the first value given for the next upstream frame carries
position 0 again. -/
theorem producers_number_from_zero {σ : Type} [op σ] (gr : dwgrep_graph)
    (fs : List valfile) (u u1 : σ) (h : emits u fs u1)
    (hd : ∀ f ∈ fs, f ≠ [] ∧ ∀ d, ((∃ p rest, f = value_die d p :: rest)
      ∨ (∃ a p rest, f = value_attr a d p :: rest)) → dwarf_diecu gr d ≠ none) :
    (emits (winfo.mk_op u gr) (fs.flatMap fun f => push_dies f 0 gr.all_dies)
        (winfo.mk_op u1 gr)
      ∧ ∀ f : valfile, top_positions (push_dies f 0 gr.all_dies)
          = (List.range (push_dies f 0 gr.all_dies).length).map some)
    ∧ (∃ t, emits (builtin_unit.unit.mk_op u gr) (fs.flatMap (builtin_unit.unit.derive gr)) t
      ∧ ∀ f, top_positions (builtin_unit.unit.derive gr f)
          = (List.range (builtin_unit.unit.derive gr f).length).map some)
    ∧ (∃ t, emits (child.mk_op u gr) (fs.flatMap child.derive) t
      ∧ ∀ f, top_positions (child.derive f)
          = (List.range (child.derive f).length).map some)
    ∧ (∃ t, emits (builtin_attribute.attribute_op.mk_op u gr)
        (fs.flatMap builtin_attribute.attribute_op.derive) t
      ∧ ∀ f, top_positions (builtin_attribute.attribute_op.derive f)
          = (List.range (builtin_attribute.attribute_op.derive f).length).map some) := by
  refine ⟨⟨winfo_emits gr fs u u1 h, fun f => top_positions_of_push_dies f _⟩, ?_, ?_, ?_⟩
  · obtain ⟨j1, h1⟩ := builtin_unit.unit_emits gr fs ([], []) u u1 (fun f hf => by
      obtain ⟨h2, h3⟩ := hd f hf
      cases f with
      | nil => exact absurd rfl h2
      | cons v rest =>
        cases v with
        | value_die d p => exact h3 d (Or.inl ⟨p, rest, rfl⟩)
        | value_attr a d p => exact h3 d (Or.inr ⟨a, p, rest, rfl⟩)
        | value_cst c q => trivial
        | value_str c q => trivial
        | value_seq c q => trivial
        | value_loclist_op c d q => trivial) h
    refine ⟨_, h1, fun f => ?_⟩
    unfold builtin_unit.unit.derive
    split
    · simp only [builtin_unit.unit.of_die]
      cases dwarf_diecu gr _
      · rfl
      · exact top_positions_of_push_dies _ _
    · simp only [builtin_unit.unit.of_die]
      cases dwarf_diecu gr _
      · rfl
      · exact top_positions_of_push_dies _ _
    · rfl
  · obtain ⟨j1, h1⟩ := child_emits gr fs (⟨0, 0, [], .nil, .nil⟩, []) u u1
      (fun f hf => (hd f hf).1) h
    refine ⟨_, h1, fun f => ?_⟩
    unfold child.derive
    split
    · exact top_positions_of_push_dies _ _
    · rfl
  · obtain ⟨j1, h1⟩ := builtin_attribute.attribute_emits gr fs (⟨0, 0, [], .nil, .nil⟩, []) u u1
      (fun f hf => (hd f hf).1) h
    refine ⟨_, h1, fun f => ?_⟩
    unfold builtin_attribute.attribute_op.derive
    split
    · rw [top_positions_push_attrs, push_attrs_length, List.range_eq_range']
    · rfl

/-- On the graph `A -> B -> C`, `unit` over two frames numbers the three DIEs of the
unit 0, 1, 2 for the first frame and 0, 1, 2 again for the second. -/
theorem producers_number_from_zero_witness :
    ∃ t, emits (builtin_unit.unit.mk_op (finite_upstream.of
        [[value_die die_C 7], [value_die die_A 9, value_str "x" 0]]) graph_abc)
      [[value_die die_A 0], [value_die die_B 1], [value_die die_C 2],
       [value_die die_A 0, value_str "x" 0], [value_die die_B 1, value_str "x" 0],
       [value_die die_C 2, value_str "x" 0]] t := by
  obtain ⟨t, h, _⟩ := (producers_number_from_zero graph_abc
    [[value_die die_C 7], [value_die die_A 9, value_str "x" 0]] _ _
    (finite_upstream_emits _ _)
    (by intro f hf
        simp only [List.mem_cons, List.mem_singleton, List.not_mem_nil, or_false] at hf
        rcases hf with rfl | rfl
        · refine ⟨by simp, fun d hd => ?_⟩
          rcases hd with ⟨p, rest, he⟩ | ⟨a, p, rest, he⟩
          · injection he with h2; injection h2 with h3; subst h3; decide
          · injection he with h2; injection h2
        · refine ⟨by simp, fun d hd => ?_⟩
          rcases hd with ⟨p, rest, he⟩ | ⟨a, p, rest, he⟩
          · injection he with h2; injection h2 with h3; subst h3; decide
          · injection he with h2; injection h2)).2.1
  exact ⟨t, h⟩

/-! ## The filter: proofs -/

theorem op_assert_done (m_pred : pred) {σ : Type} [op σ] (dg : List diagnostic) (u u1 : σ)
    (h : eventually u (.done u1)) :
    eventually (op_assert.idle m_pred dg u) (.done (op_assert.idle m_pred dg u1)) := by
  obtain ⟨N, hN⟩ := h
  refine ⟨N + 1, loop_ret (fun n hn => ?_)⟩
  simp [op_assert.body, op_assert.idle, hN n hn]

theorem op_assert_step (m_pred : pred) {σ : Type} [op σ] (dg : List diagnostic) (u u1 : σ)
    (f : valfile) (hf : ∃ o, m_pred f = .returned o) (h : eventually u (.yield f u1)) :
    ∃ dg1, ∀ out t, emits (op_assert.idle m_pred dg1 u1) out t →
      emits (op_assert.idle m_pred dg u) (op_assert.derive m_pred f ++ out) t := by
  obtain ⟨N, hN⟩ := h
  obtain ⟨o, ho⟩ := hf
  refine ⟨dg ++ o.diag, fun out t h1 => ?_⟩
  by_cases hy : o.res = .yes
  · have hd : op_assert.derive m_pred f = [o.vf] := by simp [op_assert.derive, ho, hy]
    rw [hd]
    refine emits_cons ⟨N + 1, loop_ret (fun n hn => ?_)⟩ h1
    simp [op_assert.body, op_assert.idle, hN n hn, ho, hy]
  · have hd : op_assert.derive m_pred f = [] := by simp [op_assert.derive, ho, hy]
    rw [hd]
    refine emits_forward ?_ h1
    rintro r ⟨M, hM⟩
    refine ⟨max N M + 1, loop_again (fun n hn => ?_) hM⟩
    simp [op_assert.body, op_assert.idle, hN n hn, ho, hy]

theorem op_assert_emits (m_pred : pred) {σ : Type} [op σ] (fs : List valfile) (u u1 : σ)
    (hok : ∀ f ∈ fs, ∃ o, m_pred f = .returned o) (h : emits u fs u1) :
    ∃ dg1, emits (op_assert.mk_op m_pred u) (fs.flatMap (op_assert.derive m_pred))
      (op_assert.idle m_pred dg1 u1) :=
  fan_out_emits (op_assert.idle m_pred) (op_assert.derive m_pred)
    (fun f => ∃ o, m_pred f = .returned o) (op_assert_done m_pred) (op_assert_step m_pred)
    fs [] u u1 hok h

/-! ## Polarity: proofs -/

theorem pred_not_res (m_a : pred) (vf : valfile) :
    (pred_not m_a vf).res = (m_a vf).res.map pred_result.not := by
  unfold pred_not
  cases m_a vf <;> rfl

theorem pred_not_flips (m_a : pred) (vf : valfile) : flips m_a (pred_not m_a) vf := by
  simp only [flips, pred_not_res]
  cases h : (m_a vf).res with
  | none => simp
  | some r => cases r <;> simp [pred_result.not]

theorem pred_not_vf (m_a : pred) (vf : valfile) (o : pred_outcome)
    (h : pred_not m_a vf = .returned o) : ∃ o1, m_a vf = .returned o1 ∧ o.vf = o1.vf := by
  unfold pred_not at h
  cases h1 : m_a vf with
  | thrown e => simp [h1] at h
  | returned o1 =>
    simp only [h1, pred_eval.returned.injEq] at h
    exact ⟨o1, rfl, by rw [← h]⟩

/-- A predicate whose answers come with the frame it was asked about keeps doing so
under either polarity. -/
theorem maybe_invert_vf (m_positive : Bool) (m_a : pred)
    (ha : ∀ vf o, m_a vf = .returned o → o.vf = vf) (vf : valfile) (o : pred_outcome)
    (h : pred_builtin.maybe_invert m_positive m_a vf = .returned o) : o.vf = vf := by
  cases m_positive with
  | true => exact ha vf o h
  | false =>
    obtain ⟨o1, h1, h2⟩ := pred_not_vf m_a vf o h
    rw [h2]
    exact ha vf o1 h1

theorem pred_on_constant_vf (ops : constant_ops) (m_const cst : constant) (vf : valfile)
    (o : pred_outcome) (h : pred_on_constant ops m_const cst vf = .returned o) : o.vf = vf := by
  unfold pred_on_constant at h
  cases hc : check_constants_comparable ops m_const cst with
  | some e => simp [hc] at h
  | none =>
    simp only [hc, pred_eval.returned.injEq] at h
    rw [← h]

theorem rootp_vf (gr : dwgrep_graph) (vf : valfile) (o : pred_outcome)
    (h : builtin_rootp.p.pred gr vf = .returned o) : o.vf = vf := by
  cases vf with
  | nil => simp [builtin_rootp.p.pred, builtin_rootp.p.result] at h
  | cons v rest =>
    cases v <;>
      simp only [builtin_rootp.p.pred, builtin_rootp.p.result, pred_eval.returned.injEq] at h <;>
      rw [← h]

theorem pred_attr_vf (ops : constant_ops) (X : Nat) (vf : valfile) (o : pred_outcome)
    (h : builtin_pred_attr.p.result ops X vf = .returned o) : o.vf = vf := by
  cases vf with
  | nil => simp [builtin_pred_attr.p.result] at h
  | cons v rest =>
    cases v with
    | value_cst c q => exact pred_on_constant_vf ops _ c _ o h
    | value_die d q =>
      simp only [builtin_pred_attr.p.result, pred_eval.returned.injEq] at h; rw [← h]
    | value_attr a d q =>
      simp only [builtin_pred_attr.p.result, pred_eval.returned.injEq] at h; rw [← h]
    | value_str c q =>
      simp only [builtin_pred_attr.p.result, pred_eval.returned.injEq] at h; rw [← h]
    | value_seq c q =>
      simp only [builtin_pred_attr.p.result, pred_eval.returned.injEq] at h; rw [← h]
    | value_loclist_op c d q =>
      simp only [builtin_pred_attr.p.result, pred_eval.returned.injEq] at h; rw [← h]

theorem pred_tag_vf (ops : constant_ops) (X : Nat) (vf : valfile) (o : pred_outcome)
    (h : builtin_pred_tag.p.result ops X vf = .returned o) : o.vf = vf := by
  cases vf with
  | nil => simp [builtin_pred_tag.p.result] at h
  | cons v rest =>
    cases v with
    | value_cst c q => exact pred_on_constant_vf ops _ c _ o h
    | value_die d q =>
      simp only [builtin_pred_tag.p.result, pred_eval.returned.injEq] at h; rw [← h]
    | value_attr a d q =>
      simp only [builtin_pred_tag.p.result, pred_eval.returned.injEq] at h; rw [← h]
    | value_str c q =>
      simp only [builtin_pred_tag.p.result, pred_eval.returned.injEq] at h; rw [← h]
    | value_seq c q =>
      simp only [builtin_pred_tag.p.result, pred_eval.returned.injEq] at h; rw [← h]
    | value_loclist_op c d q =>
      simp only [builtin_pred_tag.p.result, pred_eval.returned.injEq] at h; rw [← h]

theorem pred_form_vf (ops : constant_ops) (X : Nat) (vf : valfile) (o : pred_outcome)
    (h : builtin_pred_form.p.result ops X vf = .returned o) : o.vf = vf := by
  cases vf with
  | nil => simp [builtin_pred_form.p.result] at h
  | cons v rest =>
    cases v with
    | value_cst c q => exact pred_on_constant_vf ops _ c _ o h
    | value_die d q =>
      simp only [builtin_pred_form.p.result, pred_eval.returned.injEq] at h; rw [← h]
    | value_attr a d q =>
      simp only [builtin_pred_form.p.result, pred_eval.returned.injEq] at h; rw [← h]
    | value_str c q =>
      simp only [builtin_pred_form.p.result, pred_eval.returned.injEq] at h; rw [← h]
    | value_seq c q =>
      simp only [builtin_pred_form.p.result, pred_eval.returned.injEq] at h; rw [← h]
    | value_loclist_op c d q =>
      simp only [builtin_pred_form.p.result, pred_eval.returned.injEq] at h; rw [← h]

/-! ## The claims on predicates -/

/-- C13: `?root` answers, on a frame with a DIE `d` on top, yes if `is_root (d)` and
no otherwise; on a frame with an attribute on top, no; on a frame with a value of
any other type on top, fail.  On the graph `A -> B -> C` only `A` is a root, so
`winfo ?root` gives one frame (with `A`) and `winfo !root` two (with `B` and `C`). -/
theorem rootp_result_by_type (gr : dwgrep_graph) :
    (∀ d p rest, (builtin_rootp.p.result gr (value_die d p :: rest)).map (fun o => o.res)
        = some (if gr.is_root d = true then .yes else .no))
      ∧ (∀ a d p rest,
          (builtin_rootp.p.result gr (value_attr a d p :: rest)).map (fun o => o.res) = some .no)
      ∧ (∀ v rest, v.get_type ≠ .T_DIE → v.get_type ≠ .T_AT →
          (builtin_rootp.p.result gr (v :: rest)).map (fun o => o.res) = some .fail)
      ∧ (graph_abc.is_root die_A = true ∧ graph_abc.is_root die_B = false
          ∧ graph_abc.is_root die_C = false)
      ∧ (∃ t, emits (op_assert.mk_op (builtin_rootp.build_pred true graph_abc)
            (winfo.mk_op (finite_upstream.of [[]]) graph_abc)) [[value_die die_A 0]] t)
      ∧ (∃ t, emits (op_assert.mk_op (builtin_rootp.build_pred false graph_abc)
            (winfo.mk_op (finite_upstream.of [[]]) graph_abc))
          [[value_die die_B 1], [value_die die_C 2]] t) := by
  have h1 := winfo_emits graph_abc [[]] _ _ (finite_upstream_emits [[]] [[]])
  have hfs : ([[]] : List valfile).flatMap (fun f => push_dies f 0 graph_abc.all_dies)
      = [[value_die die_A 0], [value_die die_B 1], [value_die die_C 2]] := rfl
  rw [hfs] at h1
  have hret : ∀ b, ∀ f ∈ [[value_die die_A 0], [value_die die_B 1], [value_die die_C 2]],
      ∃ o, builtin_rootp.build_pred b graph_abc f = .returned o := by
    intro b f hf
    simp only [List.mem_cons, List.mem_singleton, List.not_mem_nil, or_false] at hf
    rcases hf with rfl | rfl | rfl <;> cases b <;> exact ⟨_, rfl⟩
  refine ⟨fun d p rest => ?_, fun a d p rest => rfl, fun v rest h2 h3 => ?_,
    ⟨by decide, by decide, by decide⟩, ?_, ?_⟩
  · simp only [builtin_rootp.p.result, Option.map_some', pred_result.of_bool]
  · cases v with
    | value_die d q => exact absurd rfl h2
    | value_attr a d q => exact absurd rfl h3
    | value_cst c q => rfl
    | value_str c q => rfl
    | value_seq c q => rfl
    | value_loclist_op c d q => rfl
  · obtain ⟨dg1, h4⟩ := op_assert_emits (builtin_rootp.build_pred true graph_abc) _ _ _
      (hret true) h1
    exact ⟨_, h4⟩
  · obtain ⟨dg1, h4⟩ := op_assert_emits (builtin_rootp.build_pred false graph_abc) _ _ _
      (hret false) h1
    exact ⟨_, h4⟩

/-- C14: for every attribute code `X` and every `operator==` that on two constants of
one domain compares the magnitudes, `?AT_X` answers: on a DIE, yes if the DIE has an
attribute with code `X` and no otherwise; on an attribute `a`, yes if the name code
of `a` is `X` and no otherwise, and that is so exactly when the constant that `label`
pushes for `a` equals the constant `X` of `dw_attr_dom`; on a constant of a
comparable domain, yes if the constant `X` of `dw_attr_dom` equals it and no
otherwise; on a value of any other type, fail. -/
theorem pred_attr_result_by_type (ops : constant_ops) (X : Nat)
    (heq : ∀ (dom : constant_dom) (v w : Int), ops.eq ⟨v, dom⟩ ⟨w, dom⟩ = true ↔ v = w) :
    (∀ d p rest, (builtin_pred_attr.p.result ops X (value_die d p :: rest)).res
        = some (if ∃ a ∈ d.attrs, a.code = X then .yes else .no))
      ∧ (∀ a d p rest, (builtin_pred_attr.p.result ops X (value_attr a d p :: rest)).res
          = some (if a.code = X then .yes else .no))
      ∧ (∀ gr a d rest,
          builtin_label.op.operate_attr gr rest a d
            = .returned true (value_cst ⟨a.code, dw_attr_dom⟩ 0 :: rest)
          ∧ (a.code = X ↔ ops.eq ⟨X, dw_attr_dom⟩ ⟨a.code, dw_attr_dom⟩ = true))
      ∧ (∀ c p rest, ops.comparable dw_attr_dom c.dom = true →
          (builtin_pred_attr.p.result ops X (value_cst c p :: rest)).res
            = some (if ops.eq ⟨X, dw_attr_dom⟩ c = true then .yes else .no))
      ∧ (∀ v rest, v.get_type ≠ .T_DIE → v.get_type ≠ .T_AT → v.get_type ≠ .T_CONST →
          (builtin_pred_attr.p.result ops X (v :: rest)).res = some .fail) := by
  refine ⟨fun d p rest => ?_, fun a d p rest => ?_, fun gr a d rest => ⟨rfl, ?_⟩,
    fun c p rest hc => ?_, fun v rest h1 h2 h3 => ?_⟩
  · simp only [builtin_pred_attr.p.result, pred_eval.res, pred_result.of_bool, dwarf_hasattr,
      dwarf_attr, Option.some.injEq]
    by_cases h : ∃ a ∈ d.attrs, a.code = X
    · have : (d.attrs.find? fun a => a.code == X).isSome = true := by
        rw [List.find?_isSome]
        obtain ⟨a, ha, hx⟩ := h
        exact ⟨a, ha, by simp [hx]⟩
      simp [h, this]
    · have : (d.attrs.find? fun a => a.code == X).isSome = false := by
        rw [Bool.eq_false_iff, Ne, List.find?_isSome]
        rintro ⟨a, ha, hx⟩
        exact h ⟨a, ha, by simpa using hx⟩
      simp [h, this]
  · simp only [builtin_pred_attr.p.result, pred_eval.res, pred_result.of_bool, dwarf_whatattr]
    by_cases h : a.code = X <;> simp [h]
  · rw [heq]
    constructor
    · intro h; rw [h]
    · intro h; exact (Nat.cast_inj.1 h).symm
  · simp only [builtin_pred_attr.p.result, pred_on_constant, check_constants_comparable, hc,
      if_true, pred_eval.res, pred_result.of_bool]
  · cases v with
    | value_die d q => exact absurd rfl h1
    | value_attr a d q => exact absurd rfl h2
    | value_cst c q => exact absurd rfl h3
    | value_str c q => rfl
    | value_seq c q => rfl
    | value_loclist_op c d q => rfl

/-- With magnitudes compared, `?AT_name` says yes on `B`, which has a name, no on `A`,
yes on the name attribute itself and on the constant `DW_AT_name`. -/
theorem pred_attr_result_by_type_witness :
    (builtin_pred_attr.p.result constant_ops.by_value 0x03 [value_die die_B 1]).res = some .yes
      ∧ (builtin_pred_attr.p.result constant_ops.by_value 0x03 [value_die die_A 0]).res
        = some .no
      ∧ (builtin_pred_attr.p.result constant_ops.by_value 0x03
          [value_attr ⟨0x03, 0x08, 102⟩ die_B 0]).res = some .yes
      ∧ (builtin_pred_attr.p.result constant_ops.by_value 0x03
          [value_cst ⟨0x03, dw_attr_dom⟩ 0]).res = some .yes := by
  have h := pred_attr_result_by_type constant_ops.by_value 0x03
    (by intro dom v w; simp [constant_ops.by_value])
  refine ⟨?_, ?_, ?_, ?_⟩
  · rw [h.1]; decide
  · rw [h.1]; decide
  · rw [h.2.1]; decide
  · rw [h.2.2.2.1 _ _ _ (by decide)]; decide

/-- C15: for every tag code `X`, `?TAG_X` answers: on a DIE, yes if the tag of the DIE
is `X` and no otherwise; on a constant of a comparable domain, yes if the constant
`X` of `dw_tag_dom` equals it and no otherwise; on a value of any other type, an
attribute included, fail.  On the graph `A -> B -> C` `?TAG_subprogram` says yes for
`B` only, and `winfo ?TAG_subprogram` gives one frame, with `B` on top. -/
theorem pred_tag_result_by_type (ops : constant_ops) (X : Nat) :
    (∀ d p rest, (builtin_pred_tag.p.result ops X (value_die d p :: rest)).res
        = some (if d.tag = X then .yes else .no))
      ∧ (∀ c p rest, ops.comparable dw_tag_dom c.dom = true →
          (builtin_pred_tag.p.result ops X (value_cst c p :: rest)).res
            = some (if ops.eq ⟨X, dw_tag_dom⟩ c = true then .yes else .no))
      ∧ (∀ v rest, v.get_type ≠ .T_DIE → v.get_type ≠ .T_CONST →
          (builtin_pred_tag.p.result ops X (v :: rest)).res = some .fail)
      ∧ (∀ a d p rest,
          (builtin_pred_tag.p.result ops X (value_attr a d p :: rest)).res = some .fail)
      ∧ ((builtin_pred_tag.p.result ops 0x2e [value_die die_A 0]).res = some .no
          ∧ (builtin_pred_tag.p.result ops 0x2e [value_die die_B 1]).res = some .yes
          ∧ (builtin_pred_tag.p.result ops 0x2e [value_die die_C 2]).res = some .no)
      ∧ (∃ t, emits (op_assert.mk_op (builtin_pred_tag.build_pred ops 0x2e true)
            (winfo.mk_op (finite_upstream.of [[]]) graph_abc)) [[value_die die_B 1]] t) := by
  refine ⟨fun d p rest => ?_, fun c p rest hc => ?_, fun v rest h1 h2 => ?_,
    fun a d p rest => rfl, ⟨rfl, rfl, rfl⟩, ?_⟩
  · simp only [builtin_pred_tag.p.result, pred_eval.res, pred_result.of_bool, dwarf_tag]
    by_cases h : d.tag = X <;> simp [h]
  · simp only [builtin_pred_tag.p.result, pred_on_constant, check_constants_comparable, hc,
      if_true, pred_eval.res, pred_result.of_bool]
  · cases v with
    | value_die d q => exact absurd rfl h1
    | value_cst c q => exact absurd rfl h2
    | value_attr a d q => rfl
    | value_str c q => rfl
    | value_seq c q => rfl
    | value_loclist_op c d q => rfl
  · have h1 := winfo_emits graph_abc [[]] _ _ (finite_upstream_emits [[]] [[]])
    have hfs : ([[]] : List valfile).flatMap (fun f => push_dies f 0 graph_abc.all_dies)
        = [[value_die die_A 0], [value_die die_B 1], [value_die die_C 2]] := rfl
    rw [hfs] at h1
    obtain ⟨dg1, h4⟩ := op_assert_emits (builtin_pred_tag.build_pred ops 0x2e true) _ _ _
      (by intro f hf
          simp only [List.mem_cons, List.mem_singleton, List.not_mem_nil, or_false] at hf
          rcases hf with rfl | rfl | rfl <;> exact ⟨_, rfl⟩) h1
    exact ⟨_, h4⟩

/-- C16: `maybe_invert` with positive polarity gives back the predicate it was given,
and with negative polarity a predicate that answers yes where the given one answers
no, no where it answers yes, and fail where it answers fail; so does each of `?root`,
`?AT_X`, `?TAG_X` and `?FORM_X` built with negative polarity, on every frame, against
the same predicate built with positive polarity. -/
theorem negative_polarity_flips_answer (ops : constant_ops) (gr : dwgrep_graph) (X : Nat)
    (vf : valfile) :
    (∀ m_a : pred, pred_builtin.maybe_invert true m_a = m_a
        ∧ flips m_a (pred_builtin.maybe_invert false m_a) vf)
      ∧ flips (builtin_rootp.build_pred true gr) (builtin_rootp.build_pred false gr) vf
      ∧ flips (builtin_pred_attr.build_pred ops X true)
          (builtin_pred_attr.build_pred ops X false) vf
      ∧ flips (builtin_pred_tag.build_pred ops X true)
          (builtin_pred_tag.build_pred ops X false) vf
      ∧ flips (builtin_pred_form.build_pred ops X true)
          (builtin_pred_form.build_pred ops X false) vf :=
  ⟨fun m_a => ⟨rfl, pred_not_flips m_a vf⟩, pred_not_flips _ vf, pred_not_flips _ vf,
    pred_not_flips _ vf, pred_not_flips _ vf⟩

/-- C17: whenever `?root`, `?AT_X`, `?TAG_X` or `?FORM_X`, of either polarity, returns
an answer (yes, no or fail) for a frame, it leaves the frame as it was: the same
values in the same order. -/
theorem predicates_leave_frame_unchanged (ops : constant_ops) (gr : dwgrep_graph) (X : Nat)
    (m_positive : Bool) (vf : valfile) (o : pred_outcome) :
    (builtin_rootp.build_pred m_positive gr vf = .returned o → o.vf = vf)
      ∧ (builtin_pred_attr.build_pred ops X m_positive vf = .returned o → o.vf = vf)
      ∧ (builtin_pred_tag.build_pred ops X m_positive vf = .returned o → o.vf = vf)
      ∧ (builtin_pred_form.build_pred ops X m_positive vf = .returned o → o.vf = vf) :=
  ⟨maybe_invert_vf m_positive _ (rootp_vf gr) vf o,
    maybe_invert_vf m_positive _ (pred_attr_vf ops X) vf o,
    maybe_invert_vf m_positive _ (pred_tag_vf ops X) vf o,
    maybe_invert_vf m_positive _ (pred_form_vf ops X) vf o⟩

/-! ## Diagnostics of the dwop_f family: proofs -/

theorem dwop_f_after_diag (vt : dwop_f_vtable) (gr : dwgrep_graph) {σ : Type} [op σ]
    (dg : List diagnostic) (u u1 : σ) (f : valfile) (r : operated) (N : Nat)
    (hr : r ≠ .thrown)
    (hb : ∀ n, N ≤ n → dwop_f.body n (dwop_f.idle vt gr dg u)
      = dwop_f.after (dwop_f.idle vt gr dg u) u1 r)
    (hd : dwop_f.derive vt gr f = r.frames) (out : List valfile) (t : dwop_f vt σ)
    (h1 : emits (dwop_f.idle vt gr dg u1) out t) :
    emits (dwop_f.idle vt gr dg u) (dwop_f.derive vt gr f ++ out) t := by
  rw [hd]
  cases r with
  | thrown => exact absurd rfl hr
  | returned b vf =>
    cases b with
    | true => exact emits_cons ⟨N + 1, loop_ret hb⟩ h1
    | false =>
      refine emits_forward ?_ h1
      rintro r ⟨M, hM⟩
      exact ⟨max N M + 1, loop_again hb hM⟩

theorem dwop_f_step_diag (vt : dwop_f_vtable) (gr : dwgrep_graph) {σ : Type} [op σ]
    (dg : List diagnostic) (u u1 : σ) (f : valfile) (hf : dwop_f.ok vt gr f)
    (h : eventually u (.yield f u1)) (out : List valfile) (t : dwop_f vt σ)
    (h1 : emits (dwop_f.idle vt gr (dg ++ dwop_f.complaint vt f) u1) out t) :
    emits (dwop_f.idle vt gr dg u) (dwop_f.derive vt gr f ++ out) t := by
  obtain ⟨N, hN⟩ := h
  obtain ⟨hf1, hf2⟩ := hf
  cases f with
  | nil => exact absurd rfl hf1
  | cons v rest =>
    have skip : (∀ n, N ≤ n → dwop_f.body n (dwop_f.idle vt gr dg u)
          = .again (dwop_f.idle vt gr
              (dg ++ [show_expects vt.name [.T_DIE, .T_AT, .T_LOCLIST_OP]]) u1)) →
        dwop_f.derive vt gr (v :: rest) = [] →
        emits (dwop_f.idle vt gr
          (dg ++ [show_expects vt.name [.T_DIE, .T_AT, .T_LOCLIST_OP]]) u1) out t →
        emits (dwop_f.idle vt gr dg u) (dwop_f.derive vt gr (v :: rest) ++ out) t := by
      intro hb hd h2
      rw [hd]
      refine emits_forward ?_ h2
      rintro r ⟨M, hM⟩
      exact ⟨max N M + 1, loop_again hb hM⟩
    cases v with
    | value_die d q =>
      simp only [dwop_f.complaint, List.append_nil] at h1
      exact dwop_f_after_diag vt gr dg u u1 (value_die d q :: rest) (vt.operate_die gr rest d) N
        (fun h => hf2 (by simp [dwop_f.dispatch, h]))
        (fun n hn => by simp [dwop_f.body, dwop_f.idle, hN n hn, valfile.pop]) rfl out t h1
    | value_attr a d q =>
      simp only [dwop_f.complaint, List.append_nil] at h1
      exact dwop_f_after_diag vt gr dg u u1 (value_attr a d q :: rest) (vt.operate_attr gr rest a d) N
        (fun h => hf2 (by simp [dwop_f.dispatch, h]))
        (fun n hn => by simp [dwop_f.body, dwop_f.idle, hN n hn, valfile.pop]) rfl out t h1
    | value_loclist_op o a q =>
      simp only [dwop_f.complaint, List.append_nil] at h1
      exact dwop_f_after_diag vt gr dg u u1 (value_loclist_op o a q :: rest)
        (vt.operate_dwop gr rest o a) N
        (fun h => hf2 (by simp [dwop_f.dispatch, h]))
        (fun n hn => by simp [dwop_f.body, dwop_f.idle, hN n hn, valfile.pop]) rfl out t h1
    | value_cst c q =>
      exact skip (fun n hn => by simp [dwop_f.body, dwop_f.idle, hN n hn, valfile.pop]) rfl h1
    | value_str c q =>
      exact skip (fun n hn => by simp [dwop_f.body, dwop_f.idle, hN n hn, valfile.pop]) rfl h1
    | value_seq c q =>
      exact skip (fun n hn => by simp [dwop_f.body, dwop_f.idle, hN n hn, valfile.pop]) rfl h1

/-- A `dwop_f` gives the frames `operate` leaves and writes one diagnostic for each
upstream frame whose top is of none of the three types. -/
theorem dwop_f_emits_diag (vt : dwop_f_vtable) (gr : dwgrep_graph) {σ : Type} [op σ]
    (fs : List valfile) (dg : List diagnostic) (u u1 : σ)
    (hok : ∀ f ∈ fs, dwop_f.ok vt gr f) (h : emits u fs u1) :
    emits (dwop_f.idle vt gr dg u) (fs.flatMap (dwop_f.derive vt gr))
      (dwop_f.idle vt gr (dg ++ fs.flatMap (dwop_f.complaint vt)) u1) := by
  induction fs generalizing dg u with
  | nil =>
    simp only [List.flatMap_nil, List.append_nil]
    exact dwop_f_done vt gr dg u u1 h
  | cons f fs ih =>
    obtain ⟨u2, h2, h3⟩ := h
    have h4 := ih (dg ++ dwop_f.complaint vt f) u2
      (fun g hg => hok g (List.mem_cons_of_mem _ hg)) h3
    rw [List.flatMap_cons, List.flatMap_cons, ← List.append_assoc]
    exact dwop_f_step_diag vt gr dg u u2 f (hok f (List.mem_cons_self _ _)) h2 _ _ h4

/-! ## The claims on errors -/

/-- C18: every operator built on `dwop_f` (`offset`, `label`, `form`, `parent`,
`integrate`, `attr_named`), over an upstream of non-empty frames on which `operate`
does not throw, writes for each upstream frame whose top is neither a DIE, an
attribute nor a `LoclistOp` one diagnostic with its own name and the three accepted
types, in the order of the frames, and no other diagnostic; it gives no frame for
such an upstream frame and goes on with the upstream frames after it.  A frame
whose top is of one of the three types but for which the operator has only the
`operate` of `dwop_f` (such as a DIE for `form`) gives no frame and no diagnostic. -/
theorem dwop_f_next_reports_other_types (vt : dwop_f_vtable) {σ : Type} [op σ]
    (gr : dwgrep_graph) (fs : List valfile) (u u1 : σ) (h : emits u fs u1)
    (hok : ∀ f ∈ fs, dwop_f.ok vt gr f) :
    (∃ t : dwop_f vt σ, t.m_upstream = u1
        ∧ t.diag = fs.flatMap (fun f => match f with
            | [] => []
            | value_die _ _ :: _ => []
            | value_attr _ _ _ :: _ => []
            | value_loclist_op _ _ _ :: _ => []
            | _ :: _ => [show_expects vt.name [.T_DIE, .T_AT, .T_LOCLIST_OP]])
        ∧ emits (dwop_f.mk_op vt u gr) (fs.flatMap (dwop_f.derive vt gr)) t)
      ∧ (∀ v rest, v.get_type ≠ .T_DIE → v.get_type ≠ .T_AT → v.get_type ≠ .T_LOCLIST_OP →
          dwop_f.derive vt gr (v :: rest) = [])
      ∧ (∀ d p rest, vt.operate_die = dwop_f.operate_die →
          dwop_f.derive vt gr (value_die d p :: rest) = [])
      ∧ (∀ a d p rest, vt.operate_attr = dwop_f.operate_attr →
          dwop_f.derive vt gr (value_attr a d p :: rest) = [])
      ∧ (∀ o a p rest, vt.operate_dwop = dwop_f.operate_dwop →
          dwop_f.derive vt gr (value_loclist_op o a p :: rest) = [])
      ∧ (builtin_offset.offset.name = "offset" ∧ builtin_label.op.name = "label"
          ∧ builtin_form.form.name = "form" ∧ builtin_parent.parent.name = "parent"
          ∧ builtin_integrate.integrate.name = "integrate"
          ∧ builtin_form.form.operate_die = dwop_f.operate_die) := by
  refine ⟨⟨_, rfl, ?_, dwop_f_emits_diag vt gr fs [] u u1 hok h⟩, fun v rest h1 h2 h3 => ?_,
    fun d p rest h1 => ?_, fun a d p rest h1 => ?_, fun o a p rest h1 => ?_,
    ⟨rfl, rfl, rfl, rfl, rfl, rfl⟩⟩
  · simp only [dwop_f.idle, List.nil_append]
    congr 1
  · cases v with
    | value_die d q => exact absurd rfl h1
    | value_attr a d q => exact absurd rfl h2
    | value_loclist_op c d q => exact absurd rfl h3
    | value_cst c q => rfl
    | value_str c q => rfl
    | value_seq c q => rfl
  · simp [dwop_f.derive, dwop_f.dispatch, h1, dwop_f.operate_die, operated.frames]
  · simp [dwop_f.derive, dwop_f.dispatch, h1, dwop_f.operate_attr, operated.frames]
  · simp [dwop_f.derive, dwop_f.dispatch, h1, dwop_f.operate_dwop, operated.frames]

/-- The operator `form` over a constant, a DIE and an attribute: one diagnostic (for the
constant), one frame (for the attribute). -/
theorem dwop_f_next_reports_other_types_witness :
    ∃ t : dwop_f builtin_form.form finite_upstream,
      t.diag = [show_expects "form" [.T_DIE, .T_AT, .T_LOCLIST_OP]]
      ∧ emits (builtin_form.build_exec (finite_upstream.of
          [[value_cst ⟨5, dec_constant_dom⟩ 0], [value_die die_B 1],
           [value_attr ⟨0x03, 0x08, 102⟩ die_B 0]]) graph_abc)
        [[value_cst ⟨0x08, dw_form_dom⟩ 0]] t := by
  obtain ⟨t, _, h1, h2⟩ := (dwop_f_next_reports_other_types builtin_form.form graph_abc
    [[value_cst ⟨5, dec_constant_dom⟩ 0], [value_die die_B 1],
     [value_attr ⟨0x03, 0x08, 102⟩ die_B 0]] _ _ (finite_upstream_emits _ _)
    (by intro f hf
        simp only [List.mem_cons, List.mem_singleton, List.not_mem_nil, or_false] at hf
        rcases hf with rfl | rfl | rfl <;>
          exact ⟨by simp, by simp [dwop_f.dispatch, builtin_form.form, dwop_f.operate_die,
            builtin_form.form.operate_attr]⟩)).1
  exact ⟨t, h1, h2⟩

/-- C19 (the behaviour of the code): `@number` and `@number2`, handed a frame whose
top is not a `LoclistOp` (here a constant, or a DIE), give no frame for it and go
on with the next upstream frame, but write no diagnostic: `op_loclist_op::next`
tests the type with an `if` that has no `else`, where `unit`, `child`, `attribute`
and `dwop_f` call `show_expects`. -/
theorem op_loclist_op_next_drops_silently (F : cb_t) (Name : String) (gr : dwgrep_graph)
    (c : constant) (d : Dwarf_Die) (pos : Nat) (rest : valfile) :
    emits (loclist_op_builtin.build_exec F Name
        (finite_upstream.of [value_cst c pos :: rest]) gr) []
        { m_upstream := ⟨[], [value_cst c pos :: rest]⟩, m_gr := gr, m_name := Name,
          m_vp := none, m_vf := none, diag := [] }
      ∧ emits (loclist_op_builtin.build_exec F Name
        (finite_upstream.of [value_die d pos :: rest]) gr) []
        { m_upstream := ⟨[], [value_die d pos :: rest]⟩, m_gr := gr, m_name := Name,
          m_vp := none, m_vf := none, diag := [] }
      ∧ (∃ t : builtin_child.child finite_upstream,
          t.diag = [show_expects "child" [.T_DIE]]
          ∧ emits (child.mk_op (finite_upstream.of [value_cst c pos :: rest]) gr) [] t) := by
  refine ⟨⟨2, fun n hn => ?_⟩, ⟨2, fun n hn => ?_⟩,
    ⟨child.idle gr (⟨0, 0, [], .nil, .nil⟩, [show_expects "child" [.T_DIE]])
      ⟨[], [value_cst c pos :: rest]⟩, rfl, ⟨2, fun n hn => ?_⟩⟩⟩
  · obtain ⟨m, rfl⟩ : ∃ m, n = m + 2 := ⟨n - 2, by omega⟩
    rfl
  · obtain ⟨m, rfl⟩ : ∃ m, n = m + 2 := ⟨n - 2, by omega⟩
    rfl
  · obtain ⟨m, rfl⟩ : ∃ m, n = m + 2 := ⟨n - 2, by omega⟩
    rfl

/-- C20: when the domain of a constant on top of the frame is not declared comparable
with the domain of the predicate's own constant (`dw_attr_dom` for `?AT_X`,
`dw_tag_dom` for `?TAG_X`, `dw_form_dom` for `?FORM_X`), the predicate throws the
incomparable-constants error and answers neither yes, no nor fail, whatever
`operator==` would say of the two constants. -/
theorem incomparable_constant_is_fatal (ops : constant_ops) (X : Nat) (c : constant)
    (pos : Nat) (rest : valfile) :
    (ops.comparable dw_attr_dom c.dom = false →
        builtin_pred_attr.p.result ops X (value_cst c pos :: rest)
            = .thrown (.incomparable ⟨X, dw_attr_dom⟩ c)
          ∧ (builtin_pred_attr.p.result ops X (value_cst c pos :: rest)).res = none)
      ∧ (ops.comparable dw_tag_dom c.dom = false →
        builtin_pred_tag.p.result ops X (value_cst c pos :: rest)
            = .thrown (.incomparable ⟨X, dw_tag_dom⟩ c)
          ∧ (builtin_pred_tag.p.result ops X (value_cst c pos :: rest)).res = none)
      ∧ (ops.comparable dw_form_dom c.dom = false →
        builtin_pred_form.p.result ops X (value_cst c pos :: rest)
            = .thrown (.incomparable ⟨X, dw_form_dom⟩ c)
          ∧ (builtin_pred_form.p.result ops X (value_cst c pos :: rest)).res = none) := by
  refine ⟨fun h => ?_, fun h => ?_, fun h => ?_⟩
  · simp [builtin_pred_attr.p.result, pred_on_constant, check_constants_comparable, h,
      pred_eval.res]
  · simp [builtin_pred_tag.p.result, pred_on_constant, check_constants_comparable, h,
      pred_eval.res]
  · simp [builtin_pred_form.p.result, pred_on_constant, check_constants_comparable, h,
      pred_eval.res]

/-- With magnitudes compared and only like or plain domains comparable, `?AT_name`
throws on the constant `DW_TAG_subprogram`. -/
theorem incomparable_constant_is_fatal_witness :
    builtin_pred_attr.p.result constant_ops.by_value 0x03 [value_cst ⟨0x2e, dw_tag_dom⟩ 0]
      = .thrown (.incomparable ⟨0x03, dw_attr_dom⟩ ⟨0x2e, dw_tag_dom⟩) :=
  ((incomparable_constant_is_fatal constant_ops.by_value 0x03 ⟨0x2e, dw_tag_dom⟩ 0 []).1
    (by decide)).1

/-! ## Sequences: proofs -/

/-- Induction over values: the classes other than `value_seq`, and a sequence whose
elements have the property. -/
theorem value.induct_seq (P : value → Prop)
    (hleaf : ∀ v, v.get_type ≠ .T_SEQ → P v)
    (hseq : ∀ seq pos, (∀ x ∈ seq, P x) → P (value_seq seq pos)) : ∀ v, P v := by
  have key : ∀ n, ∀ v : value, sizeOf v ≤ n → P v := by
    intro n
    induction n with
    | zero =>
      intro v hv
      cases v <;> simp at hv
    | succ n ih =>
      intro v hv
      cases v with
      | value_seq seq pos =>
        apply hseq
        intro x hx
        have := List.sizeOf_lt_of_mem hx
        simp at hv
        exact ih x (by omega)
      | value_cst c p => exact hleaf _ (by simp [value.get_type])
      | value_str c p => exact hleaf _ (by simp [value.get_type])
      | value_die c p => exact hleaf _ (by simp [value.get_type])
      | value_attr a c p => exact hleaf _ (by simp [value.get_type])
      | value_loclist_op a c p => exact hleaf _ (by simp [value.get_type])
  exact fun v => key _ v (le_refl _)

theorem cmp_scan_eq (E : value_ops) (sa sb : List value) :
    value.cmp_scan E sa sb = compare_sequences (value.cmp E) sa sb := by
  induction sa generalizing sb with
  | nil => simp [value.cmp_scan, compare_sequences]
  | cons a sa ih =>
    cases sb with
    | nil => simp [value.cmp_scan, compare_sequences]
    | cons b sb => simp only [value.cmp_scan, compare_sequences, ih]

theorem clone_seq_eq_map (E : value_ops) (seq : List value) :
    clone_seq E seq = seq.map (value.clone E) := by
  induction seq with
  | nil => simp [clone_seq]
  | cons v seq ih => simp [clone_seq, ih]

/-- The three stages of `value_seq::cmp`. -/
theorem value.cmp_seq_seq (E : value_ops) (sa sb : List value) (p q : Nat) :
    value.cmp E (value_seq sa p) (value_seq sb q)
      = cmp_then (some (compare sa.length sb.length))
          (cmp_then (compare_sequences E.compare_types sa sb)
            (compare_sequences (value.cmp E) sa sb)) := by
  rw [value.cmp, cmp_scan_eq]
  cases compare sa.length sb.length <;> simp only [cmp_then]

theorem value.cmp_seq_other (E : value_ops) (sa : List value) (p : Nat) (b : value)
    (hb : b.get_type ≠ .T_SEQ) : value.cmp E (value_seq sa p) b = some .fail := by
  cases b <;> first | rfl | exact absurd rfl hb

theorem value.cmp_other (E : value_ops) (a b : value) (ha : a.get_type ≠ .T_SEQ) :
    value.cmp E a b = some (E.cmp a b) := by
  cases a <;> first | exact absurd rfl ha | (cases b <;> rfl)

theorem value.clone_other (E : value_ops) (a : value) (ha : a.get_type ≠ .T_SEQ) :
    value.clone E a = E.clone a := by
  cases a <;> first | exact absurd rfl ha | rfl

theorem value.clone_seq_eq (E : value_ops) (seq : List value) (pos : Nat) :
    value.clone E (value_seq seq pos) = value_seq (seq.map (value.clone E)) pos := by
  rw [value.clone, clone_seq_eq_map]

theorem eq_seq_of_type {v : value} (h : v.get_type = .T_SEQ) : ∃ seq pos, v = value_seq seq pos := by
  cases v <;> first | exact ⟨_, _, rfl⟩ | exact absurd h (by simp [value.get_type])

theorem cmp_then_less (r1 r2 : Option cmp_result) :
    cmp_then r1 r2 = some .less ↔ r1 = some .less ∨ (r1 = some .equal ∧ r2 = some .less) := by
  rcases r1 with _ | r <;> [skip; cases r] <;> simp [cmp_then]

theorem cmp_then_equal (r1 r2 : Option cmp_result) :
    cmp_then r1 r2 = some .equal ↔ r1 = some .equal ∧ r2 = some .equal := by
  rcases r1 with _ | r <;> [skip; cases r] <;> simp [cmp_then]

theorem cmp_then_greater (r1 r2 : Option cmp_result) :
    cmp_then r1 r2 = some .greater
      ↔ r1 = some .greater ∨ (r1 = some .equal ∧ r2 = some .greater) := by
  rcases r1 with _ | r <;> [skip; cases r] <;> simp [cmp_then]

theorem cmp_then_ok {r1 r2 : Option cmp_result} (h1 : cmp_ok r1)
    (h2 : r1 = some .equal → cmp_ok r2) : cmp_ok (cmp_then r1 r2) := by
  obtain ⟨x, rfl, hx⟩ := h1
  cases x
  · exact ⟨_, rfl, by simp⟩
  · exact h2 rfl
  · exact ⟨_, rfl, by simp⟩
  · exact absurd rfl hx

theorem cmp_then_mirror {r1 r2 s1 s2 : Option cmp_result} (h1 : cmp_mirror r1 s1)
    (h2 : r1 = some .equal → cmp_mirror r2 s2) : cmp_mirror (cmp_then r1 r2) (cmp_then s1 s2) := by
  unfold cmp_mirror at *
  simp only [cmp_then_less, cmp_then_equal, cmp_then_greater]
  tauto

theorem cmp_then_chain {rab rbc rac sab sbc sac : Option cmp_result}
    (h1 : cmp_chain rab rbc rac)
    (h2 : rab = some .equal → rbc = some .equal → cmp_chain sab sbc sac) :
    cmp_chain (cmp_then rab sab) (cmp_then rbc sbc) (cmp_then rac sac) := by
  obtain ⟨c1, c2, c3, c4⟩ := h1
  unfold cmp_chain
  simp only [cmp_then_less, cmp_then_equal]
  refine ⟨?_, ?_, ?_, ?_⟩
  · rintro (ha | ⟨ha, sa⟩) (hb | ⟨hb, sb⟩)
    · exact .inl (c1 ha hb)
    · exact .inl (c2 ha hb)
    · exact .inl (c3 ha hb)
    · exact .inr ⟨c4 ha hb, (h2 ha hb).1 sa sb⟩
  · rintro (ha | ⟨ha, sa⟩) ⟨hb, sb⟩
    · exact .inl (c2 ha hb)
    · exact .inr ⟨c4 ha hb, (h2 ha hb).2.1 sa sb⟩
  · rintro ⟨ha, sa⟩ (hb | ⟨hb, sb⟩)
    · exact .inl (c3 ha hb)
    · exact .inr ⟨c4 ha hb, (h2 ha hb).2.2.1 sa sb⟩
  · rintro ⟨ha, sa⟩ ⟨hb, sb⟩
    exact ⟨c4 ha hb, (h2 ha hb).2.2.2 sa sb⟩

theorem compare_less (a b : Nat) : compare a b = .less ↔ a < b := by
  unfold compare; split_ifs <;> simp <;> omega

theorem compare_equal (a b : Nat) : compare a b = .equal ↔ a = b := by
  unfold compare; split_ifs <;> simp <;> omega

theorem compare_greater (a b : Nat) : compare a b = .greater ↔ b < a := by
  unfold compare; split_ifs <;> simp <;> omega

theorem compare_ne_fail (a b : Nat) : compare a b ≠ .fail := by
  unfold compare; split_ifs <;> simp

theorem compare_ok (a b : Nat) : cmp_ok (some (compare a b)) :=
  ⟨_, rfl, compare_ne_fail a b⟩

theorem compare_mirror (a b : Nat) : cmp_mirror (some (compare a b)) (some (compare b a)) := by
  simp only [cmp_mirror, Option.some.injEq, compare_less, compare_equal, compare_greater]
  exact ⟨trivial, eq_comm, trivial⟩

theorem compare_chain (a b c : Nat) :
    cmp_chain (some (compare a b)) (some (compare b c)) (some (compare a c)) := by
  simp only [cmp_chain, Option.some.injEq, compare_less, compare_equal]
  refine ⟨?_, ?_, ?_, ?_⟩ <;> intros <;> omega

theorem cmp_ok_of_mirror {rab rba : Option cmp_result} (h : cmp_ok rab)
    (hm : cmp_mirror rab rba) : cmp_ok rba := by
  obtain ⟨x, rfl, hx⟩ := h
  cases x
  · exact ⟨_, hm.1.1 rfl, by simp⟩
  · exact ⟨_, hm.2.1.1 rfl, by simp⟩
  · exact ⟨_, hm.2.2.1 rfl, by simp⟩
  · exact absurd rfl hx

theorem compare_sequences_nil_left (c : value → value → Option cmp_result) (sb : List value) :
    compare_sequences c [] sb = some .equal := by
  cases sb <;> rfl

theorem compare_sequences_cons {c : value → value → Option cmp_result} {a b : value}
    (h : cmp_ok (c a b)) (sa sb : List value) :
    compare_sequences c (a :: sa) (b :: sb) = cmp_then (c a b) (compare_sequences c sa sb) := by
  obtain ⟨x, hx, hf⟩ := h
  rw [compare_sequences, hx]
  cases x <;> first | rfl | exact absurd rfl hf

/-- A scan over two lists of one length returns when the callable returns, without
`fail`, on the pairs it can meet. -/
theorem compare_sequences_ok {c : value → value → Option cmp_result} {T : value → value → Prop}
    {sa sb : List value} (hT : List.Forall₂ T sa sb)
    (h : ∀ a ∈ sa, ∀ b ∈ sb, T a b → cmp_ok (c a b)) : cmp_ok (compare_sequences c sa sb) := by
  induction hT with
  | nil => exact ⟨_, rfl, by simp⟩
  | @cons a b sa sb hab _ ih =>
    have hh := h a (List.mem_cons_self _ _) b (List.mem_cons_self _ _) hab
    rw [compare_sequences_cons hh]
    exact cmp_then_ok hh fun _ => ih fun x hx y hy =>
      h x (List.mem_cons_of_mem _ hx) y (List.mem_cons_of_mem _ hy)

theorem compare_sequences_mirror {c : value → value → Option cmp_result}
    {T : value → value → Prop} {sa sb : List value} (hT : List.Forall₂ T sa sb)
    (h : ∀ a ∈ sa, ∀ b ∈ sb, T a b → cmp_ok (c a b) ∧ cmp_mirror (c a b) (c b a)) :
    cmp_mirror (compare_sequences c sa sb) (compare_sequences c sb sa) := by
  induction hT with
  | nil => simp [compare_sequences, cmp_mirror]
  | @cons a b sa sb hab _ ih =>
    have hh := h a (List.mem_cons_self _ _) b (List.mem_cons_self _ _) hab
    rw [compare_sequences_cons hh.1, compare_sequences_cons (cmp_ok_of_mirror hh.1 hh.2)]
    exact cmp_then_mirror hh.2 fun _ => ih fun x hx y hy =>
      h x (List.mem_cons_of_mem _ hx) y (List.mem_cons_of_mem _ hy)

theorem compare_sequences_chain {c : value → value → Option cmp_result}
    {T : value → value → Prop} {sa sb sc : List value}
    (hT1 : List.Forall₂ T sa sb) (hT2 : List.Forall₂ T sb sc)
    (h : ∀ x ∈ sa, ∀ y ∈ sb, ∀ z ∈ sc, T x y → T y z →
      cmp_ok (c x y) ∧ cmp_ok (c y z) ∧ cmp_ok (c x z) ∧ cmp_chain (c x y) (c y z) (c x z)) :
    cmp_chain (compare_sequences c sa sb) (compare_sequences c sb sc)
      (compare_sequences c sa sc) := by
  induction hT1 generalizing sc with
  | nil =>
    cases hT2
    simp [compare_sequences, cmp_chain]
  | @cons a b sa sb hab _ ih =>
    cases hT2 with
    | @cons _ d _ sd hbd hT2 =>
      have hh := h a (List.mem_cons_self _ _) b (List.mem_cons_self _ _) d
        (List.mem_cons_self _ _) hab hbd
      rw [compare_sequences_cons hh.1, compare_sequences_cons hh.2.1,
        compare_sequences_cons hh.2.2.1]
      exact cmp_then_chain hh.2.2.2 fun _ _ => ih hT2 fun x hx y hy z hz =>
        h x (List.mem_cons_of_mem _ hx) y (List.mem_cons_of_mem _ hy) z
          (List.mem_cons_of_mem _ hz)

theorem compare_sequences_refl {c : value → value → Option cmp_result} {sa : List value}
    (h : ∀ a ∈ sa, c a a = some .equal) : compare_sequences c sa sa = some .equal := by
  induction sa with
  | nil => rfl
  | cons a sa ih =>
    have ha := h a (List.mem_cons_self _ _)
    rw [compare_sequences_cons ⟨_, ha, by simp⟩, ha]
    exact ih fun x hx => h x (List.mem_cons_of_mem _ hx)

/-- A scan over two lists of one length answers `equal` exactly when the callable
answers `equal` on every pair. -/
theorem compare_sequences_equal_iff {c : value → value → Option cmp_result}
    {sa sb : List value} (hl : sa.length = sb.length) :
    compare_sequences c sa sb = some .equal
      ↔ List.Forall₂ (fun a b => c a b = some .equal) sa sb := by
  induction sa generalizing sb with
  | nil =>
    cases sb with
    | nil => simp [compare_sequences]
    | cons b sb => simp at hl
  | cons a sa ih =>
    cases sb with
    | nil => simp at hl
    | cons b sb =>
      rw [List.forall₂_cons, ← ih (by simpa using hl), compare_sequences]
      rcases c a b with _ | r
      · simp
      · cases r <;> simp

theorem forall₂_of_length_eq {sa sb : List value} (hl : sa.length = sb.length) :
    List.Forall₂ (fun _ _ => True) sa sb := by
  induction sa generalizing sb with
  | nil =>
    cases sb with
    | nil => exact .nil
    | cons b sb => simp at hl
  | cons a sa ih =>
    cases sb with
    | nil => simp at hl
    | cons b sb => exact .cons trivial (ih (by simpa using hl))

/-- When the scan of the types answers `equal`, the two lists have the same types
position by position. -/
theorem same_types_of_scan {E : value_ops} (hinj : Function.Injective E.code)
    {sa sb : List value} (hl : compare sa.length sb.length = .equal)
    (h : compare_sequences E.compare_types sa sb = some .equal) :
    List.Forall₂ (fun a b => a.get_type = b.get_type) sa sb := by
  rw [compare_sequences_equal_iff ((compare_equal _ _).1 hl)] at h
  refine h.imp fun a b hab => ?_
  simp only [value_ops.compare_types, Option.some.injEq, compare_equal] at hab
  exact hinj hab

theorem compare_types_ok (E : value_ops) {sa sb : List value}
    (hl : compare sa.length sb.length = .equal) :
    cmp_ok (compare_sequences E.compare_types sa sb) :=
  compare_sequences_ok (forall₂_of_length_eq ((compare_equal _ _).1 hl))
    fun _ _ _ _ _ => compare_ok _ _

theorem compare_types_mirror (E : value_ops) {sa sb : List value}
    (hl : compare sa.length sb.length = .equal) :
    cmp_mirror (compare_sequences E.compare_types sa sb)
      (compare_sequences E.compare_types sb sa) :=
  compare_sequences_mirror (forall₂_of_length_eq ((compare_equal _ _).1 hl))
    fun _ _ _ _ _ => ⟨compare_ok _ _, compare_mirror _ _⟩

theorem compare_types_chain (E : value_ops) {sa sb sc : List value}
    (h1 : compare sa.length sb.length = .equal) (h2 : compare sb.length sc.length = .equal) :
    cmp_chain (compare_sequences E.compare_types sa sb)
      (compare_sequences E.compare_types sb sc) (compare_sequences E.compare_types sa sc) :=
  compare_sequences_chain (forall₂_of_length_eq ((compare_equal _ _).1 h1))
    (forall₂_of_length_eq ((compare_equal _ _).1 h2))
    fun _ _ _ _ _ _ _ _ => ⟨compare_ok _ _, compare_ok _ _, compare_ok _ _, compare_chain _ _ _⟩

/-- Two sequences compare without `fail`, and mirrored, when their elements of one
type do. -/
theorem seq_cmp_pair {E : value_ops} (hinj : Function.Injective E.code) {sa sb : List value}
    (p q : Nat) (h : ∀ a ∈ sa, ∀ b ∈ sb, a.get_type = b.get_type → cmp_pair E a b) :
    cmp_pair E (value_seq sa p) (value_seq sb q) := by
  unfold cmp_pair
  rw [value.cmp_seq_seq, value.cmp_seq_seq]
  refine ⟨cmp_then_ok (compare_ok _ _) fun h1 => ?_,
    cmp_then_mirror (compare_mirror _ _) fun h1 => ?_⟩
  · have h1 : compare sa.length sb.length = .equal := by simpa using h1
    refine cmp_then_ok (compare_types_ok E h1) fun h2 => ?_
    exact compare_sequences_ok (same_types_of_scan hinj h1 h2)
      fun a ha b hb hab => (h a ha b hb hab).1
  · have h1 : compare sa.length sb.length = .equal := by simpa using h1
    refine cmp_then_mirror (compare_types_mirror E h1) fun h2 => ?_
    exact compare_sequences_mirror (same_types_of_scan hinj h1 h2)
      fun a ha b hb hab => h a ha b hb hab

theorem seq_cmp_chain {E : value_ops} (hinj : Function.Injective E.code)
    {sa sb sc : List value} (p q r : Nat)
    (h : ∀ a ∈ sa, ∀ b ∈ sb, ∀ c ∈ sc, a.get_type = b.get_type → b.get_type = c.get_type →
      cmp_ok (value.cmp E a b) ∧ cmp_ok (value.cmp E b c) ∧ cmp_ok (value.cmp E a c)
        ∧ cmp_chain (value.cmp E a b) (value.cmp E b c) (value.cmp E a c)) :
    cmp_chain (value.cmp E (value_seq sa p) (value_seq sb q))
      (value.cmp E (value_seq sb q) (value_seq sc r))
      (value.cmp E (value_seq sa p) (value_seq sc r)) := by
  rw [value.cmp_seq_seq, value.cmp_seq_seq, value.cmp_seq_seq]
  refine cmp_then_chain (compare_chain _ _ _) fun h1 h2 => ?_
  have h1 : compare sa.length sb.length = .equal := by simpa using h1
  have h2 : compare sb.length sc.length = .equal := by simpa using h2
  refine cmp_then_chain (compare_types_chain E h1 h2) fun h3 h4 => ?_
  exact compare_sequences_chain (same_types_of_scan hinj h1 h3)
    (same_types_of_scan hinj h2 h4) h

theorem seq_cmp_refl {E : value_ops} {sa : List value} (p : Nat)
    (h : ∀ a ∈ sa, value.cmp E a a = some .equal) :
    value.cmp E (value_seq sa p) (value_seq sa p) = some .equal := by
  rw [value.cmp_seq_seq, (compare_equal _ _).2 rfl]
  simp only [cmp_then]
  rw [compare_sequences_refl fun a _ => by simp [value_ops.compare_types, compare_equal]]
  exact compare_sequences_refl h

theorem leaf_cmp_pair {E : value_ops} (hE : E.total_order) (a b : value)
    (ha : a.get_type ≠ .T_SEQ) (hab : a.get_type = b.get_type) : cmp_pair E a b := by
  have hb : b.get_type ≠ .T_SEQ := hab ▸ ha
  unfold cmp_pair
  rw [value.cmp_other E a b ha, value.cmp_other E b a hb]
  refine ⟨⟨_, rfl, hE.never_fail a b ha hab⟩, ?_⟩
  simp only [cmp_mirror, Option.some.injEq]
  exact ⟨hE.less_greater a b ha hab,
    ⟨hE.equal_symm a b ha hab, hE.equal_symm b a hb hab.symm⟩,
    (hE.less_greater b a hb hab.symm).symm⟩

theorem leaf_cmp_chain {E : value_ops} (hE : E.total_order) (a b c : value)
    (ha : a.get_type ≠ .T_SEQ) (hab : a.get_type = b.get_type)
    (hbc : b.get_type = c.get_type) :
    cmp_chain (value.cmp E a b) (value.cmp E b c) (value.cmp E a c) := by
  have hb : b.get_type ≠ .T_SEQ := hab ▸ ha
  have hc : c.get_type ≠ .T_SEQ := hbc ▸ hb
  have hac : a.get_type = c.get_type := hab.trans hbc
  rw [value.cmp_other E a b ha, value.cmp_other E b c hb, value.cmp_other E a c ha]
  simp only [cmp_chain, Option.some.injEq]
  have tabc := hE.trans a b c ha hab hbc
  have tcab := hE.trans c a b hc hac.symm hab
  have tbca := hE.trans b c a hb hbc hac.symm
  have tcba := hE.trans c b a hc hbc.symm hab.symm
  have fab := hE.less_greater a b ha hab
  have fbc := hE.less_greater b c hb hbc
  have fac := hE.less_greater a c ha hac
  have eab := hE.equal_symm a b ha hab
  have ebc := hE.equal_symm b c hb hbc
  have eac := hE.equal_symm a c ha hac
  refine ⟨fun h1 h2 => ?_, fun h1 h2 => ?_, fun h1 h2 => ?_, fun h1 h2 => ?_⟩
  · rcases tabc (.inl h1) (.inl h2) with h | h
    · exact h
    · rcases tcab (.inr (eac h)) (.inl h1) with h3 | h3
      · rw [fbc.1 h2] at h3; cases h3
      · rw [fbc.1 h2] at h3; cases h3
  · rcases tabc (.inl h1) (.inr h2) with h | h
    · exact h
    · rcases tbca (.inr h2) (.inr (eac h)) with h3 | h3
      · rw [fab.1 h1] at h3; cases h3
      · rw [fab.1 h1] at h3; cases h3
  · rcases tabc (.inr h1) (.inl h2) with h | h
    · exact h
    · rcases tcab (.inr (eac h)) (.inr h1) with h3 | h3
      · rw [fbc.1 h2] at h3; cases h3
      · rw [fbc.1 h2] at h3; cases h3
  · rcases tabc (.inr h1) (.inr h2) with h | h
    · rcases tcba (.inr (ebc h2)) (.inr (eab h1)) with h3 | h3
      · rw [fac.1 h] at h3; cases h3
      · rw [fac.1 h] at h3; cases h3
    · exact h

/-- Under the assumptions on the other classes, `cmp` orders the values of every
type, the sequences with nested sequences among them. -/
theorem value.cmp_order {E : value_ops} (hE : E.total_order) :
    ∀ n (x y z : value), sizeOf x ≤ n → sizeOf y ≤ n → sizeOf z ≤ n →
      x.get_type = y.get_type → y.get_type = z.get_type →
      cmp_pair E x y ∧ cmp_chain (value.cmp E x y) (value.cmp E y z) (value.cmp E x z)
        ∧ value.cmp E x x = some .equal := by
  intro n
  induction n with
  | zero =>
    intro x _ _ hx
    cases x <;> simp at hx
  | succ n ih =>
    intro x y z hx hy hz hxy hyz
    by_cases hs : x.get_type = .T_SEQ
    · obtain ⟨sx, px, rfl⟩ := eq_seq_of_type hs
      obtain ⟨sy, py, rfl⟩ := eq_seq_of_type (hxy ▸ hs)
      obtain ⟨sz, pz, rfl⟩ := eq_seq_of_type (hyz ▸ hxy ▸ hs)
      have bx : ∀ a ∈ sx, sizeOf a ≤ n := fun a ha => by
        have := List.sizeOf_lt_of_mem ha
        simp at hx
        omega
      have bY : ∀ a ∈ sy, sizeOf a ≤ n := fun a ha => by
        have := List.sizeOf_lt_of_mem ha
        simp at hy
        omega
      have bz : ∀ a ∈ sz, sizeOf a ≤ n := fun a ha => by
        have := List.sizeOf_lt_of_mem ha
        simp at hz
        omega
      refine ⟨seq_cmp_pair hE.code_injective px py fun a ha b hb hab =>
          (ih a b b (bx a ha) (bY b hb) (bY b hb) hab rfl).1,
        seq_cmp_chain hE.code_injective px py pz fun a ha b hb c hc hab hbc =>
          ⟨(ih a b b (bx a ha) (bY b hb) (bY b hb) hab rfl).1.1,
            (ih b c c (bY b hb) (bz c hc) (bz c hc) hbc rfl).1.1,
            (ih a c c (bx a ha) (bz c hc) (bz c hc) (hab.trans hbc) rfl).1.1,
            (ih a b c (bx a ha) (bY b hb) (bz c hc) hab hbc).2.1⟩,
        seq_cmp_refl px fun a ha => (ih a a a (bx a ha) (bx a ha) (bx a ha) rfl rfl).2.2⟩
    · refine ⟨leaf_cmp_pair hE x y hs hxy, leaf_cmp_chain hE x y z hs hxy hyz, ?_⟩
      rw [value.cmp_other E x x hs, hE.refl x hs]

theorem compare_types_equal_iff (E : value_ops) {sa sb : List value}
    (hl : sa.length = sb.length) :
    compare_sequences E.compare_types sa sb = some .equal
      ↔ List.Forall₂ (fun a b => E.code a.get_type = E.code b.get_type) sa sb := by
  rw [compare_sequences_equal_iff hl]
  simp only [value_ops.compare_types, Option.some.injEq, compare_equal]

theorem seq_cmp_ok {E : value_ops} (hinj : Function.Injective E.code) {sa sb : List value}
    (p q : Nat)
    (h : ∀ a ∈ sa, ∀ b ∈ sb, a.get_type = b.get_type → cmp_ok (value.cmp E a b)) :
    cmp_ok (value.cmp E (value_seq sa p) (value_seq sb q)) := by
  rw [value.cmp_seq_seq]
  refine cmp_then_ok (compare_ok _ _) fun h1 => ?_
  have h1 : compare sa.length sb.length = .equal := by simpa using h1
  refine cmp_then_ok (compare_types_ok E h1) fun h2 => ?_
  exact compare_sequences_ok (same_types_of_scan hinj h1 h2) h

/-- No assertion fails, and the answer is not `fail`, when two values of one type are
compared and `cmp` of the other classes never answers `fail` within a class. -/
theorem value.cmp_ok_of_same_type {E : value_ops} (hinj : Function.Injective E.code)
    (hE : ∀ a b, a.get_type ≠ .T_SEQ → a.get_type = b.get_type → E.cmp a b ≠ .fail) :
    ∀ a b : value, a.get_type = b.get_type → cmp_ok (value.cmp E a b) := by
  intro a
  induction a using value.induct_seq with
  | hleaf a ha =>
    intro b hab
    rw [value.cmp_other E a b ha]
    exact ⟨_, rfl, hE a b ha hab⟩
  | hseq sa p ih =>
    intro b hab
    obtain ⟨sb, q, rfl⟩ := eq_seq_of_type hab.symm
    exact seq_cmp_ok hinj p q fun x hx y _ hxy => ih x hx y hxy

theorem value.leaves_other {v : value} (h : v.get_type ≠ .T_SEQ) : v.leaves = [v] := by
  cases v <;> first | exact absurd rfl h | rfl

theorem value.leaves_seq_eq (seq : List value) :
    value.leaves_seq seq = seq.flatMap value.leaves := by
  induction seq with
  | nil => rfl
  | cons v seq ih => rw [value.leaves_seq, ih, List.flatMap_cons]

theorem value.mem_leaves_of_mem {seq : List value} {pos : Nat} {x y : value} (hx : x ∈ seq)
    (hy : y ∈ x.leaves) : y ∈ (value_seq seq pos).leaves := by
  rw [value.leaves, value.leaves_seq_eq, List.mem_flatMap]
  exact ⟨x, hx, hy⟩

/-- A value compares equal to its clone, both ways, and the clone is of the same type,
when that holds of the clones that the other classes make of its leaves. -/
theorem value.clone_cmp (E : value_ops) : ∀ v : value,
    (∀ x ∈ v.leaves, (E.clone x).get_type = x.get_type ∧ E.cmp (E.clone x) x = .equal
      ∧ E.cmp x (E.clone x) = .equal) →
    value.cmp E (v.clone E) v = some .equal ∧ value.cmp E v (v.clone E) = some .equal
      ∧ (v.clone E).get_type = v.get_type := by
  intro v
  induction v using value.induct_seq with
  | hleaf v hv =>
    intro h
    obtain ⟨h1, h2, h3⟩ := h v (by rw [value.leaves_other hv]; exact List.mem_singleton_self v)
    rw [value.clone_other E v hv, value.cmp_other E _ v (h1 ▸ hv), value.cmp_other E v _ hv,
      h2, h3]
    exact ⟨rfl, rfl, h1⟩
  | hseq seq pos ih =>
    intro h
    have ih2 := fun x hx => ih x hx fun y hy => h y (value.mem_leaves_of_mem hx hy)
    rw [value.clone_seq_eq, value.cmp_seq_seq, value.cmp_seq_seq, List.length_map,
      (compare_equal _ _).2 rfl]
    simp only [cmp_then]
    have t1 : compare_sequences E.compare_types (seq.map (value.clone E)) seq = some .equal := by
      rw [compare_types_equal_iff E (List.length_map _ _), List.forall₂_map_left_iff,
        List.forall₂_same]
      exact fun x hx => congrArg E.code (ih2 x hx).2.2
    have t2 : compare_sequences E.compare_types seq (seq.map (value.clone E)) = some .equal := by
      rw [compare_types_equal_iff E (List.length_map _ _).symm, List.forall₂_map_right_iff,
        List.forall₂_same]
      exact fun x hx => congrArg E.code (ih2 x hx).2.2.symm
    rw [t1, t2]
    refine ⟨?_, ?_, rfl⟩
    · rw [compare_sequences_equal_iff (List.length_map _ _), List.forall₂_map_left_iff,
        List.forall₂_same]
      exact fun x hx => (ih2 x hx).1
    · rw [compare_sequences_equal_iff (List.length_map _ _).symm, List.forall₂_map_right_iff,
        List.forall₂_same]
      exact fun x hx => (ih2 x hx).2.1

/-! ## The claims on sequences -/

theorem stand_in_cmp {comparable : constant_dom → constant_dom → Bool}
    (h : ∀ d1 d2, comparable d1 d2 = true) (a b : value) (hab : a.get_type = b.get_type) :
    (value_ops.stand_in comparable).cmp a b = compare a.rank b.rank := by
  cases a <;> cases b <;> simp [value.get_type] at hab <;>
    simp [value_ops.stand_in, value.get_type, value.rank, h]

theorem stand_in_total_order {comparable : constant_dom → constant_dom → Bool}
    (h : ∀ d1 d2, comparable d1 d2 = true) : (value_ops.stand_in comparable).total_order where
  code_injective := by
    intro a b hab
    cases a <;> cases b <;> first | rfl | (simp [value_ops.stand_in] at hab)
  never_fail a b _ hab := by
    rw [stand_in_cmp h a b hab]
    exact compare_ne_fail _ _
  refl a _ := by
    rw [stand_in_cmp h a a rfl]
    exact (compare_equal _ _).2 rfl
  less_greater a b _ hab := by
    rw [stand_in_cmp h a b hab, stand_in_cmp h b a hab.symm, compare_less, compare_greater]
  equal_symm a b _ hab := by
    rw [stand_in_cmp h a b hab, stand_in_cmp h b a hab.symm, compare_equal, compare_equal]
    exact Eq.symm
  trans a b c _ hab hbc := by
    rw [stand_in_cmp h a b hab, stand_in_cmp h b c hbc, stand_in_cmp h a c (hab.trans hbc)]
    simp only [compare_less, compare_equal]
    omega

/-- C27: when the type tags are totally ordered and `cmp` of every other class is a
total order on the values of that class, `value_seq::cmp` is a total order on the
sequences: for sequences `a`, `b`, `c` the comparison answers less, equal or greater,
`a.cmp (b)` is less iff `b.cmp (a)` is greater, `a.cmp (b)` is equal iff `b.cmp (a)` is
equal, `a.cmp (a)` is equal, and `a.cmp (b)` less with `b.cmp (c)` less gives
`a.cmp (c)` less. -/
theorem value_seq_cmp_is_total_order (E : value_ops) (hE : E.total_order)
    (sa sb sc : List value) (p q r : Nat) :
    (value.cmp E (value_seq sa p) (value_seq sb q) = some .less
        ∨ value.cmp E (value_seq sa p) (value_seq sb q) = some .equal
        ∨ value.cmp E (value_seq sa p) (value_seq sb q) = some .greater)
      ∧ (value.cmp E (value_seq sa p) (value_seq sb q) = some .less
        ↔ value.cmp E (value_seq sb q) (value_seq sa p) = some .greater)
      ∧ (value.cmp E (value_seq sa p) (value_seq sb q) = some .equal
        ↔ value.cmp E (value_seq sb q) (value_seq sa p) = some .equal)
      ∧ value.cmp E (value_seq sa p) (value_seq sa p) = some .equal
      ∧ (value.cmp E (value_seq sa p) (value_seq sb q) = some .less →
          value.cmp E (value_seq sb q) (value_seq sc r) = some .less →
          value.cmp E (value_seq sa p) (value_seq sc r) = some .less) := by
  obtain ⟨⟨⟨x, hx, hf⟩, hm⟩, hc, hr⟩ :=
    value.cmp_order hE _ (value_seq sa p) (value_seq sb q) (value_seq sc r)
      (le_max_left _ (max (sizeOf (value_seq sb q)) (sizeOf (value_seq sc r))))
      (le_trans (le_max_left _ _) (le_max_right _ _))
      (le_trans (le_max_right _ _) (le_max_right _ _)) rfl rfl
  refine ⟨?_, hm.1, hm.2.1, hr, hc.1⟩
  rw [hx]
  cases x <;> simp at hf ⊢

theorem value_seq_cmp_is_total_order_witness :
    (value_ops.stand_in fun _ _ => true).total_order
      ∧ value.cmp (value_ops.stand_in fun _ _ => true)
          (value_seq [value_cst ⟨9, dec_constant_dom⟩ 0] 0)
          (value_seq [value_cst ⟨1, dec_constant_dom⟩ 0, value_cst ⟨1, dec_constant_dom⟩ 1] 0)
        = some .less
      ∧ (value.cmp (value_ops.stand_in fun _ _ => true)
          (value_seq [value_cst ⟨1, dec_constant_dom⟩ 0, value_cst ⟨1, dec_constant_dom⟩ 1] 0)
          (value_seq [value_cst ⟨1, dec_constant_dom⟩ 0, value_cst ⟨2, dec_constant_dom⟩ 1] 0)
        = some .less →
        value.cmp (value_ops.stand_in fun _ _ => true)
          (value_seq [value_cst ⟨9, dec_constant_dom⟩ 0] 0)
          (value_seq [value_cst ⟨1, dec_constant_dom⟩ 0, value_cst ⟨2, dec_constant_dom⟩ 1] 0)
        = some .less) :=
  ⟨stand_in_total_order fun _ _ => rfl, by decide,
    (value_seq_cmp_is_total_order (value_ops.stand_in fun _ _ => true)
      (stand_in_total_order fun _ _ => rfl)
      [value_cst ⟨9, dec_constant_dom⟩ 0]
      [value_cst ⟨1, dec_constant_dom⟩ 0, value_cst ⟨1, dec_constant_dom⟩ 1]
      [value_cst ⟨1, dec_constant_dom⟩ 0, value_cst ⟨2, dec_constant_dom⟩ 1] 0 0 0).2.2.2.2
      (by decide)⟩

/-- C29: inside `value_seq::cmp` the scans of `compare_sequences` run on two lists of
one length and the element `cmp` is applied to pairs of one type tag only: when the
type tags are distinct and `cmp` between two values of one class other than
`value_seq` never answers `fail` (whatever it answers between values of two classes),
comparing two values of one type, two sequences among them, returns an answer that is
not `fail`, so that no assertion of `compare_sequences` has failed and no scan has read
past the end of the second list.  Comparing a sequence with a value that is not a
sequence answers `fail`. -/
theorem value_seq_cmp_assertions_hold (E : value_ops) (hinj : Function.Injective E.code)
    (hE : ∀ a b, a.get_type ≠ .T_SEQ → a.get_type = b.get_type → E.cmp a b ≠ .fail) :
    (∀ sa p sb q, ∃ r, value.cmp E (value_seq sa p) (value_seq sb q) = some r ∧ r ≠ .fail)
      ∧ (∀ a b : value, a.get_type = b.get_type →
          ∃ r, value.cmp E a b = some r ∧ r ≠ .fail)
      ∧ (∀ sa p (b : value), b.get_type ≠ .T_SEQ →
          value.cmp E (value_seq sa p) b = some .fail) :=
  ⟨fun _ _ _ _ => value.cmp_ok_of_same_type hinj hE _ _ rfl,
    value.cmp_ok_of_same_type hinj hE, fun sa p b hb => value.cmp_seq_other E sa p b hb⟩

theorem value_seq_cmp_assertions_hold_witness :
    Function.Injective (value_ops.stand_in fun _ _ => true).code
      ∧ (value_ops.stand_in fun _ _ => true).cmp (value_cst ⟨1, dw_tag_dom⟩ 0) (value_str "a" 1)
        = .fail
      ∧ (∃ r, value.cmp (value_ops.stand_in fun _ _ => true)
          (value_seq [value_cst ⟨1, dw_tag_dom⟩ 0, value_str "a" 1] 0)
          (value_seq [value_cst ⟨1, dw_attr_dom⟩ 0, value_str "bc" 1] 0) = some r ∧ r ≠ .fail)
      ∧ value.cmp (value_ops.stand_in fun _ _ => true)
          (value_seq [] 0) (value_str "" 0) = some .fail :=
  ⟨(stand_in_total_order fun _ _ => rfl).code_injective, by decide,
    (value_seq_cmp_assertions_hold (value_ops.stand_in fun _ _ => true)
      (stand_in_total_order fun _ _ => rfl).code_injective
      (stand_in_total_order fun _ _ => rfl).never_fail).1 _ _ _ _,
    (value_seq_cmp_assertions_hold (value_ops.stand_in fun _ _ => true)
      (stand_in_total_order fun _ _ => rfl).code_injective
      (stand_in_total_order fun _ _ => rfl).never_fail).2.2 _ _ _ (by decide)⟩

/-- C25: for a sequence `v`, nested sequences among its elements or not, such that
every value other than a sequence that `v` is made of compares equal to its own clone
(the clone being of the same class), `v.clone ().cmp (v)` answers equal, and so does
`v.cmp (v.clone ())`. -/
theorem value_seq_clone_compares_equal (E : value_ops) (seq : List value) (pos : Nat)
    (h : ∀ x ∈ (value_seq seq pos).leaves, (E.clone x).get_type = x.get_type
      ∧ E.cmp (E.clone x) x = .equal ∧ E.cmp x (E.clone x) = .equal) :
    value.cmp E ((value_seq seq pos).clone E) (value_seq seq pos) = some .equal
      ∧ value.cmp E (value_seq seq pos) ((value_seq seq pos).clone E) = some .equal :=
  ⟨(value.clone_cmp E _ h).1, (value.clone_cmp E _ h).2.1⟩

theorem value_seq_clone_compares_equal_witness :
    (∀ x ∈ (value_seq [value_cst ⟨1, dw_tag_dom⟩ 0,
          value_seq [value_str "a" 0, value_seq [] 1] 1] 0).leaves,
        ((value_ops.stand_in constant_ops.by_value.comparable).clone x).get_type = x.get_type
          ∧ (value_ops.stand_in constant_ops.by_value.comparable).cmp
              ((value_ops.stand_in constant_ops.by_value.comparable).clone x) x = .equal
          ∧ (value_ops.stand_in constant_ops.by_value.comparable).cmp x
              ((value_ops.stand_in constant_ops.by_value.comparable).clone x) = .equal)
      ∧ value.cmp (value_ops.stand_in constant_ops.by_value.comparable)
          ((value_seq [value_cst ⟨1, dw_tag_dom⟩ 0,
            value_seq [value_str "a" 0, value_seq [] 1] 1] 0).clone
              (value_ops.stand_in constant_ops.by_value.comparable))
          (value_seq [value_cst ⟨1, dw_tag_dom⟩ 0,
            value_seq [value_str "a" 0, value_seq [] 1] 1] 0) = some .equal :=
  ⟨by decide,
    (value_seq_clone_compares_equal (value_ops.stand_in constant_ops.by_value.comparable)
      [value_cst ⟨1, dw_tag_dom⟩ 0, value_seq [value_str "a" 0, value_seq [] 1] 1] 0
      (by decide)).1⟩

/-! ## Searching a sequence: proofs -/

theorem matches_at_nil (p : value → value → Option Bool) (l : List value) :
    matches_at p l [] :=
  ⟨Nat.zero_le _, fun j hj => absurd hj (Nat.not_lt_zero j)⟩

theorem matches_at_cons (p : value → value → Option Bool) (h x : value) (hs xs : List value) :
    matches_at p (h :: hs) (x :: xs) ↔ p h x = some true ∧ matches_at p hs xs := by
  constructor
  · rintro ⟨hl, hm⟩
    refine ⟨?_, by simpa using hl, fun j hj => ?_⟩
    · obtain ⟨a, b, ha, hb, hab⟩ := hm 0 (by simp)
      simp at ha hb
      subst ha hb
      exact hab
    · obtain ⟨a, b, ha, hb, hab⟩ := hm (j + 1) (by simpa using hj)
      exact ⟨a, b, by simpa using ha, by simpa using hb, hab⟩
  · rintro ⟨h0, hl, hm⟩
    refine ⟨by simpa using hl, fun j hj => ?_⟩
    cases j with
    | zero => exact ⟨h, x, by simp, by simp, h0⟩
    | succ j =>
      obtain ⟨a, b, ha, hb, hab⟩ := hm j (by simpa using hj)
      exact ⟨a, b, by simpa using ha, by simpa using hb, hab⟩

/-- What a try of `std::search` at one start position finds out, when the
comparisons return. -/
theorem search_at_spec {p : value → value → Option Bool} :
    ∀ (l needle : List value), (∀ a ∈ l, ∀ b ∈ needle, p a b ≠ none) →
      (search_at p l needle = some .found ∧ matches_at p l needle)
        ∨ (search_at p l needle = some .haystack_ended ∧ l.length < needle.length)
        ∨ (search_at p l needle = some .mismatch ∧ ¬ matches_at p l needle)
  | l, [], _ => .inl ⟨by cases l <;> rfl, matches_at_nil p l⟩
  | [], x :: xs, _ => .inr (.inl ⟨rfl, by simp⟩)
  | h :: hs, x :: xs, hret => by
    have ih := search_at_spec hs xs fun a ha b hb =>
      hret a (List.mem_cons_of_mem _ ha) b (List.mem_cons_of_mem _ hb)
    have h0 := hret h (List.mem_cons_self _ _) x (List.mem_cons_self _ _)
    rw [search_at, matches_at_cons]
    rcases hp : p h x with _ | b
    · exact absurd hp h0
    · cases b
      · exact .inr (.inr ⟨rfl, by simp⟩)
      · simp only [true_and]
        rcases ih with ih | ih | ih
        · exact .inl ih
        · exact .inr (.inl ⟨ih.1, by simpa using ih.2⟩)
        · exact .inr (.inr ih)

/-- The algorithm `std::search` returns the end of the haystack exactly when the needle
matches from no start position before the end, when the comparisons return. -/
theorem search_spec {p : value → value → Option Bool} (needle : List value) :
    ∀ l : List value, (∀ a ∈ l, ∀ b ∈ needle, p a b ≠ none) →
      ∃ k, search p l needle = some k ∧
        (k ≠ l.length ↔ ∃ i, i < l.length ∧ matches_at p (l.drop i) needle)
  | [], _ => by
    refine ⟨0, ?_, by simp⟩
    cases needle <;> rfl
  | h :: hs, hret => by
    obtain ⟨k, hk, ih⟩ := search_spec needle hs fun a ha b hb =>
      hret a (List.mem_cons_of_mem _ ha) b hb
    rw [search]
    rcases search_at_spec (h :: hs) needle hret with hs1 | hs1 | hs1
    · rw [hs1.1]
      exact ⟨0, rfl, by simpa using ⟨0, by simp, hs1.2⟩⟩
    · rw [hs1.1]
      refine ⟨hs.length + 1, rfl, ?_⟩
      simp only [List.length_cons, ne_eq, not_true_eq_false, false_iff, not_exists, not_and]
      intro i _ hm
      have := hm.1
      simp only [List.length_drop, List.length_cons] at this
      have := hs1.2
      simp only [List.length_cons] at this
      omega
    · rw [hs1.1, hk]
      refine ⟨k + 1, rfl, ?_⟩
      simp only [List.length_cons, ne_eq, add_left_inj]
      rw [show (¬ k = hs.length) ↔ k ≠ hs.length from Iff.rfl, ih]
      constructor
      · rintro ⟨i, hi, hm⟩
        exact ⟨i + 1, by omega, by simpa using hm⟩
      · rintro ⟨i, hi, hm⟩
        cases i with
        | zero => exact absurd (by simpa using hm) hs1.2
        | succ i => exact ⟨i, by omega, by simpa using hm⟩

theorem matches_at_drop (p : value → value → Option Bool) (l needle : List value) (i : Nat)
    (hi : i ≤ l.length) :
    matches_at p (l.drop i) needle ↔ i + needle.length ≤ l.length ∧
      ∀ j, j < needle.length → ∃ a b, l[i + j]? = some a ∧ needle[j]? = some b
        ∧ p a b = some true := by
  unfold matches_at
  simp only [List.length_drop, List.getElem?_drop]
  constructor
  · rintro ⟨h1, h2⟩
    exact ⟨by omega, h2⟩
  · rintro ⟨h1, h2⟩
    exact ⟨by omega, h2⟩

theorem equal_to_some_true (E : value_ops) (a b : value) :
    pred_find_seq.equal_to E a b = some true ↔ value.cmp E a b = some .equal := by
  unfold pred_find_seq.equal_to
  rcases value.cmp E a b with _ | r
  · simp
  · cases r <;> simp

/-- C30: when the comparisons of the elements return, `pred_find_seq::result` answers yes
or no, and yes iff there is a start index `i` with `i < length (haystack)` and
`i + length (needle) <= length (haystack)` such that for every `j < length (needle)`,
`haystack[i+j].cmp (needle[j])` is equal.  So the empty needle is found in every
haystack that is not empty, nothing is found in the empty haystack, the empty needle
neither, and a needle longer than the haystack is not found. -/
theorem pred_find_seq_result_finds_contiguous (E : value_ops) (haystack needle : List value)
    (hret : ∀ a ∈ haystack, ∀ b ∈ needle, value.cmp E a b ≠ none) :
    (pred_find_seq.result E haystack needle = some .yes
        ∨ pred_find_seq.result E haystack needle = some .no)
      ∧ (pred_find_seq.result E haystack needle = some .yes ↔
          ∃ i, i < haystack.length ∧ i + needle.length ≤ haystack.length ∧
            ∀ j, j < needle.length → ∃ a b, haystack[i + j]? = some a ∧ needle[j]? = some b
              ∧ value.cmp E a b = some .equal)
      ∧ (needle = [] → haystack ≠ [] → pred_find_seq.result E haystack needle = some .yes)
      ∧ (haystack = [] → pred_find_seq.result E haystack needle = some .no)
      ∧ (haystack.length < needle.length →
          pred_find_seq.result E haystack needle = some .no) := by
  obtain ⟨k, hk, hspec⟩ := search_spec (p := pred_find_seq.equal_to E) needle haystack
    fun a ha b hb => by
      have := hret a ha b hb
      unfold pred_find_seq.equal_to
      cases h : value.cmp E a b with
      | none => exact absurd h this
      | some r => simp
  have hyes : pred_find_seq.result E haystack needle = some .yes ↔
      ∃ i, i < haystack.length ∧ i + needle.length ≤ haystack.length ∧
        ∀ j, j < needle.length → ∃ a b, haystack[i + j]? = some a ∧ needle[j]? = some b
          ∧ value.cmp E a b = some .equal := by
    have h1 : pred_find_seq.result E haystack needle = some .yes ↔ k ≠ haystack.length := by
      unfold pred_find_seq.result
      rw [hk]
      by_cases hkl : k = haystack.length <;> simp [pred_result.of_bool, hkl]
    rw [h1, hspec]
    constructor
    · rintro ⟨i, hi, hm⟩
      rw [matches_at_drop _ _ _ _ (Nat.le_of_lt hi)] at hm
      simp only [equal_to_some_true] at hm
      exact ⟨i, hi, hm⟩
    · rintro ⟨i, hi, hm⟩
      refine ⟨i, hi, ?_⟩
      rw [matches_at_drop _ _ _ _ (Nat.le_of_lt hi)]
      simp only [equal_to_some_true]
      exact hm
  have hno : pred_find_seq.result E haystack needle ≠ some .yes →
      pred_find_seq.result E haystack needle = some .no := by
    unfold pred_find_seq.result
    rw [hk]
    by_cases hkl : k = haystack.length <;> simp [pred_result.of_bool, hkl]
  refine ⟨?_, hyes, ?_, ?_, ?_⟩
  · by_cases h : pred_find_seq.result E haystack needle = some .yes
    · exact .inl h
    · exact .inr (hno h)
  · rintro rfl hne
    rw [hyes]
    exact ⟨0, List.length_pos.2 hne, by simp, fun j hj => absurd hj (Nat.not_lt_zero j)⟩
  · rintro rfl
    refine hno fun h => ?_
    obtain ⟨i, hi, _⟩ := hyes.1 h
    exact absurd hi (Nat.not_lt_zero i)
  · intro hlt
    refine hno fun h => ?_
    obtain ⟨i, _, hi, _⟩ := hyes.1 h
    omega

theorem pred_find_seq_result_finds_contiguous_witness :
    (∀ a ∈ [value_cst ⟨5, dec_constant_dom⟩ 0, value_cst ⟨7, dec_constant_dom⟩ 1,
          value_cst ⟨9, dec_constant_dom⟩ 2],
        ∀ b ∈ [value_cst ⟨7, dec_constant_dom⟩ 0, value_cst ⟨9, dec_constant_dom⟩ 1],
          value.cmp (value_ops.stand_in constant_ops.by_value.comparable) a b ≠ none)
      ∧ pred_find_seq.result (value_ops.stand_in constant_ops.by_value.comparable)
          [value_cst ⟨5, dec_constant_dom⟩ 0, value_cst ⟨7, dec_constant_dom⟩ 1,
            value_cst ⟨9, dec_constant_dom⟩ 2]
          [value_cst ⟨7, dec_constant_dom⟩ 0, value_cst ⟨9, dec_constant_dom⟩ 1] = some .yes
      ∧ pred_find_seq.result (value_ops.stand_in constant_ops.by_value.comparable) [] []
          = some .no :=
  ⟨by decide,
    (pred_find_seq_result_finds_contiguous (value_ops.stand_in constant_ops.by_value.comparable)
      [value_cst ⟨5, dec_constant_dom⟩ 0, value_cst ⟨7, dec_constant_dom⟩ 1,
        value_cst ⟨9, dec_constant_dom⟩ 2]
      [value_cst ⟨7, dec_constant_dom⟩ 0, value_cst ⟨9, dec_constant_dom⟩ 1]
      (by decide)).2.1.2 ⟨1, by decide, by decide, fun j hj => by
        have hj2 : j = 0 ∨ j = 1 := by
          simp only [List.length_cons, List.length_nil] at hj
          omega
        rcases hj2 with rfl | rfl
        · exact ⟨_, _, rfl, rfl, by decide⟩
        · exact ⟨_, _, rfl, rfl, by decide⟩⟩,
    by decide⟩

/-! ## The dictionary of builtins: proofs -/

namespace builtin_dict

theorem find_add {τ : Type} {d d1 : builtin_dict τ} {b : builtin τ} {name : String}
    (h : d.add b name = some d1) (n : String) :
    d1.find n = if n = name then some b else d.find n := by
  unfold add at h
  cases hf : d.find name with
  | none =>
    rw [hf] at h
    cases h
    unfold find
    rw [List.lookup_cons]
    by_cases hn : n = name
    · simp [hn]
    · have : (n == name) = false := by simpa using hn
      rw [this, if_neg hn]
  | some x =>
    rw [hf] at h
    cases h

theorem add_isSome {τ : Type} {d : builtin_dict τ} (b : builtin τ) {name : String}
    (h : d.find name = none) : ∃ d1, d.add b name = some d1 := by
  unfold add
  rw [h]
  exact ⟨_, rfl⟩

theorem find_ne_none_of_mem {τ : Type} (d : builtin_dict τ) {name : String}
    (h : name ∈ d.m_builtins.map Prod.fst) : d.find name ≠ none := by
  unfold find
  obtain ⟨l⟩ := d
  induction l with
  | nil => simp at h
  | cons e l ih =>
    rw [List.lookup_cons]
    by_cases hn : name = e.1
    · simp [hn]
    · have : (name == e.1) = false := by simpa using hn
      rw [this]
      simp only [List.map_cons, List.mem_cons] at h
      exact ih (h.resolve_left hn)

theorem mem_of_find {τ : Type} (d : builtin_dict τ) {name : String} {x : builtin τ}
    (h : d.find name = some x) : name ∈ d.m_builtins.map Prod.fst := by
  unfold find at h
  obtain ⟨l⟩ := d
  induction l with
  | nil => simp at h
  | cons e l ih =>
    rw [List.lookup_cons] at h
    by_cases hn : name = e.1
    · simp [hn]
    · have : (name == e.1) = false := by simpa using hn
      rw [this] at h
      simp only [List.map_cons, List.mem_cons]
      exact .inr (ih h)

theorem mem_all_names {τ : Type} (a b : builtin_dict τ) (name : String) :
    name ∈ all_names a b ↔ a.find name ≠ none ∨ b.find name ≠ none := by
  unfold all_names
  rw [List.mem_dedup, List.mem_append]
  constructor
  · rintro (h | h)
    · exact .inl (find_ne_none_of_mem a h)
    · exact .inr (find_ne_none_of_mem b h)
  · rintro (h | h)
    · cases hf : a.find name with
      | none => exact absurd hf h
      | some x => exact .inl (mem_of_find a hf)
    · cases hf : b.find name with
      | none => exact absurd hf h
      | some x => exact .inr (mem_of_find b hf)

/-- One turn of the loop: it fails exactly for a name that stands in the way, and
otherwise adds the binding `merged`. -/
theorem merge_name_spec {τ : Type} (overload_tab : τ → τ → Option τ) (a b d : builtin_dict τ)
    (name : String) (hn : a.find name ≠ none ∨ b.find name ≠ none) (hd : d.find name = none) :
    ((conflict a b name ∨ clash overload_tab a b name)
        ∧ merge_name overload_tab a b d name = none)
      ∨ (¬ (conflict a b name ∨ clash overload_tab a b name)
        ∧ ∃ x d1, merged overload_tab a b name = some x
          ∧ merge_name overload_tab a b d name = some d1
          ∧ ∀ n, d1.find n = if n = name then some x else d.find n) := by
  unfold merge_name merged conflict clash
  cases ha : a.find name with
  | none =>
    cases hb : b.find name with
    | none => simp [ha, hb] at hn
    | some bb =>
      obtain ⟨d1, h1⟩ := add_isSome bb hd
      exact .inr ⟨by simp, bb, d1, rfl, h1, find_add h1⟩
  | some ba =>
    cases hb : b.find name with
    | none =>
      obtain ⟨d1, h1⟩ := add_isSome ba hd
      exact .inr ⟨by simp, ba, d1, rfl, h1, find_add h1⟩
    | some bb =>
      dsimp only
      cases hta : ba.get_overload_tab with
      | none => exact .inl ⟨.inl ⟨ba, bb, rfl, rfl, .inl hta⟩, rfl⟩
      | some ta =>
        cases htb : bb.get_overload_tab with
        | none => exact .inl ⟨.inl ⟨ba, bb, rfl, rfl, .inr htb⟩, rfl⟩
        | some tb =>
          dsimp only
          cases htc : overload_tab ta tb with
          | none => exact .inl ⟨.inr ⟨ba, bb, ta, tb, rfl, rfl, hta, htb, htc⟩, rfl⟩
          | some tc =>
            obtain ⟨d1, h1⟩ := add_isSome (.overloaded true name tc) hd
            refine .inr ⟨?_, _, d1, rfl, h1, find_add h1⟩
            rintro (⟨x, y, hx, hy, h⟩ | ⟨x, y, tx, ty, hx, hy, h1x, h1y, h⟩)
            · cases hx
              cases hy
              rcases h with h | h
              · rw [hta] at h; cases h
              · rw [htb] at h; cases h
            · cases hx
              cases hy
              rw [hta] at h1x
              rw [htb] at h1y
              cases h1x
              cases h1y
              rw [htc] at h
              cases h

/-- The loop over a list of distinct names, each bound in `a` or in `b` and none of them
in `d`. -/
theorem merge_loop_spec {τ : Type} (overload_tab : τ → τ → Option τ) (a b : builtin_dict τ) :
    ∀ (names : List String) (d : builtin_dict τ), names.Nodup →
      (∀ n ∈ names, a.find n ≠ none ∨ b.find n ≠ none) → (∀ n ∈ names, d.find n = none) →
      ((∃ n ∈ names, conflict a b n ∨ clash overload_tab a b n)
          ∧ names.foldlM (merge_name overload_tab a b) d = none)
        ∨ ((∀ n ∈ names, ¬ (conflict a b n ∨ clash overload_tab a b n)) ∧ ∃ m,
            names.foldlM (merge_name overload_tab a b) d = some m
            ∧ ∀ n, m.find n = if n ∈ names then merged overload_tab a b n else d.find n)
  | [], d, _, _, _ => .inr ⟨by simp, d, rfl, by simp⟩
  | name :: names, d, hnd, hn, hd => by
    rw [List.foldlM_cons]
    rcases merge_name_spec overload_tab a b d name (hn name (List.mem_cons_self _ _))
        (hd name (List.mem_cons_self _ _)) with ⟨hc, hm⟩ | ⟨hc, x, d1, hx, hm, hf⟩
    · rw [hm]
      exact .inl ⟨⟨name, List.mem_cons_self _ _, hc⟩, rfl⟩
    · rw [hm]
      have hnd2 := List.nodup_cons.1 hnd
      have hd1 : ∀ n ∈ names, d1.find n = none := fun n hmem => by
        rw [hf, if_neg (fun h : n = name => hnd2.1 (h ▸ hmem))]
        exact hd n (List.mem_cons_of_mem _ hmem)
      rcases merge_loop_spec overload_tab a b names d1 hnd2.2
          (fun n hmem => hn n (List.mem_cons_of_mem _ hmem)) hd1 with
        ⟨⟨n, hmem, hcn⟩, hr⟩ | ⟨hnc, m, hr, hfm⟩
      · exact .inl ⟨⟨n, List.mem_cons_of_mem _ hmem, hcn⟩, hr⟩
      · refine .inr ⟨?_, m, hr, fun n => ?_⟩
        · intro n hmem
          rcases List.mem_cons.1 hmem with rfl | hmem
          · exact hc
          · exact hnc n hmem
        · rw [hfm, hf]
          by_cases h1 : n = name
          · subst h1
            simp [hnd2.1, hx]
          · simp [h1]

theorem merged_eq_none {τ : Type} (overload_tab : τ → τ → Option τ) (a b : builtin_dict τ)
    (n : String) (h : ¬ (a.find n ≠ none ∨ b.find n ≠ none)) :
    merged overload_tab a b n = none := by
  unfold merged
  cases ha : a.find n with
  | none =>
    cases hb : b.find n with
    | none => rfl
    | some y => exact absurd (.inr (by simp [hb])) h
  | some x => exact absurd (.inl (by simp [ha])) h

/-- The merging constructor fails exactly when a name stands in the way, and otherwise
builds the dictionary of the bindings `merged`. -/
theorem merge_spec {τ : Type} (overload_tab : τ → τ → Option τ) (a b : builtin_dict τ) :
    ((∃ n, conflict a b n ∨ clash overload_tab a b n) ∧ merge overload_tab a b = none)
      ∨ ((∀ n, ¬ (conflict a b n ∨ clash overload_tab a b n))
        ∧ ∃ m, merge overload_tab a b = some m
          ∧ ∀ n, m.find n = merged overload_tab a b n) := by
  rcases merge_loop_spec overload_tab a b (all_names a b) empty (List.nodup_dedup _)
      (fun n hn => (mem_all_names a b n).1 hn) (fun _ _ => rfl) with
    ⟨⟨n, _, hc⟩, hr⟩ | ⟨hnc, m, hr, hf⟩
  · exact .inl ⟨⟨n, hc⟩, hr⟩
  · refine .inr ⟨fun n hc => ?_, m, hr, fun n => ?_⟩
    · have hmem : n ∈ all_names a b := by
        rw [mem_all_names]
        rcases hc with ⟨x, y, hx, hy, h⟩ | ⟨x, y, _, _, hx, _⟩
        · exact .inl (by simp [hx])
        · exact .inl (by simp [hx])
      exact hnc n hmem hc
    · rw [hf]
      by_cases hmem : n ∈ all_names a b
      · rw [if_pos hmem]
      · rw [if_neg hmem, merged_eq_none overload_tab a b n
          (fun h => hmem ((mem_all_names a b n).2 h))]
        rfl

end builtin_dict

/-! ## The claims on the dictionary -/

/-- C21: when the merging constructor `builtin_dict (a, b)` succeeds, the new
dictionary binds exactly the names bound in `a` or in `b`; a name bound in only one of
them is bound to that same builtin; a name bound in both is bound to a new
`overloaded_op_builtin` of that name whose table is the one that the constructor
`overload_tab (ta, tb)` has made of the tables of the two bindings.  The dictionaries
`a` and `b` are only read. -/
theorem merged_dictionary_binds_names_of_both {τ : Type} (overload_tab : τ → τ → Option τ)
    (a b m : builtin_dict τ) (h : builtin_dict.merge overload_tab a b = some m) :
    (∀ name, m.find name ≠ none ↔ a.find name ≠ none ∨ b.find name ≠ none)
      ∧ (∀ name ba, a.find name = some ba → b.find name = none → m.find name = some ba)
      ∧ (∀ name bb, a.find name = none → b.find name = some bb → m.find name = some bb)
      ∧ (∀ name ba bb, a.find name = some ba → b.find name = some bb →
          ∃ ta tb tc, ba.get_overload_tab = some ta ∧ bb.get_overload_tab = some tb
            ∧ overload_tab ta tb = some tc
            ∧ m.find name = some (.overloaded true name tc)
            ∧ (builtin.overloaded true name tc).name = name) := by
  rcases builtin_dict.merge_spec overload_tab a b with ⟨_, hr⟩ | ⟨hnc, m1, hr, hf⟩
  · rw [hr] at h
    cases h
  · rw [hr] at h
    cases h
    have hboth : ∀ name ba bb, a.find name = some ba → b.find name = some bb →
        ∃ ta tb tc, ba.get_overload_tab = some ta ∧ bb.get_overload_tab = some tb
          ∧ overload_tab ta tb = some tc := by
      intro name ba bb ha hb
      have hc := hnc name
      unfold builtin_dict.conflict builtin_dict.clash at hc
      cases hta : ba.get_overload_tab with
      | none => exact absurd (.inl ⟨ba, bb, ha, hb, .inl hta⟩) hc
      | some ta =>
        cases htb : bb.get_overload_tab with
        | none => exact absurd (.inl ⟨ba, bb, ha, hb, .inr htb⟩) hc
        | some tb =>
          cases htc : overload_tab ta tb with
          | none => exact absurd (.inr ⟨ba, bb, ta, tb, ha, hb, hta, htb, htc⟩) hc
          | some tc => exact ⟨ta, tb, tc, rfl, rfl, htc⟩
    have hfind : ∀ name ba bb ta tb tc, a.find name = some ba → b.find name = some bb →
        ba.get_overload_tab = some ta → bb.get_overload_tab = some tb →
        overload_tab ta tb = some tc → m.find name = some (.overloaded true name tc) := by
      intro name ba bb ta tb tc ha hb hta htb htc
      rw [hf]
      unfold builtin_dict.merged
      rw [ha, hb]
      dsimp only
      rw [hta, htb]
      dsimp only
      rw [htc]
      rfl
    refine ⟨fun name => ?_, fun name ba ha hb => ?_, fun name bb ha hb => ?_,
      fun name ba bb ha hb => ?_⟩
    · cases ha : a.find name with
      | none =>
        cases hb : b.find name with
        | none =>
          rw [hf]
          unfold builtin_dict.merged
          rw [ha, hb]
          simp
        | some bb =>
          rw [hf]
          unfold builtin_dict.merged
          rw [ha, hb]
          simp
      | some ba =>
        cases hb : b.find name with
        | none =>
          rw [hf]
          unfold builtin_dict.merged
          rw [ha, hb]
          simp
        | some bb =>
          obtain ⟨ta, tb, tc, hta, htb, htc⟩ := hboth name ba bb ha hb
          rw [hfind name ba bb ta tb tc ha hb hta htb htc]
          simp
    · rw [hf]
      unfold builtin_dict.merged
      rw [ha, hb]
    · rw [hf]
      unfold builtin_dict.merged
      rw [ha, hb]
    · obtain ⟨ta, tb, tc, hta, htb, htc⟩ := hboth name ba bb ha hb
      exact ⟨ta, tb, tc, hta, htb, htc, hfind name ba bb ta tb tc ha hb hta htb htc, rfl⟩

theorem merged_dictionary_binds_names_of_both_witness :
    builtin_dict.merge (fun ta tb => some (ta ++ tb)) dict_one dict_two
        = some ⟨[("length", .simple "length" 1),
            ("value", .overloaded true "value" [.T_AT, .T_STR]),
            ("winfo", .simple "winfo" 0)]⟩
      ∧ (∀ name, builtin_dict.find
            (⟨[("length", .simple "length" 1),
              ("value", .overloaded true "value" [.T_AT, .T_STR]),
              ("winfo", .simple "winfo" 0)]⟩ : builtin_dict (List value_type)) name ≠ none ↔
          dict_one.find name ≠ none ∨ dict_two.find name ≠ none) :=
  ⟨rfl, (merged_dictionary_binds_names_of_both (fun ta tb => some (ta ++ tb)) dict_one
    dict_two _ rfl).1⟩

/-- C22: when the constructor `overload_tab (ta, tb)` always returns a table, the merging
constructor `builtin_dict (a, b)` fails (an assertion fails) if and only if some name is
bound in both `a` and `b` and at least one of the two bindings is not an overloaded
builtin; so two dictionaries that both bind one name to a builtin that is not
overloaded, such as `winfo`, cannot be merged. -/
theorem merge_fails_iff_plain_name_in_both {τ : Type} (overload_tab : τ → τ → Option τ)
    (htab : ∀ ta tb, overload_tab ta tb ≠ none) (a b : builtin_dict τ) :
    (builtin_dict.merge overload_tab a b = none ↔
        ∃ name ba bb, a.find name = some ba ∧ b.find name = some bb
          ∧ (ba.get_overload_tab = none ∨ bb.get_overload_tab = none))
      ∧ (∀ name i j, a.find name = some (.simple name i) → b.find name = some (.simple name j) →
          builtin_dict.merge overload_tab a b = none)
      ∧ builtin_dict.merge overload_tab ⟨[("winfo", .simple "winfo" 0)]⟩
          ⟨[("winfo", .simple "winfo" 0)]⟩ = none := by
  have key : ∀ a b : builtin_dict τ, builtin_dict.merge overload_tab a b = none ↔
      ∃ name ba bb, a.find name = some ba ∧ b.find name = some bb
        ∧ (ba.get_overload_tab = none ∨ bb.get_overload_tab = none) := by
    intro a b
    rcases builtin_dict.merge_spec overload_tab a b with ⟨⟨n, hc⟩, hr⟩ | ⟨hnc, m, hr, _⟩
    · refine ⟨fun _ => ?_, fun _ => hr⟩
      rcases hc with hc | ⟨_, _, ta, tb, _, _, _, _, h⟩
      · exact ⟨n, hc⟩
      · exact absurd h (htab ta tb)
    · refine ⟨fun h => ?_, fun ⟨n, hc⟩ => absurd (.inl hc) (hnc n)⟩
      rw [hr] at h
      cases h
  exact ⟨key a b, fun name i j ha hb => (key a b).2 ⟨name, _, _, ha, hb, .inl rfl⟩,
    (key _ _).2 ⟨"winfo", _, _, rfl, rfl, .inl rfl⟩⟩

theorem merge_fails_iff_plain_name_in_both_witness :
    (∀ ta tb : List value_type, (fun ta tb => some (ta ++ tb)) ta tb ≠ none)
      ∧ builtin_dict.merge (fun ta tb => some (ta ++ tb)) dict_one
          ⟨[("value", .simple "value" 2)]⟩ = none
      ∧ (builtin_dict.merge (fun ta tb => some (ta ++ tb)) dict_one dict_two).isSome = true :=
  ⟨fun _ _ => by simp,
    (merge_fails_iff_plain_name_in_both (fun ta tb => some (ta ++ tb)) (fun _ _ => by simp)
      dict_one ⟨[("value", .simple "value" 2)]⟩).1.2
      ⟨"value", _, _, rfl, rfl, .inr rfl⟩,
    rfl⟩

/-! ## Reset and the end of the stream: general facts -/

theorem loop_all {σ : Type} {body : Nat → σ → loop_step σ} {P : σ → Prop}
    (h : ∀ n s, P s → (body n s).all P) : ∀ n s, P s → (loop body n s).all P := by
  intro n
  induction n with
  | zero => intro s _; exact trivial
  | succ n ih =>
    intro s hs
    have h1 := h n s hs
    rw [loop]
    cases hb : body n s with
    | ret r =>
      rw [hb] at h1
      cases r <;> exact h1
    | again s1 =>
      rw [hb] at h1
      exact ih s1 h1

theorem reach_all {σ : Type} [op σ] {P : σ → Prop}
    (h : ∀ n s, P s → (op.next n s).all P) {s s1 : σ} (h0 : P s) (hr : reach s s1) : P s1 := by
  induction hr with
  | refl => exact h0
  | @yield s1 s2 n f _ hn ih =>
    have := h n s1 ih
    rw [hn] at this
    exact this
  | @done s1 s2 n _ hn ih =>
    have := h n s1 ih
    rw [hn] at this
    exact this

/-- A loop that returns nullptr does so from a turn of its body. -/
theorem loop_done {σ : Type} {body : Nat → σ → loop_step σ} :
    ∀ (n : Nat) (s s1 : σ), loop body n s = .done s1 → ∃ m sk, body m sk = .ret (.done s1) := by
  intro n
  induction n with
  | zero => intro s s1 h; cases h
  | succ n ih =>
    intro s s1 h
    rw [loop] at h
    cases hb : body n s with
    | ret r =>
      rw [hb] at h
      exact ⟨n, s, by rw [hb]; exact congrArg _ h⟩
    | again s2 =>
      rw [hb] at h
      exact ih s2 s1 h

/-- Two states on which the body does the same behave alike. -/
theorem loop_congr_first {σ : Type} {body : Nat → σ → loop_step σ} {s s1 : σ} {r : result σ}
    {N M : Nat} (h : ∀ n, N ≤ n → body n s = body n s1)
    (h1 : ∀ n, M ≤ n → loop body n s1 = r) : ∀ n, max N M + 1 ≤ n → loop body n s = r := by
  intro n hn
  obtain ⟨m, rfl⟩ : ∃ m, n = m + 1 := ⟨n - 1, by omega⟩
  have h2 : N ≤ m := le_trans (le_max_left N M) (by omega)
  have h3 : M ≤ m + 1 := le_trans (le_max_right N M) (by omega)
  have := h1 (m + 1) h3
  rw [loop] at this ⊢
  rw [h m h2]
  exact this

theorem finite_upstream_reach {fs : List valfile} {s : finite_upstream}
    (h : reach (finite_upstream.of fs) s) : s.initial = fs := by
  refine reach_all (P := fun s => s.initial = fs) (fun n s hs => ?_) rfl h
  show (finite_upstream.next n s).all _
  unfold finite_upstream.next
  cases hp : s.pending <;> exact hs

theorem finite_upstream_replays (fs : List valfile) : replays (finite_upstream.of fs) fs :=
  ⟨⟨_, finite_upstream_emits fs fs⟩, fun s1 h1 => by
    have h2 : (op.reset s1 : finite_upstream) = ⟨fs, fs⟩ := by
      show ({ s1 with pending := s1.initial } : finite_upstream) = _
      rw [finite_upstream_reach h1]
    rw [h2]
    exact ⟨_, finite_upstream_emits fs fs⟩⟩

theorem finite_upstream_keeps_none : keeps_none finite_upstream := by
  intro n s s1 h k
  have hp : s1.pending = [] := by
    change finite_upstream.next n s = .done s1 at h
    unfold finite_upstream.next at h
    cases hp : s.pending with
    | nil =>
      rw [hp] at h
      cases h
      exact hp
    | cons f fs =>
      rw [hp] at h
      cases h
  clear h
  induction k with
  | zero => exact trivial
  | succ k ih =>
    refine ⟨s1, ⟨0, fun m _ => ?_⟩, ih⟩
    show finite_upstream.next m s1 = _
    unfold finite_upstream.next
    rw [hp]

/-- The pattern by which an operator over an upstream replays its output after `reset`:
every turn of its loop keeps the upstream in a state the upstream can reach and keeps
`G`, and from a state with `G`, after `reset`, it gives `out` when the upstream gives
`fs`. -/
theorem replays_of {σ τ : Type} [op σ] [op τ] (body : Nat → τ → loop_step τ)
    (hnext : ∀ n (s : τ), op.next n s = loop body n s) (up : τ → σ) (G : τ → Prop)
    (u : σ) (fs out : List valfile) (fresh : τ) (hup : up fresh = u) (hG : G fresh)
    (hbody : ∀ n s, (reach u (up s) ∧ G s) → (body n s).all fun s => reach u (up s) ∧ G s)
    (hfresh : ∀ u1, emits u fs u1 → ∃ t, emits fresh out t)
    (hreset : ∀ s1, G s1 → ∀ u1, emits (op.reset (up s1)) fs u1 →
      ∃ t, emits (op.reset s1) out t)
    (hR : replays u fs) : replays fresh out := by
  obtain ⟨⟨u1, h1⟩, h2⟩ := hR
  refine ⟨hfresh u1 h1, fun s1 hs1 => ?_⟩
  have hinv : reach u (up s1) ∧ G s1 :=
    reach_all (P := fun s => reach u (up s) ∧ G s)
      (fun n s hs => by rw [hnext]; exact loop_all hbody n s hs) ⟨hup ▸ .refl, hG⟩ hs1
  obtain ⟨t, ht⟩ := h2 _ hinv.1
  exact hreset s1 hinv.2 t ht

/-- The pattern by which an operator over an upstream keeps returning nullptr: its
loop returns nullptr only when the upstream did, leaving a state with `idle`, and in a
state with `idle` it returns nullptr when the upstream does, staying in such a state. -/
theorem keeps_none_of {σ τ : Type} [op σ] [op τ] (body : Nat → τ → loop_step τ)
    (hnext : ∀ n (s : τ), op.next n s = loop body n s) (up : τ → σ) (idle : τ → Prop)
    (hbody : ∀ m sk s1, body m sk = .ret (.done s1) →
      idle s1 ∧ op.next m (up sk) = .done (up s1))
    (hidle : ∀ s u1, idle s → eventually (up s) (.done u1) →
      ∃ s1, eventually s (.done s1) ∧ idle s1 ∧ up s1 = u1)
    (hU : keeps_none σ) : keeps_none τ := by
  have key : ∀ k (s : τ), idle s → done_run k (up s) → done_run k s := by
    intro k
    induction k with
    | zero => intro _ _ _; exact trivial
    | succ k ih =>
      rintro s hs ⟨u1, hu1, hk⟩
      obtain ⟨s1, h1, h2, h3⟩ := hidle s u1 hs hu1
      exact ⟨s1, h1, ih s1 h2 (h3 ▸ hk)⟩
  intro n s s1 h k
  rw [hnext] at h
  obtain ⟨m, sk, hb⟩ := loop_done n s s1 h
  obtain ⟨h1, h2⟩ := hbody m sk s1 hb
  exact key k s1 h1 (hU m _ _ h2 k)

/-! ## Reset and the end of the stream: the operators -/

namespace builtin_winfo

theorem winfo_body_all {σ : Type} [op σ] (u : σ) (gr : dwgrep_graph) (n : Nat) (s : winfo σ)
    (hs : reach u s.m_upstream ∧ s.m_gr = gr) :
    (winfo.body n s).all fun s => reach u s.m_upstream ∧ s.m_gr = gr := by
  have hy : ∀ f u1, op.next n s.m_upstream = .yield f u1 → reach u u1 :=
    fun f u1 h => .yield hs.1 h
  have hd : ∀ u1, op.next n s.m_upstream = .done u1 → reach u u1 := fun u1 h => .done hs.1 h
  unfold winfo.body winfo.emit winfo.reset_me
  repeat' split
  all_goals simp_all [loop_step.all]

/-- With no frame at hand and the position at 0, `winfo` gives what a new `winfo`
gives, whatever is left in `m_it`. -/
theorem winfo_emits_stale {σ : Type} [op σ] (gr : dwgrep_graph) (it : all_dies_iterator)
    (fs : List valfile) (u u1 : σ) (h : emits u fs u1) :
    ∃ t, emits ({ m_upstream := u, m_gr := gr, m_it := it, m_vf := none, m_pos := 0 } : winfo σ)
      (fs.flatMap (fun f => push_dies f 0 gr.all_dies)) t := by
  cases fs with
  | nil =>
    obtain ⟨N, hN⟩ := h
    exact ⟨{ m_upstream := u1, m_gr := gr, m_it := it, m_vf := none, m_pos := 0 }, N + 1,
      loop_ret (fun n hn => by simp [winfo.body, hN n hn])⟩
  | cons f fs =>
    refine ⟨_, emits_forward ?_ (winfo_emits gr (f :: fs) u u1 h)⟩
    obtain ⟨u2, ⟨N, hN⟩, _⟩ := h
    rintro r ⟨M, hM⟩
    exact ⟨max N M + 1, loop_congr_first
      (fun n hn => by simp [winfo.body, winfo.mk_op, hN n hn]) hM⟩

theorem winfo_replays {σ : Type} [op σ] (gr : dwgrep_graph) (u : σ) (fs : List valfile)
    (hR : replays u fs) :
    replays (winfo.mk_op u gr) (fs.flatMap (fun f => push_dies f 0 gr.all_dies)) :=
  replays_of winfo.body (fun _ _ => rfl) (fun s => s.m_upstream) (fun s => s.m_gr = gr)
    u fs _ (winfo.mk_op u gr) rfl rfl (winfo_body_all u gr)
    (fun u1 h => ⟨_, winfo_emits gr fs u u1 h⟩)
    (fun s1 hG u1 h => by
      have := winfo_emits_stale gr s1.m_it fs _ u1 h
      rw [← hG] at this ⊢
      exact this)
    hR

theorem winfo_keeps_none {σ : Type} [op σ] (hU : keeps_none σ) : keeps_none (winfo σ) :=
  keeps_none_of winfo.body (fun _ _ => rfl) (fun s => s.m_upstream) (fun s => s.m_vf = none)
    (fun m sk s1 h => by
      unfold winfo.body winfo.emit winfo.reset_me at h
      repeat' split at h
      all_goals first | (simp at h; done) | (simp at h; subst h; simp_all))
    (fun s u1 hs ⟨N, hN⟩ =>
      ⟨{ s with m_upstream := u1 }, ⟨N + 1, loop_ret (fun n hn => by
        simp [winfo.body, hs, hN n hn])⟩, hs, rfl⟩)
    hU

end builtin_winfo

namespace builtin_child

theorem child_body_all {σ : Type} [op σ] (u : σ) (gr : dwgrep_graph) (n : Nat) (s : child σ)
    (hs : reach u s.m_upstream ∧ s.m_gr = gr) :
    (child.body n s).all fun s => reach u s.m_upstream ∧ s.m_gr = gr := by
  have hy : ∀ f u1, op.next n s.m_upstream = .yield f u1 → reach u u1 :=
    fun f u1 h => .yield hs.1 h
  have hd : ∀ u1, op.next n s.m_upstream = .done u1 → reach u u1 := fun u1 h => .done hs.1 h
  unfold child.body child.emit child.reset_me
  repeat' split
  all_goals try dsimp only
  repeat' split
  all_goals simp_all [loop_step.all]

theorem child_replays {σ : Type} [op σ] (gr : dwgrep_graph) (u : σ) (fs : List valfile)
    (hok : ∀ f ∈ fs, f ≠ []) (hR : replays u fs) :
    replays (child.mk_op u gr) (fs.flatMap child.derive) :=
  replays_of child.body (fun _ _ => rfl) (fun s => s.m_upstream) (fun s => s.m_gr = gr)
    u fs _ (child.mk_op u gr) rfl rfl (child_body_all u gr)
    (fun u1 h => by
      obtain ⟨j1, h1⟩ := child_emits gr fs (⟨0, 0, [], .nil, .nil⟩, []) u u1 hok h
      exact ⟨_, h1⟩)
    (fun s1 hG u1 h => by
      obtain ⟨j1, h1⟩ := child_emits gr fs (s1.m_child, s1.diag) _ u1 hok h
      rw [← hG] at h1
      exact ⟨_, h1⟩)
    hR

theorem child_keeps_none {σ : Type} [op σ] (hU : keeps_none σ) : keeps_none (child σ) :=
  keeps_none_of child.body (fun _ _ => rfl) (fun s => s.m_upstream) (fun s => s.m_vf = none)
    (fun m sk s1 h => by
      unfold child.body child.emit child.reset_me at h
      repeat' split at h
      all_goals try dsimp only at h
      repeat' split at h
      all_goals first | (simp at h; done) | (simp at h; subst h; simp_all))
    (fun s u1 hs ⟨N, hN⟩ =>
      ⟨{ s with m_upstream := u1 }, ⟨N + 1, loop_ret (fun n hn => by
        simp [child.body, hs, hN n hn])⟩, hs, rfl⟩)
    hU

end builtin_child

namespace builtin_unit

theorem unit_body_all {σ : Type} [op σ] (u : σ) (gr : dwgrep_graph) (n : Nat) (s : unit σ)
    (hs : reach u s.m_upstream ∧ s.m_gr = gr) :
    (unit.body n s).all fun s => reach u s.m_upstream ∧ s.m_gr = gr := by
  have hy : ∀ f u1, op.next n s.m_upstream = .yield f u1 → reach u u1 :=
    fun f u1 h => .yield hs.1 h
  have hd : ∀ u1, op.next n s.m_upstream = .done u1 → reach u u1 := fun u1 h => .done hs.1 h
  unfold unit.body unit.emit unit.reset_me
  repeat' split
  all_goals simp_all [loop_step.all]

theorem unit_replays {σ : Type} [op σ] (gr : dwgrep_graph) (u : σ) (fs : List valfile)
    (hok : ∀ f ∈ fs, unit.ok gr f) (hR : replays u fs) :
    replays (unit.mk_op u gr) (fs.flatMap (unit.derive gr)) :=
  replays_of unit.body (fun _ _ => rfl) (fun s => s.m_upstream) (fun s => s.m_gr = gr)
    u fs _ (unit.mk_op u gr) rfl rfl (unit_body_all u gr)
    (fun u1 h => by
      obtain ⟨j1, h1⟩ := unit_emits gr fs (all_dies_iterator.end_, []) u u1 hok h
      exact ⟨_, h1⟩)
    (fun s1 hG u1 h => by
      have hG : s1.m_gr = gr := hG
      subst hG
      obtain ⟨j1, h1⟩ := unit_emits s1.m_gr fs (s1.m_end, s1.diag) _ u1 hok h
      exact ⟨_, h1⟩)
    hR

theorem unit_keeps_none {σ : Type} [op σ] (hU : keeps_none σ) : keeps_none (unit σ) :=
  keeps_none_of unit.body (fun _ _ => rfl) (fun s => s.m_upstream) (fun s => s.m_vf = none)
    (fun m sk s1 h => by
      unfold unit.body unit.emit unit.reset_me at h
      repeat' split at h
      all_goals first | (simp at h; done) | (simp at h; subst h; simp_all))
    (fun s u1 hs ⟨N, hN⟩ =>
      ⟨{ s with m_upstream := u1 }, ⟨N + 1, loop_ret (fun n hn => by
        simp [unit.body, hs, hN n hn])⟩, hs, rfl⟩)
    hU

end builtin_unit

namespace builtin_attribute

theorem attribute_body_all {σ : Type} [op σ] (u : σ) (gr : dwgrep_graph) (n : Nat)
    (s : attribute_op σ) (hs : reach u s.m_upstream ∧ s.m_gr = gr) :
    (attribute_op.body n s).all fun s => reach u s.m_upstream ∧ s.m_gr = gr := by
  have hy : ∀ f u1, op.next n s.m_upstream = .yield f u1 → reach u u1 :=
    fun f u1 h => .yield hs.1 h
  have hd : ∀ u1, op.next n s.m_upstream = .done u1 → reach u u1 := fun u1 h => .done hs.1 h
  unfold attribute_op.body attribute_op.emit attribute_op.reset_me
  repeat' split
  all_goals simp_all [loop_step.all]

theorem attribute_done_at {σ : Type} [op σ] (gr : dwgrep_graph)
    (j : Dwarf_Die × attr_iterator × List diagnostic) (u u1 : σ)
    (h : eventually u (.done u1)) :
    eventually (attribute_op.idle_at gr j u) (.done (attribute_op.idle_at gr j u1)) := by
  obtain ⟨N, hN⟩ := h
  refine ⟨N + 1, loop_ret (fun n hn => ?_)⟩
  simp [attribute_op.body, attribute_op.idle_at, hN n hn]

theorem attribute_step_at {σ : Type} [op σ] (gr : dwgrep_graph)
    (j : Dwarf_Die × attr_iterator × List diagnostic) (u u1 : σ) (f : valfile) (hf : f ≠ [])
    (h : eventually u (.yield f u1)) :
    ∃ j1, ∀ out t, emits (attribute_op.idle_at gr j1 u1) out t →
      emits (attribute_op.idle_at gr j u) (attribute_op.derive f ++ out) t := by
  obtain ⟨N, hN⟩ := h
  obtain ⟨c0, it0, dg⟩ := j
  cases f with
  | nil => exact absurd rfl hf
  | cons v rest =>
    have skip : (∀ n, N ≤ n → attribute_op.body n (attribute_op.idle_at gr (c0, it0, dg) u)
          = .again (attribute_op.idle_at gr
              (c0, it0, dg ++ [show_expects "attribute" [.T_DIE]]) u1)) →
        attribute_op.derive (v :: rest) = [] →
        ∃ j1, ∀ out t, emits (attribute_op.idle_at gr j1 u1) out t →
          emits (attribute_op.idle_at gr (c0, it0, dg) u)
            (attribute_op.derive (v :: rest) ++ out) t := by
      intro hb hd
      refine ⟨(c0, it0, dg ++ [show_expects "attribute" [.T_DIE]]), fun out t h1 => ?_⟩
      rw [hd]
      refine emits_forward ?_ h1
      rintro r ⟨M, hM⟩
      exact ⟨max N M + 1, loop_again hb hM⟩
    cases v with
    | value_die d q =>
      refine ⟨(d, [], dg), fun out t h2 => ?_⟩
      refine emits_forward ?_ (attribute_walking_emits gr u1 d rest dg d.attrs 0 out t h2)
      rintro r ⟨M, hM⟩
      refine ⟨max N M + 1, fun n hn => ?_⟩
      obtain ⟨m, rfl⟩ : ∃ m, n = m + 1 := ⟨n - 1, by omega⟩
      have h4 : N ≤ m := le_trans (le_max_left N M) (by omega)
      have h5 : M ≤ m + 1 := le_trans (le_max_right N M) (by omega)
      rw [← hM (m + 1) h5]
      show loop attribute_op.body (m + 1) _ = loop attribute_op.body (m + 1) _
      simp [loop, attribute_op.body, attribute_op.idle_at, attribute_op.walking, hN m h4,
        valfile.pop, attr_iterator.of_die]
    | value_cst c q =>
      exact skip (fun n hn => by
        simp [attribute_op.body, attribute_op.idle_at, hN n hn, valfile.pop]) rfl
    | value_str c q =>
      exact skip (fun n hn => by
        simp [attribute_op.body, attribute_op.idle_at, hN n hn, valfile.pop]) rfl
    | value_seq c q =>
      exact skip (fun n hn => by
        simp [attribute_op.body, attribute_op.idle_at, hN n hn, valfile.pop]) rfl
    | value_attr c d q =>
      exact skip (fun n hn => by
        simp [attribute_op.body, attribute_op.idle_at, hN n hn, valfile.pop]) rfl
    | value_loclist_op c d q =>
      exact skip (fun n hn => by
        simp [attribute_op.body, attribute_op.idle_at, hN n hn, valfile.pop]) rfl

/-- With no frame at hand and the position at 0, `attribute` gives the attributes of the
DIEs of the frames it pulls, whatever is left in `m_it`. -/
theorem attribute_emits_at {σ : Type} [op σ] (gr : dwgrep_graph) (fs : List valfile)
    (j : Dwarf_Die × attr_iterator × List diagnostic) (u u1 : σ) (hok : ∀ f ∈ fs, f ≠ [])
    (h : emits u fs u1) :
    ∃ j1, emits (attribute_op.idle_at gr j u) (fs.flatMap attribute_op.derive)
      (attribute_op.idle_at gr j1 u1) :=
  fan_out_emits (attribute_op.idle_at gr) attribute_op.derive (fun f => f ≠ [])
    (attribute_done_at gr) (attribute_step_at gr) fs j u u1 hok h

theorem attribute_replays {σ : Type} [op σ] (gr : dwgrep_graph) (u : σ) (fs : List valfile)
    (hok : ∀ f ∈ fs, f ≠ []) (hR : replays u fs) :
    replays (attribute_op.mk_op u gr) (fs.flatMap attribute_op.derive) :=
  replays_of attribute_op.body (fun _ _ => rfl) (fun s => s.m_upstream)
    (fun s => s.m_gr = gr) u fs _ (attribute_op.mk_op u gr) rfl rfl (attribute_body_all u gr)
    (fun u1 h => by
      obtain ⟨j1, h1⟩ := attribute_emits gr fs (⟨0, 0, [], .nil, .nil⟩, []) u u1 hok h
      exact ⟨_, h1⟩)
    (fun s1 hG u1 h => by
      have hG : s1.m_gr = gr := hG
      subst hG
      obtain ⟨j1, h1⟩ := attribute_emits_at s1.m_gr fs (s1.m_die, s1.m_it, s1.diag) _ u1 hok h
      exact ⟨_, h1⟩)
    hR

theorem attribute_keeps_none {σ : Type} [op σ] (hU : keeps_none σ) :
    keeps_none (attribute_op σ) :=
  keeps_none_of attribute_op.body (fun _ _ => rfl) (fun s => s.m_upstream)
    (fun s => s.m_vf = none)
    (fun m sk s1 h => by
      unfold attribute_op.body attribute_op.emit attribute_op.reset_me at h
      repeat' split at h
      all_goals first | (simp at h; done) | (simp at h; subst h; simp_all))
    (fun s u1 hs ⟨N, hN⟩ =>
      ⟨{ s with m_upstream := u1 }, ⟨N + 1, loop_ret (fun n hn => by
        simp [attribute_op.body, hs, hN n hn])⟩, hs, rfl⟩)
    hU

end builtin_attribute

theorem dwop_f_body_all (vt : dwop_f_vtable) {σ : Type} [op σ] (u : σ) (gr : dwgrep_graph)
    (n : Nat) (s : dwop_f vt σ) (hs : reach u s.m_upstream ∧ s.m_g = gr) :
    (dwop_f.body n s).all fun s => reach u s.m_upstream ∧ s.m_g = gr := by
  have hy : ∀ f u1, op.next n s.m_upstream = .yield f u1 → reach u u1 :=
    fun f u1 h => .yield hs.1 h
  have hd : ∀ u1, op.next n s.m_upstream = .done u1 → reach u u1 := fun u1 h => .done hs.1 h
  unfold dwop_f.body dwop_f.after
  repeat' split
  all_goals simp_all [loop_step.all]

theorem dwop_f_replays (vt : dwop_f_vtable) {σ : Type} [op σ] (gr : dwgrep_graph) (u : σ)
    (fs : List valfile) (hok : ∀ f ∈ fs, dwop_f.ok vt gr f) (hR : replays u fs) :
    replays (dwop_f.mk_op vt u gr) (fs.flatMap (dwop_f.derive vt gr)) :=
  replays_of dwop_f.body (fun _ _ => rfl) (fun s => s.m_upstream) (fun s => s.m_g = gr)
    u fs _ (dwop_f.mk_op vt u gr) rfl rfl (dwop_f_body_all vt u gr)
    (fun u1 h => by
      obtain ⟨j1, h1⟩ := dwop_f_emits vt gr fs [] u u1 hok h
      exact ⟨_, h1⟩)
    (fun s1 hG u1 h => by
      have hG : s1.m_g = gr := hG
      subst hG
      obtain ⟨j1, h1⟩ := dwop_f_emits vt s1.m_g fs s1.diag _ u1 hok h
      exact ⟨_, h1⟩)
    hR

theorem dwop_f_keeps_none (vt : dwop_f_vtable) {σ : Type} [op σ] (hU : keeps_none σ) :
    keeps_none (dwop_f vt σ) :=
  keeps_none_of dwop_f.body (fun _ _ => rfl) (fun s => s.m_upstream) (fun _ => True)
    (fun m sk s1 h => by
      unfold dwop_f.body dwop_f.after at h
      repeat' split at h
      all_goals first | (simp at h; done) | (simp at h; subst h; simp_all))
    (fun s u1 _ ⟨N, hN⟩ =>
      ⟨{ s with m_upstream := u1 }, ⟨N + 1, loop_ret (fun n hn => by
        simp [dwop_f.body, hN n hn])⟩, trivial, rfl⟩)
    hU

namespace builtin_value_attr

theorem value_body_all (at_value : at_value_t) {σ : Type} [op σ] (u : σ) (gr : dwgrep_graph)
    (n : Nat) (s : o at_value σ) (hs : reach u s.m_upstream ∧ s.m_gr = gr) :
    (o.body n s).all fun s => reach u s.m_upstream ∧ s.m_gr = gr := by
  have hy : ∀ f u1, op.next n s.m_upstream = .yield f u1 → reach u u1 :=
    fun f u1 h => .yield hs.1 h
  have hd : ∀ u1, op.next n s.m_upstream = .done u1 → reach u u1 := fun u1 h => .done hs.1 h
  unfold o.body o.emit o.reset_me
  repeat' split
  all_goals simp_all [loop_step.all]

theorem value_replays (at_value : at_value_t) {σ : Type} [op σ] (gr : dwgrep_graph) (u : σ)
    (fs : List valfile) (hok : ∀ f ∈ fs, o.ok f) (hR : replays u fs) :
    replays (o.mk_op at_value u gr) (fs.flatMap (o.derive at_value gr)) :=
  replays_of o.body (fun _ _ => rfl) (fun s => s.m_upstream) (fun s => s.m_gr = gr)
    u fs _ (o.mk_op at_value u gr) rfl rfl (value_body_all at_value u gr)
    (fun u1 h => ⟨_, value_emits at_value gr fs u u1 hok h⟩)
    (fun s1 hG u1 h => by
      have hG : s1.m_gr = gr := hG
      subst hG
      exact ⟨_, value_emits at_value s1.m_gr fs _ u1 hok h⟩)
    hR

theorem value_keeps_none (at_value : at_value_t) {σ : Type} [op σ] (hU : keeps_none σ) :
    keeps_none (o at_value σ) :=
  keeps_none_of o.body (fun _ _ => rfl) (fun s => s.m_upstream) (fun s => s.m_vpr = none)
    (fun m sk s1 h => by
      unfold o.body o.emit o.reset_me at h
      repeat' split at h
      all_goals first | (simp at h; done) | (simp at h; subst h; simp_all))
    (fun s u1 hs ⟨N, hN⟩ =>
      ⟨{ s with m_upstream := u1, m_vf := none }, ⟨N + 1, loop_ret (fun n hn => by
        simp [o.body, hs, hN n hn])⟩, hs, rfl⟩)
    hU

end builtin_value_attr

/-! ## @number and @number2: the stream -/

theorem op_loclist_op_walking_emits (m_cb : cb_t) {σ : Type} [op σ] (gr : dwgrep_graph)
    (name : String) (dg : List diagnostic) (u : σ) (f : valfile) (vs : List value)
    (out : List valfile) (t : op_loclist_op m_cb σ)
    (h : emits (op_loclist_op.idle m_cb gr name dg u) out t) :
    emits (op_loclist_op.walking m_cb gr name dg u vs f)
      ((vs.map fun v => valfile.push f v) ++ out) t := by
  induction vs with
  | nil =>
    refine emits_forward ?_ h
    rintro r ⟨N, hN⟩
    exact ⟨max 0 N + 1, loop_again (fun n _ => rfl) hN⟩
  | cons v vs ih =>
    exact emits_cons ⟨0 + 1, loop_ret (fun n _ => rfl)⟩ ih

theorem op_loclist_op_done (m_cb : cb_t) {σ : Type} [op σ] (gr : dwgrep_graph)
    (name : String) (dg : List diagnostic) (u u1 : σ) (h : eventually u (.done u1)) :
    eventually (op_loclist_op.idle m_cb gr name dg u)
      (.done (op_loclist_op.idle m_cb gr name dg u1)) := by
  obtain ⟨N, hN⟩ := h
  refine ⟨N + 1, loop_ret (fun n hn => ?_)⟩
  simp [op_loclist_op.body, op_loclist_op.idle, hN n hn]

theorem op_loclist_op_step (m_cb : cb_t) {σ : Type} [op σ] (gr : dwgrep_graph)
    (name : String) (dg : List diagnostic) (u u1 : σ) (f : valfile) (hf : f ≠ [])
    (h : eventually u (.yield f u1)) :
    ∃ dg1, ∀ out t, emits (op_loclist_op.idle m_cb gr name dg1 u1) out t →
      emits (op_loclist_op.idle m_cb gr name dg u) (op_loclist_op.derive m_cb gr f ++ out) t := by
  obtain ⟨N, hN⟩ := h
  cases f with
  | nil => exact absurd rfl hf
  | cons v rest =>
    have skip : (∀ n, N ≤ n → op_loclist_op.body n (op_loclist_op.idle m_cb gr name dg u)
          = .again (op_loclist_op.idle m_cb gr name dg u1)) →
        op_loclist_op.derive m_cb gr (v :: rest) = [] →
        ∃ dg1, ∀ out t, emits (op_loclist_op.idle m_cb gr name dg1 u1) out t →
          emits (op_loclist_op.idle m_cb gr name dg u)
            (op_loclist_op.derive m_cb gr (v :: rest) ++ out) t := by
      intro hb hd
      refine ⟨dg, fun out t h1 => ?_⟩
      rw [hd]
      refine emits_forward ?_ h1
      rintro r ⟨M, hM⟩
      exact ⟨max N M + 1, loop_again hb hM⟩
    cases v with
    | value_loclist_op dwop attr q =>
      refine ⟨dg, fun out t h2 => ?_⟩
      refine emits_forward ?_
        (op_loclist_op_walking_emits m_cb gr name dg u1 rest (m_cb dwop attr gr) out t h2)
      rintro r ⟨M, hM⟩
      refine ⟨max N M + 1, fun n hn => ?_⟩
      obtain ⟨m, rfl⟩ : ∃ m, n = m + 1 := ⟨n - 1, by omega⟩
      have h4 : N ≤ m := le_trans (le_max_left N M) (by omega)
      have h5 : M ≤ m + 1 := le_trans (le_max_right N M) (by omega)
      rw [← hM (m + 1) h5]
      show loop op_loclist_op.body (m + 1) _ = loop op_loclist_op.body (m + 1) _
      simp [loop, op_loclist_op.body, op_loclist_op.idle, op_loclist_op.walking, hN m h4,
        valfile.pop]
    | value_cst c q =>
      exact skip (fun n hn => by
        simp [op_loclist_op.body, op_loclist_op.idle, hN n hn, valfile.pop]) rfl
    | value_str c q =>
      exact skip (fun n hn => by
        simp [op_loclist_op.body, op_loclist_op.idle, hN n hn, valfile.pop]) rfl
    | value_seq c q =>
      exact skip (fun n hn => by
        simp [op_loclist_op.body, op_loclist_op.idle, hN n hn, valfile.pop]) rfl
    | value_die c q =>
      exact skip (fun n hn => by
        simp [op_loclist_op.body, op_loclist_op.idle, hN n hn, valfile.pop]) rfl
    | value_attr c d q =>
      exact skip (fun n hn => by
        simp [op_loclist_op.body, op_loclist_op.idle, hN n hn, valfile.pop]) rfl

/-- The stream of `op_loclist_op`: for every frame of the upstream with an opcode on
top, the values of the callback pushed in turn on the rest of the frame. -/
theorem op_loclist_op_emits (m_cb : cb_t) {σ : Type} [op σ] (gr : dwgrep_graph)
    (name : String) (fs : List valfile) (dg : List diagnostic) (u u1 : σ)
    (hok : ∀ f ∈ fs, f ≠ []) (h : emits u fs u1) :
    ∃ dg1, emits (op_loclist_op.idle m_cb gr name dg u)
      (fs.flatMap (op_loclist_op.derive m_cb gr)) (op_loclist_op.idle m_cb gr name dg1 u1) :=
  fan_out_emits (op_loclist_op.idle m_cb gr name) (op_loclist_op.derive m_cb gr)
    (fun f => f ≠ []) (op_loclist_op_done m_cb gr name) (op_loclist_op_step m_cb gr name)
    fs dg u u1 hok h

theorem op_loclist_op_body_all (m_cb : cb_t) {σ : Type} [op σ] (u : σ) (gr : dwgrep_graph)
    (name : String) (n : Nat) (s : op_loclist_op m_cb σ)
    (hs : reach u s.m_upstream ∧ s.m_gr = gr ∧ s.m_name = name) :
    (op_loclist_op.body n s).all
      fun s => reach u s.m_upstream ∧ s.m_gr = gr ∧ s.m_name = name := by
  have hy : ∀ f u1, op.next n s.m_upstream = .yield f u1 → reach u u1 :=
    fun f u1 h => .yield hs.1 h
  have hd : ∀ u1, op.next n s.m_upstream = .done u1 → reach u u1 := fun u1 h => .done hs.1 h
  unfold op_loclist_op.body op_loclist_op.emit op_loclist_op.reset_me
  repeat' split
  all_goals simp_all [loop_step.all]

theorem op_loclist_op_replays (m_cb : cb_t) {σ : Type} [op σ] (gr : dwgrep_graph)
    (name : String) (u : σ) (fs : List valfile) (hok : ∀ f ∈ fs, f ≠ [])
    (hR : replays u fs) :
    replays (op_loclist_op.mk_op m_cb u gr name) (fs.flatMap (op_loclist_op.derive m_cb gr)) :=
  replays_of op_loclist_op.body (fun _ _ => rfl) (fun s => s.m_upstream)
    (fun s => s.m_gr = gr ∧ s.m_name = name) u fs _ (op_loclist_op.mk_op m_cb u gr name) rfl
    ⟨rfl, rfl⟩ (op_loclist_op_body_all m_cb u gr name)
    (fun u1 h => by
      obtain ⟨j1, h1⟩ := op_loclist_op_emits m_cb gr name fs [] u u1 hok h
      exact ⟨_, h1⟩)
    (fun s1 hG u1 h => by
      obtain ⟨hG1, hG2⟩ : s1.m_gr = gr ∧ s1.m_name = name := hG
      subst hG1 hG2
      obtain ⟨j1, h1⟩ := op_loclist_op_emits m_cb s1.m_gr s1.m_name fs s1.diag _ u1 hok h
      exact ⟨_, h1⟩)
    hR

theorem op_loclist_op_keeps_none (m_cb : cb_t) {σ : Type} [op σ] (hU : keeps_none σ) :
    keeps_none (op_loclist_op m_cb σ) :=
  keeps_none_of op_loclist_op.body (fun _ _ => rfl) (fun s => s.m_upstream)
    (fun s => s.m_vp = none)
    (fun m sk s1 h => by
      unfold op_loclist_op.body op_loclist_op.emit op_loclist_op.reset_me at h
      repeat' split at h
      all_goals first | (simp at h; done) | (simp at h; subst h; simp_all))
    (fun s u1 hs ⟨N, hN⟩ =>
      ⟨{ s with m_upstream := u1 }, ⟨N + 1, loop_ret (fun n hn => by
        simp [op_loclist_op.body, hs, hN n hn])⟩, hs, rfl⟩)
    hU

/-! ## elem on sequences: the stream -/

namespace op_elem_seq

theorem getElem?_append_length (pre : List value) (e : value) (es : List value) :
    (pre ++ e :: es)[pre.length]? = some e := by
  induction pre with
  | nil => simp
  | cons x pre ih => simpa using ih

theorem walking_emits (E : value_ops) {σ : Type} [op σ] (u : σ) (base : valfile)
    (out : List valfile) (t : op_elem_seq E σ)
    (h : emits ({ m_upstream := u, m_state := none } : op_elem_seq E σ) out t) :
    ∀ (es pre : List value),
      emits ({ m_upstream := u, m_state := some ⟨base, pre ++ es, pre.length⟩ } : op_elem_seq E σ)
        (push_elems E base pre.length es ++ out) t := by
  intro es
  induction es with
  | nil =>
    intro pre
    refine emits_forward ?_ h
    rintro r ⟨N, hN⟩
    exact ⟨max 0 N + 1, loop_again (fun n _ => by
      simp [body, emit, state.next]) hN⟩
  | cons e es ih =>
    intro pre
    have h1 := ih (pre ++ [e])
    rw [List.append_assoc, List.length_append] at h1
    exact emits_cons ⟨0 + 1, loop_ret (fun n _ => by
      simp only [body, emit, state.next, getElem?_append_length, push_elems,
        List.append_assoc, List.singleton_append, List.length_append, List.length_singleton])⟩ h1

theorem elem_seq_done (E : value_ops) {σ : Type} [op σ] (_ : Unit) (u u1 : σ)
    (h : eventually u (.done u1)) :
    eventually ({ m_upstream := u, m_state := none } : op_elem_seq E σ)
      (.done { m_upstream := u1, m_state := none }) := by
  obtain ⟨N, hN⟩ := h
  refine ⟨N + 1, loop_ret (fun n hn => ?_)⟩
  simp [body, hN n hn]

theorem elem_seq_step (E : value_ops) {σ : Type} [op σ] (_ : Unit) (u u1 : σ) (f : valfile)
    (hf : ok f) (h : eventually u (.yield f u1)) :
    ∃ _ : Unit, ∀ out t, emits ({ m_upstream := u1, m_state := none } : op_elem_seq E σ) out t →
      emits ({ m_upstream := u, m_state := none } : op_elem_seq E σ) (derive E f ++ out) t := by
  obtain ⟨N, hN⟩ := h
  obtain ⟨seq, p, base, rfl⟩ := hf
  refine ⟨(), fun out t h2 => ?_⟩
  refine emits_forward ?_ (walking_emits E u1 base out t h2 seq [])
  rintro r ⟨M, hM⟩
  refine ⟨max N M + 1, fun n hn => ?_⟩
  obtain ⟨m, rfl⟩ : ∃ m, n = m + 1 := ⟨n - 1, by omega⟩
  have h4 : N ≤ m := le_trans (le_max_left N M) (by omega)
  have h5 : M ≤ m + 1 := le_trans (le_max_right N M) (by omega)
  rw [← hM (m + 1) h5]
  show loop body (m + 1) _ = loop body (m + 1) _
  simp [loop, body, emit, hN m h4, valfile.pop]

/-- The stream of `op_elem_seq`: for every frame of the upstream, which has a sequence
on top, the elements of the sequence pushed in turn on the rest of the frame. -/
theorem elem_seq_emits (E : value_ops) {σ : Type} [op σ] (fs : List valfile) (u u1 : σ)
    (hok : ∀ f ∈ fs, ok f) (h : emits u fs u1) :
    emits (mk_op E u) (fs.flatMap (derive E)) (mk_op E u1) := by
  obtain ⟨_, h1⟩ := fan_out_emits (fun (_ : Unit) (u : σ) => (mk_op E u : op_elem_seq E σ))
    (derive E) ok (elem_seq_done E) (elem_seq_step E) fs () u u1 hok h
  exact h1

theorem elem_seq_body_all (E : value_ops) {σ : Type} [op σ] (u : σ) (n : Nat)
    (s : op_elem_seq E σ) (hs : reach u s.m_upstream ∧ True) :
    (body n s).all fun s => reach u s.m_upstream ∧ True := by
  have hy : ∀ f u1, op.next n s.m_upstream = .yield f u1 → reach u u1 :=
    fun f u1 h => .yield hs.1 h
  have hd : ∀ u1, op.next n s.m_upstream = .done u1 → reach u u1 := fun u1 h => .done hs.1 h
  unfold body emit
  repeat' split
  all_goals simp_all [loop_step.all]

theorem elem_seq_replays (E : value_ops) {σ : Type} [op σ] (u : σ) (fs : List valfile)
    (hok : ∀ f ∈ fs, ok f) (hR : replays u fs) :
    replays (mk_op E u) (fs.flatMap (derive E)) :=
  replays_of body (fun _ _ => rfl) (fun s => s.m_upstream) (fun _ => True)
    u fs _ (mk_op E u) rfl trivial (elem_seq_body_all E u)
    (fun u1 h => ⟨_, elem_seq_emits E fs u u1 hok h⟩)
    (fun _ _ u1 h => ⟨_, elem_seq_emits E fs _ u1 hok h⟩)
    hR

theorem elem_seq_keeps_none (E : value_ops) {σ : Type} [op σ] (hU : keeps_none σ) :
    keeps_none (op_elem_seq E σ) :=
  keeps_none_of body (fun _ _ => rfl) (fun s => s.m_upstream) (fun s => s.m_state = none)
    (fun m sk s1 h => by
      unfold body emit at h
      repeat' split at h
      all_goals first | (simp at h; done) | (simp at h; subst h; simp_all))
    (fun s u1 hs ⟨N, hN⟩ =>
      ⟨{ s with m_upstream := u1 }, ⟨N + 1, loop_ret (fun n hn => by
        simp [body, hs, hN n hn])⟩, hs, rfl⟩)
    hU

end op_elem_seq

/-! ## The claims on reset and on the end of the stream -/

/-- C23: let the upstream `u` give the frames `fs` and give them again when it is reset
after any number of calls of `next`.  Then each of `winfo`, `unit`, `child`,
`attribute`, the operators of the `dwop_f` family, `@number`/`@number2`, `value` and
`elem` on sequences, newly built over `u`, gives a sequence of frames (positions
included), and when `next` is called on it any number of times, be it up to the middle
of what it derives from one upstream frame, and `reset` is called then, the calls of
`next` that follow give that same sequence of frames again.  (The frames of the upstream
are such that the operator does not fail on them.) -/
theorem reset_replays_the_stream {σ : Type} [op σ] (gr : dwgrep_graph) (u : σ)
    (fs : List valfile) (hR : replays u fs) :
    replays (builtin_winfo.winfo.mk_op u gr) (fs.flatMap fun f => push_dies f 0 gr.all_dies)
      ∧ ((∀ f ∈ fs, builtin_unit.unit.ok gr f) →
          replays (builtin_unit.unit.mk_op u gr) (fs.flatMap (builtin_unit.unit.derive gr)))
      ∧ ((∀ f ∈ fs, f ≠ []) →
          replays (builtin_child.child.mk_op u gr) (fs.flatMap builtin_child.child.derive)
            ∧ replays (builtin_attribute.attribute_op.mk_op u gr)
                (fs.flatMap builtin_attribute.attribute_op.derive)
            ∧ ∀ (F : cb_t) (Name : String),
                replays (loclist_op_builtin.build_exec F Name u gr)
                  (fs.flatMap (op_loclist_op.derive F gr)))
      ∧ (∀ vt : dwop_f_vtable, (∀ f ∈ fs, dwop_f.ok vt gr f) →
          replays (dwop_f.mk_op vt u gr) (fs.flatMap (dwop_f.derive vt gr)))
      ∧ (∀ at_value : at_value_t, (∀ f ∈ fs, builtin_value_attr.o.ok f) →
          replays (builtin_value_attr.o.mk_op at_value u gr)
            (fs.flatMap (builtin_value_attr.o.derive at_value gr)))
      ∧ (∀ E : value_ops, (∀ f ∈ fs, op_elem_seq.ok f) →
          replays (op_elem_seq.mk_op E u) (fs.flatMap (op_elem_seq.derive E))) :=
  ⟨builtin_winfo.winfo_replays gr u fs hR,
    fun hok => builtin_unit.unit_replays gr u fs hok hR,
    fun hok => ⟨builtin_child.child_replays gr u fs hok hR,
      builtin_attribute.attribute_replays gr u fs hok hR,
      fun F Name => op_loclist_op_replays F gr Name u fs hok hR⟩,
    fun vt hok => dwop_f_replays vt gr u fs hok hR,
    fun at_value hok => builtin_value_attr.value_replays at_value gr u fs hok hR,
    fun E hok => op_elem_seq.elem_seq_replays E u fs hok hR⟩

theorem reset_replays_the_stream_witness :
    replays (finite_upstream.of [[value_die die_A 0]]) [[value_die die_A 0]]
      ∧ (∃ s1, op.next 2 (builtin_winfo.winfo.mk_op (finite_upstream.of [[value_die die_A 0]])
            graph_abc) = .yield [value_die die_A 0, value_die die_A 0] s1
          ∧ ∃ t, emits (op.reset s1)
            ([[value_die die_A 0]].flatMap fun f => push_dies f 0 graph_abc.all_dies) t)
      ∧ replays (builtin_child.child.mk_op (finite_upstream.of [[value_die die_A 0]]) graph_abc)
          ([[value_die die_A 0]].flatMap builtin_child.child.derive)
      ∧ replays (op_elem_seq.mk_op (value_ops.stand_in fun _ _ => true)
            (finite_upstream.of [[value_seq [value_str "a" 0, value_str "b" 0] 0]]))
          ([[value_seq [value_str "a" 0, value_str "b" 0] 0]].flatMap
            (op_elem_seq.derive (value_ops.stand_in fun _ _ => true))) :=
  ⟨finite_upstream_replays _,
    ⟨_, rfl, (reset_replays_the_stream graph_abc (finite_upstream.of [[value_die die_A 0]])
      [[value_die die_A 0]] (finite_upstream_replays _)).1.2 _
        (@reach.yield _ _ _ _ _ 2 [value_die die_A 0, value_die die_A 0] .refl rfl)⟩,
    ((reset_replays_the_stream graph_abc (finite_upstream.of [[value_die die_A 0]])
      [[value_die die_A 0]] (finite_upstream_replays _)).2.2.1 (by simp)).1,
    (reset_replays_the_stream graph_abc
      (finite_upstream.of [[value_seq [value_str "a" 0, value_str "b" 0] 0]])
      [[value_seq [value_str "a" 0, value_str "b" 0] 0]]
      (finite_upstream_replays _)).2.2.2.2.2 _ (by simp [op_elem_seq.ok])⟩

/-- C24: over an upstream that keeps returning nullptr once it has returned nullptr,
each of `winfo`, `unit`, `child`, `attribute`, the operators of the `dwop_f` family,
`@number`/`@number2`, `value` and `elem` on sequences does so too: after a call of its
`next` has returned nullptr, every further call of `next`, with no `reset` between,
returns nullptr. -/
theorem next_keeps_returning_nullptr {σ : Type} [op σ] (hU : keeps_none σ) :
    keeps_none (builtin_winfo.winfo σ)
      ∧ keeps_none (builtin_unit.unit σ)
      ∧ keeps_none (builtin_child.child σ)
      ∧ keeps_none (builtin_attribute.attribute_op σ)
      ∧ (∀ vt : dwop_f_vtable, keeps_none (dwop_f vt σ))
      ∧ (∀ m_cb : cb_t, keeps_none (op_loclist_op m_cb σ))
      ∧ (∀ at_value : at_value_t, keeps_none (builtin_value_attr.o at_value σ))
      ∧ (∀ E : value_ops, keeps_none (op_elem_seq E σ)) :=
  ⟨builtin_winfo.winfo_keeps_none hU, builtin_unit.unit_keeps_none hU,
    builtin_child.child_keeps_none hU, builtin_attribute.attribute_keeps_none hU,
    fun vt => dwop_f_keeps_none vt hU, fun m_cb => op_loclist_op_keeps_none m_cb hU,
    fun at_value => builtin_value_attr.value_keeps_none at_value hU,
    fun E => op_elem_seq.elem_seq_keeps_none E hU⟩

theorem next_keeps_returning_nullptr_witness :
    keeps_none finite_upstream
      ∧ ∃ s1, op.next 1 (builtin_child.child.mk_op (finite_upstream.of []) graph_abc) = .done s1
        ∧ done_run 3 s1 :=
  ⟨finite_upstream_keeps_none, _, rfl,
    (next_keeps_returning_nullptr finite_upstream_keeps_none).2.2.1 1
      (builtin_child.child.mk_op (finite_upstream.of []) graph_abc) _ rfl 3⟩

/-! ## Sequences in memory: proofs -/

theorem value.pos_set_pos (v : value) (i : Nat) : (v.set_pos i).pos = i := by
  cases v <;> rfl

theorem foldl_concat (a b : List value) :
    b.foldl (fun seq v => seq.concat v) a = a ++ b := by
  induction b generalizing a with
  | nil => simp
  | cons v b ih =>
    rw [List.foldl_cons, ih, List.concat_eq_append, List.append_assoc]
    rfl

namespace op_elem_seq

theorem push_elems_eq_map (E : value_ops) (base : valfile) (i : Nat) (es : List value) :
    push_elems E base i es
      = (es.enumFrom i).map fun ie => valfile.push base ((ie.2.clone E).set_pos ie.1) := by
  induction es generalizing i with
  | nil => rfl
  | cons e es ih => simp [push_elems, List.enumFrom, ih]

end op_elem_seq

/-- A loop that returns a frame does so from a turn of its body. -/
theorem loop_yield {σ : Type} {body : Nat → σ → loop_step σ} :
    ∀ (n : Nat) (s s1 : σ) (f : valfile), loop body n s = .yield f s1 →
      ∃ m sk, body m sk = .ret (.yield f s1) := by
  intro n
  induction n with
  | zero => intro s s1 f h; cases h
  | succ n ih =>
    intro s s1 f h
    rw [loop] at h
    cases hb : body n s with
    | ret r =>
      rw [hb] at h
      exact ⟨n, s, by rw [hb]; exact congrArg _ h⟩
    | again s2 =>
      rw [hb] at h
      exact ih s2 s1 f h

/-- What `attr_named` does with a frame that it pulls: it passes the frame on with the
attribute in place of the DIE that was on top, or it lets go of the frame and pulls
again, or the frame is empty. -/
theorem attr_named_body (m_atname : Nat) {σ : Type} [op σ] (n : Nat)
    (s : dwop_f (builtin_attr_named.o m_atname) σ) (vf : valfile) (u : σ)
    (h : op.next n s.m_upstream = .yield vf u) :
    (∃ d p rest attr, vf = value_die d p :: rest ∧ dwarf_attr d m_atname = some attr
        ∧ dwop_f.body n s
          = .ret (.yield (value_attr attr d 0 :: rest) { s with m_upstream := u }))
      ∨ (vf ≠ [] ∧ (∀ d p rest, vf = value_die d p :: rest → dwarf_attr d m_atname = none)
        ∧ ∃ s1, dwop_f.body n s = .again s1 ∧ s1.m_upstream = u)
      ∨ (vf = [] ∧ dwop_f.body n s = .ret .raise) := by
  cases vf with
  | nil => exact .inr (.inr ⟨rfl, by simp [dwop_f.body, h, valfile.pop]⟩)
  | cons v rest =>
    cases v with
    | value_die d p =>
      cases ha : dwarf_attr d m_atname with
      | none =>
        refine .inr (.inl ⟨by simp, ?_, { s with m_upstream := u }, ?_, rfl⟩)
        · intro d1 p1 rest1 he
          injection he with h1 _
          injection h1 with h2 _
          rw [← h2]
          exact ha
        · simp [dwop_f.body, h, valfile.pop, builtin_attr_named.o,
            builtin_attr_named.o.operate_die, ha, dwop_f.after]
      | some attr =>
        refine .inl ⟨d, p, rest, attr, rfl, ha, ?_⟩
        simp [dwop_f.body, h, valfile.pop, builtin_attr_named.o,
          builtin_attr_named.o.operate_die, ha, dwop_f.after, valfile.push]
    | value_attr a d q =>
      exact .inr (.inl ⟨by simp, by simp, { s with m_upstream := u }, by
        simp [dwop_f.body, h, valfile.pop, builtin_attr_named.o, dwop_f.operate_attr,
          dwop_f.after], rfl⟩)
    | value_loclist_op c d q =>
      exact .inr (.inl ⟨by simp, by simp, { s with m_upstream := u }, by
        simp [dwop_f.body, h, valfile.pop, builtin_attr_named.o, dwop_f.operate_dwop,
          dwop_f.after], rfl⟩)
    | value_cst c q =>
      exact .inr (.inl ⟨by simp, by simp,
        { s with m_upstream := u,
                 diag := s.diag ++ [show_expects (builtin_attr_named.o m_atname).name
                   [.T_DIE, .T_AT, .T_LOCLIST_OP]] },
        by simp [dwop_f.body, h, valfile.pop], rfl⟩)
    | value_str c q =>
      exact .inr (.inl ⟨by simp, by simp,
        { s with m_upstream := u,
                 diag := s.diag ++ [show_expects (builtin_attr_named.o m_atname).name
                   [.T_DIE, .T_AT, .T_LOCLIST_OP]] },
        by simp [dwop_f.body, h, valfile.pop], rfl⟩)
    | value_seq c q =>
      exact .inr (.inl ⟨by simp, by simp,
        { s with m_upstream := u,
                 diag := s.diag ++ [show_expects (builtin_attr_named.o m_atname).name
                   [.T_DIE, .T_AT, .T_LOCLIST_OP]] },
        by simp [dwop_f.body, h, valfile.pop], rfl⟩)

/-- Every frame that a call of `next` of `attr_named` returns has an attribute, at
position 0, on top. -/
theorem attr_named_next_yields_attr (m_atname : Nat) {σ : Type} [op σ] (n : Nat)
    (s s1 : dwop_f (builtin_attr_named.o m_atname) σ) (f : valfile)
    (h : op.next n s = .yield f s1) : ∃ a d rest, f = value_attr a d 0 :: rest := by
  obtain ⟨m, sk, hb⟩ := loop_yield n s s1 f h
  cases hu : op.next m sk.m_upstream with
  | yield vf u =>
    rcases attr_named_body m_atname m sk vf u hu with
      ⟨d, p, rest, attr, _, _, hb1⟩ | ⟨_, _, s2, hb1, _⟩ | ⟨_, hb1⟩
    · rw [hb1] at hb
      injection hb with hb
      injection hb with hb _
      exact ⟨attr, d, rest, hb.symm⟩
    · rw [hb1] at hb
      cases hb
    · rw [hb1] at hb
      cases hb
  | done u => simp [dwop_f.body, hu] at hb
  | raise => simp [dwop_f.body, hu] at hb
  | out_of_fuel => simp [dwop_f.body, hu] at hb

/-! ## The last claims -/

/-- C31: for an upstream whose frames have a sequence on top, `op_elem_seq::next` gives,
for each upstream frame in turn with the sequence `[e_0, ..., e_{m-1}]` on top, exactly
`m` frames in index order, the `i`-th being the frame without the sequence with a clone
of `e_i` pushed whose position is `i`; an empty sequence gives no frame, and the
operator goes on with the next upstream frame; every frame given has below its top the
values that the upstream frame had below the sequence. -/
theorem elem_seq_next_enumerates_elements (E : value_ops) {σ : Type} [op σ]
    (fs : List valfile) (u u1 : σ) (h : emits u fs u1)
    (hseq : ∀ f ∈ fs, ∃ seq p base, f = value_seq seq p :: base) :
    emits (op_elem_seq.mk_op E u)
        (fs.flatMap fun f => match f with
          | value_seq seq _ :: base =>
            seq.enum.map fun ie => valfile.push base ((ie.2.clone E).set_pos ie.1)
          | _ => [])
        (op_elem_seq.mk_op E u1)
      ∧ ∀ (seq : List value) (base : valfile),
        (seq.enum.map fun ie => valfile.push base ((ie.2.clone E).set_pos ie.1)).length
            = seq.length
          ∧ ∀ (i : Nat) (e : value), seq[i]? = some e →
            (seq.enum.map fun ie => valfile.push base ((ie.2.clone E).set_pos ie.1))[i]?
                = some ((e.clone E).set_pos i :: base)
              ∧ ((e.clone E).set_pos i).pos = i := by
  refine ⟨?_, fun seq base => ⟨by simp, fun i e hi => ⟨?_, value.pos_set_pos _ _⟩⟩⟩
  · have h1 := op_elem_seq.elem_seq_emits E fs u u1 hseq h
    have h2 : op_elem_seq.derive E = fun f => match f with
        | value_seq seq _ :: base =>
          seq.enum.map fun ie => valfile.push base ((ie.2.clone E).set_pos ie.1)
        | _ => [] := by
      funext f
      cases f with
      | nil => rfl
      | cons v rest =>
        cases v <;> first
          | rfl
          | exact op_elem_seq.push_elems_eq_map E rest 0 _
    rw [h2] at h1
    exact h1
  · rw [List.getElem?_map, List.enum, List.getElem?_enumFrom, hi]
    simp [valfile.push]

theorem elem_seq_next_enumerates_elements_witness :
    emits (op_elem_seq.mk_op (value_ops.stand_in fun _ _ => true) (finite_upstream.of
        [[value_seq [value_str "a" 7, value_seq [value_str "b" 0] 9] 0, value_str "x" 0],
         [value_seq [] 1],
         [value_seq [value_cst ⟨5, dec_constant_dom⟩ 3] 2]]))
      [[value_str "a" 0, value_str "x" 0],
       [value_seq [value_str "b" 0] 1, value_str "x" 0],
       [value_cst ⟨5, dec_constant_dom⟩ 0]]
      (op_elem_seq.mk_op (value_ops.stand_in fun _ _ => true) ⟨[],
        [[value_seq [value_str "a" 7, value_seq [value_str "b" 0] 9] 0, value_str "x" 0],
         [value_seq [] 1],
         [value_seq [value_cst ⟨5, dec_constant_dom⟩ 3] 2]]⟩) :=
  (elem_seq_next_enumerates_elements (value_ops.stand_in fun _ _ => true)
    [[value_seq [value_str "a" 7, value_seq [value_str "b" 0] 9] 0, value_str "x" 0],
     [value_seq [] 1],
     [value_seq [value_cst ⟨5, dec_constant_dom⟩ 3] 2]] _ _
    (finite_upstream_emits _ _)
    (by intro f hf; simp at hf; rcases hf with rfl | rfl | rfl <;> exact ⟨_, _, _, rfl⟩)).1

/-- C32: `op_add_seq::operate` on the sequences `a` and `b` returns the sequence of the
elements of `a` in order followed by the elements of `b` in order, and
`op_length_seq::operate` returns the number of elements as a constant of the decimal
domain at position 0; so the length of what `op_add_seq` returns is the length of `a`
plus the length of `b`, adding with an empty sequence on either side returns the
elements of the other operand as they are, and `pred_empty_seq::result` on what
`op_add_seq` returns is yes iff both `a` and `b` are empty (and no otherwise). -/
theorem add_seq_concatenates_and_length_counts (a_seq b_seq : List value) (a_pos b_pos : Nat) :
    op_add_seq.operate a_seq a_pos b_seq b_pos = value_seq (a_seq ++ b_seq) a_pos
      ∧ op_length_seq.operate a_seq a_pos = value_cst ⟨a_seq.length, dec_constant_dom⟩ 0
      ∧ (∀ r_seq r_pos, op_add_seq.operate a_seq a_pos b_seq b_pos = value_seq r_seq r_pos →
          op_length_seq.operate r_seq r_pos
              = value_cst ⟨(a_seq.length : Int) + (b_seq.length : Int), dec_constant_dom⟩ 0
            ∧ (pred_empty_seq.result r_seq r_pos = .yes ↔ a_seq = [] ∧ b_seq = [])
            ∧ (pred_empty_seq.result r_seq r_pos = .no ↔ ¬ (a_seq = [] ∧ b_seq = [])))
      ∧ op_add_seq.operate [] a_pos b_seq b_pos = value_seq b_seq a_pos
      ∧ op_add_seq.operate a_seq a_pos [] b_pos = value_seq a_seq a_pos
      ∧ (pred_empty_seq.result a_seq a_pos = .yes ↔ a_seq = []) := by
  have hadd : ∀ (x y : List value) (p q : Nat),
      op_add_seq.operate x p y q = value_seq (x ++ y) p := fun x y p q => by
    rw [op_add_seq.operate, foldl_concat]
  have hempty : ∀ (x : List value) (p : Nat),
      (pred_empty_seq.result x p = .yes ↔ x = [])
        ∧ (pred_empty_seq.result x p = .no ↔ ¬ x = []) := fun x p => by
    cases x <;> simp [pred_empty_seq.result, pred_result.of_bool]
  refine ⟨hadd _ _ _ _, rfl, fun r_seq r_pos hr => ?_, ?_, ?_, (hempty _ _).1⟩
  · rw [hadd] at hr
    injection hr with hr _
    subst hr
    refine ⟨by simp [op_length_seq.operate], ?_, ?_⟩
    · rw [(hempty _ _).1, List.append_eq_nil]
    · rw [(hempty _ _).2, List.append_eq_nil]
  · rw [hadd, List.nil_append]
  · rw [hadd, List.append_nil]

/-- C33: the operator that `builtin_attr_named::build_exec` builds is the `value` stage
over the `attr_named` stage, and whatever the upstream of that one gives, every frame
that the `attr_named` stage returns has an attribute on top: of a frame that it pulls,
it passes on only one with a DIE on top that has the attribute, with the attribute in
place of the DIE, and lets go of every other one.  So in the `value` stage
`pop_as <value_attr>` gives an attribute for every frame pulled, and the pull ends in a
fault only when the `attr_named` stage did. -/
theorem attr_named_hands_value_an_attribute (at_value : at_value_t) (m_atname : Nat)
    {σ : Type} [op σ] :
    (∀ (upstream : σ) (q : dwgrep_graph),
        (builtin_attr_named.build_exec at_value m_atname upstream q).m_upstream
          = dwop_f.mk_op (builtin_attr_named.o m_atname) upstream q)
      ∧ (∀ n (s s1 : dwop_f (builtin_attr_named.o m_atname) σ) (f : valfile),
          op.next n s = .yield f s1 → ∃ a d rest, f = value_attr a d 0 :: rest)
      ∧ (∀ n (s : dwop_f (builtin_attr_named.o m_atname) σ) (vf : valfile) (u : σ),
          op.next n s.m_upstream = .yield vf u →
          (∃ d p rest attr, vf = value_die d p :: rest ∧ dwarf_attr d m_atname = some attr
              ∧ dwop_f.body n s
                = .ret (.yield (value_attr attr d 0 :: rest) { s with m_upstream := u }))
            ∨ (vf ≠ []
              ∧ (∀ d p rest, vf = value_die d p :: rest → dwarf_attr d m_atname = none)
              ∧ ∃ s1, dwop_f.body n s = .again s1 ∧ s1.m_upstream = u)
            ∨ (vf = [] ∧ dwop_f.body n s = .ret .raise))
      ∧ (∀ n (s : builtin_value_attr.o at_value (dwop_f (builtin_attr_named.o m_atname) σ))
          (vf : valfile) (u : dwop_f (builtin_attr_named.o m_atname) σ),
          op.next n s.m_upstream = .yield vf u →
          ∃ a d vf1, vf.pop = some (value_attr a d 0, vf1))
      ∧ (∀ n (s : builtin_value_attr.o at_value (dwop_f (builtin_attr_named.o m_atname) σ)),
          s.m_vpr = none → builtin_value_attr.o.body n s = .ret .raise →
          op.next n s.m_upstream = .raise) := by
  refine ⟨fun _ _ => rfl, attr_named_next_yields_attr m_atname, attr_named_body m_atname,
    fun n s vf u h => ?_, fun n s hs hb => ?_⟩
  · obtain ⟨a, d, rest, rfl⟩ := attr_named_next_yields_attr m_atname n _ _ vf h
    exact ⟨a, d, rest, rfl⟩
  · cases hu : op.next n s.m_upstream with
    | yield vf u =>
      obtain ⟨a, d, rest, rfl⟩ := attr_named_next_yields_attr m_atname n _ _ vf hu
      exfalso
      simp only [builtin_value_attr.o.body, hs, hu, valfile.pop,
        builtin_value_attr.o.emit] at hb
      cases hv : at_value a d s.m_gr with
      | nil => simp [hv] at hb
      | cons v vs => simp [hv] at hb
    | done u => simp [builtin_value_attr.o.body, hs, hu] at hb
    | raise => rfl
    | out_of_fuel => simp [builtin_value_attr.o.body, hs, hu] at hb

end dwgrep
